import Mathlib

/-!
Verification development for the FPGA-retargeting transformation core:
the flagship state rewrite (`fpga_transform_state.py`: `fpga_update`,
`FPGATransformState.can_be_applied`, `FPGATransformState.apply`) and the two
placement passes (`fpga.py`: `fpga_global_to_local`,
`fpga_rr_interleave_containers_to_banks`).

Modelling conventions (shallow embedding):
* Python objects are values; object identity is modelled by per-state integer
  node ids together with a monotone `nextId` counter (a freshly added node
  always receives an id never used before in that state, exactly like a fresh
  Python object).
* The mutable SDFG is threaded functionally: every mutating routine returns
  the updated structure.
* Uncaught Python exceptions (NameError for an unbound variable, IndexError
  on `[0]` of an empty edge list, KeyError for a missing array descriptor in
  `node.desc(sdfg)`) are modelled by `Option`: `none` means the source
  routine dies with an exception.
* `state.scope_dict()` is recomputed by the source from the multigraph; we
  carry the scope relation (node id, enclosing map-entry id) as explicit
  state data.  Nodes absent from the relation are unscoped, which also
  covers nodes added by the rewrite itself.
-/

/-- Storage placement tags (`dace.dtypes.StorageType`); only the members the
transformation mentions, plus representative others. -/
inductive StorageType where
  | Default
  | FPGA_Global
  | FPGA_Local
  | GPU_Global
  | Register
deriving DecidableEq, Repr

/-- Schedule tags (`dace.dtypes.ScheduleType`); only the members the
transformation mentions, plus representative others. -/
inductive ScheduleType where
  | Default
  | Sequential
  | CPU_Multicore
  | MPI
  | GPU_Device
  | GPU_ThreadBlock
  | FPGA_Device
deriving DecidableEq, Repr

/-- Kind of a data descriptor: `dace.data.Array` versus stream-like
descriptors (`isinstance(node.desc(sdfg), dace.data.Array)` checks). -/
inductive DataKind where
  | array
  | stream
deriving DecidableEq, Repr

/-- Modelled from the spec: a symbolic size expression is either a literal
constant or a free symbol to be looked up in the graph's symbol bindings
(the symbolic-expression engine itself is an external collaborator). -/
inductive SymExpr where
  | const (n : Int)
  | sym (s : String)
deriving DecidableEq, Repr

/-- Array descriptor (`dace.data.Array` and friends): the attributes read or
written by the transformation and the placement passes. -/
structure ArrayDesc where
  kind : DataKind
  shape : List Nat
  dtype : Nat
  materialize_func : Option Nat
  transient : Bool
  storage : StorageType
  allow_conflicts : Bool
  access_order : Nat
  strides : List Nat
  offset : List Int
  total_size : SymExpr
  location : List (String × Nat)
deriving DecidableEq, Repr

/-- Memlet payload of a dataflow edge: referenced data name, element volume,
subset range, vector length and optional write-conflict resolution. -/
structure Memlet where
  data : Option String
  num_accesses : Int
  subset : List (Int × Int × Int)
  veclen : Nat
  wcr : Option String
deriving DecidableEq, Repr

/-- Intra-state multigraph edge: endpoint node ids, optional connector names
and the memlet payload. -/
structure SEdge where
  src : Nat
  src_conn : Option String
  dst : Nat
  dst_conn : Option String
  data : Memlet
deriving DecidableEq, Repr

/-- Inter-state control edge (`dace.graph.edges.InterstateEdge`): endpoints
are state indices; `uncond` is true for the default unconditional edge. -/
structure ISEdge where
  src : Nat
  dst : Nat
  uncond : Bool
deriving DecidableEq, Repr

mutual
/-- Dataflow node variants (`dace.graph.nodes`).  Map entries carry their
map's range dimensionality and schedule; map exits carry the schedule; a
nested-SDFG node owns a full sub-SDFG. -/
inductive SNode where
  | access (data : String)
  | mapEntry (dims : Nat) (schedule : ScheduleType)
  | mapExit (schedule : ScheduleType)
  | tasklet
  | nested (sd : SDFG)

/-- One control state: label, dataflow nodes keyed by id, edges, the scope
relation (node id to enclosing map-entry id) and the fresh-id counter. -/
inductive SDFGState where
  | mk (label : String) (nodes : List (Nat × SNode)) (edges : List SEdge)
       (scope : List (Nat × Nat)) (nextId : Nat)

/-- An SDFG: array catalog keyed by name, states (identified by list index),
inter-state edges and symbol bindings used by the symbolic resolver. -/
inductive SDFG where
  | mk (arrays : List (String × ArrayDesc)) (states : List SDFGState)
       (isedges : List ISEdge) (symbols : List (String × Int))
end

def SDFGState.label : SDFGState → String
  | .mk l _ _ _ _ => l

def SDFGState.nodes : SDFGState → List (Nat × SNode)
  | .mk _ ns _ _ _ => ns

def SDFGState.edges : SDFGState → List SEdge
  | .mk _ _ es _ _ => es

def SDFGState.scope : SDFGState → List (Nat × Nat)
  | .mk _ _ _ sc _ => sc

def SDFGState.nextId : SDFGState → Nat
  | .mk _ _ _ _ k => k

def SDFG.arrays : SDFG → List (String × ArrayDesc)
  | .mk a _ _ _ => a

def SDFG.states : SDFG → List SDFGState
  | .mk _ s _ _ => s

def SDFG.isedges : SDFG → List ISEdge
  | .mk _ _ e _ => e

def SDFG.symbols : SDFG → List (String × Int)
  | .mk _ _ _ sy => sy

/-- Catalog of abbreviation: association list of array descriptors. -/
abbrev Arrays := List (String × ArrayDesc)

/-- Node lookup by id inside a state (`graph` membership by identity). -/
def nodeById (st : SDFGState) (i : Nat) : Option SNode :=
  (st.nodes.find? (fun p => p.1 == i)).map (fun p => p.2)

/-- Update the storage tag of the catalog entry named `name` in place,
leaving every other attribute and entry untouched. -/
def setStorage (arrays : Arrays) (name : String) (s : StorageType) : Arrays :=
  arrays.map (fun p => if p.1 == name then (p.1, { p.2 with storage := s }) else p)

/-- The storage written by `fpga_update` for an access node: FPGA_Local at
depth at least two, otherwise FPGA_Local when scoped and FPGA_Global when
unscoped. -/
def fpgaTargetStorage (d : Nat) (inScope : Bool) : StorageType :=
  if d ≥ 2 then .FPGA_Local
  else if inScope then .FPGA_Local else .FPGA_Global

mutual
/-- One iteration of the node loop of `fpga_update`: the storage retag of an
access node still at default storage, the schedule retag of a
schedule-carrying node still at default schedule, and the recursion into a
nested SDFG.  A missing descriptor (where the source's `node.desc` would
fail) leaves the catalog untouched. -/
def fpga_update_node (arrays : Arrays) (scope : List (Nat × Nat)) (d : Nat)
    (i : Nat) (n : SNode) : Arrays × SNode :=
  match n with
  | .access dta =>
    (match arrays.lookup dta with
     | some desc =>
       if desc.storage = .Default then
         setStorage arrays dta (fpgaTargetStorage d ((scope.lookup i).isSome))
       else arrays
     | none => arrays, .access dta)
  | .mapEntry dims sch =>
    (arrays, .mapEntry dims (if sch = .Default then .FPGA_Device else sch))
  | .mapExit sch =>
    (arrays, .mapExit (if sch = .Default then .FPGA_Device else sch))
  | .tasklet => (arrays, .tasklet)
  | .nested sd => (arrays, .nested (fpga_update_sdfg sd (d + 1)))
termination_by structural n

/-- Fold of `fpga_update_node` over the node list in order, threading the
catalog. -/
def fpga_update_nodes (arrays : Arrays) (scope : List (Nat × Nat)) (d : Nat) :
    List (Nat × SNode) → Arrays × List (Nat × SNode)
  | [] => (arrays, [])
  | (i, n) :: rest =>
    let p := fpga_update_node arrays scope d i n
    let q := fpga_update_nodes p.1 scope d rest
    (q.1, (i, p.2) :: q.2)
termination_by structural ns => ns

/-- The source's `fpga_update(sdfg, state, depth)`: it reads and writes only
the owning SDFG's array catalog, so the catalog is passed explicitly. -/
def fpga_update (arrays : Arrays) (st : SDFGState) (d : Nat) :
    Arrays × SDFGState :=
  match st with
  | .mk lbl ns es sc k =>
    let p := fpga_update_nodes arrays sc d ns
    (p.1, .mk lbl p.2 es sc k)
termination_by structural st

/-- Fold of `fpga_update` over a state list (the `for s in node.sdfg.nodes()`
recursion), threading the nested catalog. -/
def fpga_update_states (arrays : Arrays) (d : Nat) :
    List SDFGState → Arrays × List SDFGState
  | [] => (arrays, [])
  | s :: rest =>
    let p := fpga_update arrays s d
    let q := fpga_update_states p.1 d rest
    (q.1, p.2 :: q.2)
termination_by structural ss => ss

/-- Recursion of `fpga_update` into a nested SDFG: every child state is
updated at the given depth against the nested SDFG's own catalog. -/
def fpga_update_sdfg (sd : SDFG) (d : Nat) : SDFG :=
  match sd with
  | .mk arrs sts ise sy =>
    let p := fpga_update_states arrs d sts
    .mk p.1 p.2 ise sy
termination_by structural sd
end

/-- Membership of a schedule in the set checked by the parent-scope walk of
`can_be_applied` (GPU_Device, FPGA_Device, GPU_ThreadBlock). -/
def accelSched (s : ScheduleType) : Bool :=
  s == .GPU_Device || s == .FPGA_Device || s == .GPU_ThreadBlock

/-- Membership of a schedule in the disallowed set of `can_be_applied`
(MPI, GPU_Device, FPGA_Device, GPU_ThreadBlock). -/
def disallowedSched (s : ScheduleType) : Bool :=
  s == .MPI || s == .GPU_Device || s == .FPGA_Device || s == .GPU_ThreadBlock

/-- The `while current_node is not None` walk of `can_be_applied`, starting
at a map entry and following the scope relation upward; returns true when a
visited map entry's schedule is GPU_Device, FPGA_Device or GPU_ThreadBlock.
Fuelled by the node count, which bounds any acyclic scope chain. -/
def chainHasAccel (st : SDFGState) : Nat → Nat → Bool
  | 0, _ => false
  | fuel + 1, j =>
    match nodeById st j with
    | some (.mapEntry _ sch) =>
      accelSched sch ||
        (match st.scope.lookup j with
         | some p => chainHasAccel st fuel p
         | none => false)
    | _ => false

/-- Per-node check of `FPGATransformState.can_be_applied`: an access node
must still be at default storage; a map entry must have at most three range
dimensions, a schedule outside the disallowed set, and no accelerator
schedule anywhere on its scope chain.  A missing descriptor (where
`node.desc` would fail) raises no objection. -/
def can_be_applied_node (arrays : Arrays) (st : SDFGState) (i : Nat) :
    SNode → Bool
  | .access dta =>
    (match arrays.lookup dta with
     | some desc => desc.storage == .Default
     | none => true)
  | .mapEntry dims sch =>
    decide (dims ≤ 3) && !(disallowedSched sch) &&
      !(chainHasAccel st (st.nodes.length + 1) i)
  | _ => true

/-- The source's `FPGATransformState.can_be_applied` specialised to the
matched state (the pattern binds exactly one state). -/
def FPGATransformState.can_be_applied (sdfg : SDFG) (st : SDFGState) : Bool :=
  st.nodes.all (fun p => can_be_applied_node sdfg.arrays st p.1 p.2)

/-- Incident edges of a node inside a state (`all_edges`): in-edges followed
by out-edges.  If the node is not a member of the state's graph the source's
underlying graph silently yields no edges. -/
def allEdges (st : SDFGState) (i : Nat) : List SEdge :=
  if st.nodes.any (fun p => p.1 == i) then
    st.edges.filter (fun e => e.dst == i) ++ st.edges.filter (fun e => e.src == i)
  else []

/-- Source nodes of a state (`nxutil.find_source_nodes`): in-degree zero, in
node order. -/
def findSourceNodes (st : SDFGState) : List (Nat × SNode) :=
  st.nodes.filter (fun p => st.edges.all (fun e => e.dst != p.1))

/-- Sink nodes of a state (`nxutil.find_sink_nodes`): out-degree zero, in
node order. -/
def findSinkNodes (st : SDFGState) : List (Nat × SNode) :=
  st.nodes.filter (fun p => st.edges.all (fun e => e.src != p.1))

def SDFGState.setEdges : SDFGState → List SEdge → SDFGState
  | .mk l ns _ sc k, es => .mk l ns es sc k

/-- Re-point every intra-state edge leaving node `old` to leave node `new`
instead (`nxutil.change_edge_src` on a state). -/
def changeEdgeSrc (st : SDFGState) (old new : Nat) : SDFGState :=
  st.setEdges (st.edges.map (fun e => if e.src == old then { e with src := new } else e))

/-- Re-point every intra-state edge entering node `old` to enter node `new`
instead (`nxutil.change_edge_dest` on a state). -/
def changeEdgeDest (st : SDFGState) (old new : Nat) : SDFGState :=
  st.setEdges (st.edges.map (fun e => if e.dst == old then { e with dst := new } else e))

/-- Remove a node and its incident edges (`state.remove_node`). -/
def removeNode (st : SDFGState) (i : Nat) : SDFGState :=
  match st with
  | .mk l ns es sc k =>
    .mk l (ns.filter (fun p => p.1 != i))
      (es.filter (fun e => e.src != i && e.dst != i)) sc k

/-- Create a fresh access node for `name` (`add_read` / `add_write`): the
new node gets the state's next free id, modelling a fresh Python object. -/
def addAccess (st : SDFGState) (name : String) : SDFGState × Nat :=
  match st with
  | .mk l ns es sc k => (.mk l (ns ++ [(k, .access name)]) es sc (k + 1), k)

/-- Append an intra-state edge (`state.add_edge`). -/
def addStateEdge (st : SDFGState) (e : SEdge) : SDFGState :=
  st.setEdges (st.edges ++ [e])

/-- The subset `[(0, s - 1, 1) for s in array.shape]` built by `apply`. -/
def fullRange (shape : List Nat) : List (Int × Int × Int) :=
  shape.map (fun s => (0, (s : Int) - 1, 1))

/-- Number of elements of a range (`Range.num_elements`): product of the
per-dimension extents. -/
def rangeNumElements (r : List (Int × Int × Int)) : Int :=
  r.foldl (fun acc t => acc * ((t.2.1 - t.1) / t.2.2 + 1)) 1

/-- The transient FPGA-global proxy descriptor created by
`sdfg.add_array('fpga_' + name, ...)` inside `apply`: shape, dtype,
materialisation, conflict metadata, strides and offset mirror the host
array; the descriptor is a transient Array in FPGA_Global storage with a
fresh (empty) location map.  The total size mirrors the host array's, being
derived from the same shape. -/
def mkProxy (a : ArrayDesc) : ArrayDesc :=
  { kind := .array
    shape := a.shape
    dtype := a.dtype
    materialize_func := a.materialize_func
    transient := true
    storage := .FPGA_Global
    allow_conflicts := a.allow_conflicts
    access_order := a.access_order
    strides := a.strides
    offset := a.offset
    total_size := a.total_size
    location := [] }

/-- The full-extent host-side copy memlet
`Memlet(node.data, full_range.num_elements(), full_range, 1)`. -/
def fullMemlet (name : String) (shape : List Nat) : Memlet :=
  { data := some name
    num_accesses := rangeNumElements (fullRange shape)
    subset := fullRange shape
    veclen := 1
    wcr := none }

/-- Additions contributed by one access node during the WCR-discovery loop
of `apply`: for every incident edge carrying a WCR annotation, ascend to
`graph.parent.parent` (`pp`, the state two ownership levels up) and collect
every edge of that state whose source connector equals the written data
name, or whose destination is an access node of that same name; the
collected destinations join the input nodes and the WCR input set.
Reading `.data` off a non-access edge destination dies (AttributeError). -/
def wcrEdgeAdds (pp : Option SDFGState) (gE : SDFGState) (i : Nat) :
    Option (List (Nat × SNode) × List Nat) :=
  (allEdges gE i).foldlM (fun acc e =>
    if e.data.wcr.isSome then
      match nodeById gE e.dst with
      | some (.access dstData) =>
        match pp with
        | none => some acc
        | some p =>
          p.edges.foldlM (fun acc2 pe =>
            if pe.src_conn == some dstData ||
               (match nodeById p pe.dst with
                | some (.access d2) => d2 == dstData
                | _ => false) then
              match nodeById p pe.dst with
              | some m => some (acc2.1 ++ [(pe.dst, m)], acc2.2 ++ [pe.dst])
              | none => none
            else some acc2) acc
      | _ => none
    else some acc) ([], [])

mutual
/-- One stack entry of the WCR-discovery loop: a nested-SDFG node pushes all
nodes of all its child states (processed LIFO, hence in reverse order,
before the remaining stack); an access node contributes `wcrEdgeAdds`.
`own` is the state owning this node (the `parent.parent` of entries pushed
for a nested child), `gE` the graph the entry was paired with for
`all_edges` (they differ only for the initial cross-pairing of the matched
state's nodes with every top-level state). -/
def wcrVisitNode (pp : Option SDFGState) (own : SDFGState) (gE : SDFGState)
    (i : Nat) : SNode → Option (List (Nat × SNode) × List Nat)
  | .nested (.mk _ sts _ _) => wcrVisitStates own sts
  | .access _ => wcrEdgeAdds pp gE i
  | _ => some ([], [])
termination_by structural n => n

/-- LIFO processing of the child states of a nested SDFG node owned by
`own`: later states are popped first. -/
def wcrVisitStates (own : SDFGState) :
    List SDFGState → Option (List (Nat × SNode) × List Nat)
  | [] => some ([], [])
  | .mk l ns es sc k :: rest => do
    let a ← wcrVisitStates own rest
    let b ← wcrVisitNodes (some own) (.mk l ns es sc k) ns
    pure (a.1 ++ b.1, a.2 ++ b.2)
termination_by structural ss => ss

/-- LIFO processing of the nodes of one child state: later nodes are popped
first. -/
def wcrVisitNodes (pp : Option SDFGState) (own : SDFGState) :
    List (Nat × SNode) → Option (List (Nat × SNode) × List Nat)
  | [] => some ([], [])
  | (j, m) :: rest => do
    let a ← wcrVisitNodes pp own rest
    let b ← wcrVisitNode pp own own j m
    pure (a.1 ++ b.1, a.2 ++ b.2)
termination_by structural ns => ns
end

/-- The WCR-discovery loop of `apply`: the stack is seeded with the matched
state's nodes paired with every top-level state (the source pairs
`state.nodes()` with each `sg` of the SDFG) and processed LIFO.  Top-level
entries have no grandparent state, so their WCR edges contribute nothing. -/
def wcrDiscover (sdfg : SDFG) (st : SDFGState) :
    Option (List (Nat × SNode) × List Nat) :=
  sdfg.states.reverse.foldlM (fun acc sg =>
    st.nodes.reverse.foldlM (fun acc2 p => do
      let b ← wcrVisitNode none st sg p.1 p.2
      pure (acc2.1 ++ b.1, acc2.2 ++ b.2)) acc) ([], [])

/-- Accumulator of the input/output staging loops of `apply`: the evolving
array catalog, the names registered in `fpga_data`, the staging (pre/post)
state under construction, and the matched state under rewrite. -/
structure StageAcc where
  arrays : Arrays
  fd : List String
  stage : SDFGState
  st : SDFGState

/-- One iteration of the input-staging loop of `apply` (lines 135-170 of the
source): skip non-access or non-Array inputs; register a proxy descriptor
only for a non-WCR input whose name is not yet registered; always add the
host-to-proxy full-range copy into the pre-state; for a non-WCR input,
rewire its outgoing edges to a fresh proxy access node and remove it from
the matched state.  A missing descriptor dies (KeyError in `node.desc`). -/
def inputStep (wcrIds : List Nat) (acc : StageAcc) (p : Nat × SNode) :
    Option StageAcc :=
  match p.2 with
  | .access dta =>
    match acc.arrays.lookup dta with
    | none => none
    | some arr =>
      if arr.kind != .array then some acc
      else
        let fresh := !(acc.fd.contains dta) && !(wcrIds.contains p.1)
        let arrays1 := if fresh then acc.arrays ++ [("fpga_" ++ dta, mkProxy arr)]
                       else acc.arrays
        let fd1 := if fresh then acc.fd ++ [dta] else acc.fd
        let r := addAccess acc.stage dta
        let w := addAccess r.1 ("fpga_" ++ dta)
        let pre1 := addStateEdge w.1
          { src := r.2, src_conn := none, dst := w.2, dst_conn := none
            data := fullMemlet dta arr.shape }
        let st1 := if !(wcrIds.contains p.1) then
            let f := addAccess acc.st ("fpga_" ++ dta)
            removeNode (changeEdgeSrc f.1 p.1 f.2) p.1
          else acc.st
        some ⟨arrays1, fd1, pre1, st1⟩
  | _ => some acc

/-- One iteration of the output-staging loop of `apply` (lines 180-215 of
the source): skip non-access or non-Array outputs; register a proxy
descriptor whenever the name is not yet registered (no WCR exemption); add
the proxy-to-host full-range copy into the post-state (the copy memlet
references the proxy name); rewire the node's incoming edges to a fresh
proxy access node and remove it from the matched state. -/
def outputStep (acc : StageAcc) (p : Nat × SNode) : Option StageAcc :=
  match p.2 with
  | .access dta =>
    match acc.arrays.lookup dta with
    | none => none
    | some arr =>
      if arr.kind != .array then some acc
      else
        let fresh := !(acc.fd.contains dta)
        let arrays1 := if fresh then acc.arrays ++ [("fpga_" ++ dta, mkProxy arr)]
                       else acc.arrays
        let fd1 := if fresh then acc.fd ++ [dta] else acc.fd
        let wn := addAccess acc.stage dta
        let rn := addAccess wn.1 ("fpga_" ++ dta)
        let post1 := addStateEdge rn.1
          { src := rn.2, src_conn := none, dst := wn.2, dst_conn := none
            data := fullMemlet ("fpga_" ++ dta) arr.shape }
        let f := addAccess acc.st ("fpga_" ++ dta)
        let st1 := removeNode (changeEdgeDest f.1 p.1 f.2) p.1
        some ⟨arrays1, fd1, post1, st1⟩
  | _ => some acc

/-- Scan of a nested SDFG for the access node bound to a connector name
(the vector-length propagation of `apply`): every match overwrites the
running width with the vector length of the first incident edge of the
matching node; a match with no incident edges dies (IndexError on `[0]`).
A connector that matches no node leaves the running width unchanged. -/
def scanInner (sd : SDFG) (conn : Option String) (v : Option Nat) :
    Option (Option Nat) :=
  sd.states.foldlM (fun v1 ist =>
    ist.nodes.foldlM (fun v2 p =>
      match p.2 with
      | .access d =>
        if some d == conn then
          match allEdges ist p.1 with
          | [] => none
          | e :: _ => some (some e.data.veclen)
        else some v2
      | _ => some v2) v1) v

/-- Per-edge refresh of the running width `veclen_`: if the destination is
a nested SDFG the destination connector's scan runs first, then likewise
for the source; an edge with no nested endpoint leaves the width as is. -/
def edgeScanW (st : SDFGState) (v : Option Nat) (e : SEdge) : Option (Option Nat) := do
  let v1 ←
    match nodeById st e.dst with
    | some (.nested sd) => scanInner sd e.dst_conn v
    | _ => some v
  match nodeById st e.src with
  | some (.nested sd) => scanInner sd e.src_conn v1
  | _ => some v1

/-- Rewrite of one memlet given the running width `veclen_`: a memlet
referencing a registered proxy name is redirected to the proxy and receives
the running width (dying with NameError when the width is still unbound);
any other memlet is untouched. -/
def rewriteEdge (fd : List String) (w : Option Nat) (e : SEdge) : Option SEdge :=
  match e.data.data with
  | some d =>
    if fd.contains d then
      match w with
      | some wv =>
        some { e with data := { e.data with data := some ("fpga_" ++ d), veclen := wv } }
      | none => none
    else some e
  | none => some e

/-- One iteration of the memlet-rewrite loop: refresh the running width
from any nested-SDFG endpoint of the edge, then rewrite the memlet. -/
def pvStep (fd : List String) (st : SDFGState)
    (acc : Option Nat × List SEdge) (e : SEdge) :
    Option (Option Nat × List SEdge) := do
  let v2 ← edgeScanW st acc.1 e
  let e1 ← rewriteEdge fd v2 e
  pure (v2, acc.2 ++ [e1])

/-- The memlet-rewrite loop of `apply` (lines 222-243 of the source): for
every edge, first refresh the running width `veclen_` from any nested-SDFG
endpoint's matching connector, then, if the memlet's data name has a
registered proxy, rewrite the data reference to the proxy name and set the
vector length to the running width.  Using the running width while it is
still unbound dies (NameError), exactly as in the source. -/
def propagateVeclen (fd : List String) (st : SDFGState) : Option SDFGState := do
  let r ← st.edges.foldlM (pvStep fd st) (none, [])
  pure (st.setEdges r.2)

/-- Redirect inter-state edges entering state `old` to enter `new`
(`nxutil.change_edge_dest` on the SDFG). -/
def isChangeDest (es : List ISEdge) (old new : Nat) : List ISEdge :=
  es.map (fun e => if e.dst == old then { e with dst := new } else e)

/-- Redirect inter-state edges leaving state `old` to leave `new`
(`nxutil.change_edge_src` on the SDFG). -/
def isChangeSrc (es : List ISEdge) (old new : Nat) : List ISEdge :=
  es.map (fun e => if e.src == old then { e with src := new } else e)

/-- The `if inputs` guard around the input-staging loop of `apply`: an empty
input list leaves the accumulator untouched. -/
def stageIn (wcrIds : List Nat) (inputs : List (Nat × SNode))
    (acc0 : StageAcc) : Option StageAcc :=
  if inputs.isEmpty then some acc0 else inputs.foldlM (inputStep wcrIds) acc0

/-- The `if outputs` guard around the output-staging loop of `apply`: an
empty output list leaves the accumulator untouched. -/
def stageOut (outputs : List (Nat × SNode)) (acc0 : StageAcc) :
    Option StageAcc :=
  if outputs.isEmpty then some acc0 else outputs.foldlM outputStep acc0

/-- The source's `FPGATransformState.apply` on the state at index `idx`:
source/sink computation, WCR discovery, input staging with `pre_<label>`
insertion, output staging with `post_<label>` insertion, memlet rewrite
with vector-length propagation, and the final recursive retagging by
`fpga_update` at depth 0.  `none` models the source dying with an uncaught
exception. -/
def FPGATransformState.apply (sdfg : SDFG) (idx : Nat) : Option SDFG := do
  let state ← sdfg.states.get? idx
  let inputs0 := findSourceNodes state
  let outputs := findSinkNodes state
  let w ← wcrDiscover sdfg state
  let inputs := inputs0 ++ w.1
  let wcrIds := w.2
  let n0 := sdfg.states.length
  let inRes ← stageIn wcrIds inputs
    ⟨sdfg.arrays, [], .mk ("pre_" ++ state.label) [] [] [] 0, state⟩
  let isedges1 :=
    if inputs.isEmpty then sdfg.isedges
    else isChangeDest sdfg.isedges idx n0 ++ [⟨n0, idx, true⟩]
  let postIdx := n0 + (if inputs.isEmpty then 0 else 1)
  let outRes ← stageOut outputs
    ⟨inRes.arrays, inRes.fd, .mk ("post_" ++ state.label) [] [] [] 0, inRes.st⟩
  let isedges2 :=
    if outputs.isEmpty then isedges1
    else isChangeSrc isedges1 idx postIdx ++ [⟨idx, postIdx, true⟩]
  let state3 ← propagateVeclen outRes.fd outRes.st
  let u := fpga_update outRes.arrays state3 0
  let statesFinal :=
    (sdfg.states.set idx u.2)
      ++ (if inputs.isEmpty then [] else [inRes.stage])
      ++ (if outputs.isEmpty then [] else [outRes.stage])
  pure (.mk u.1 statesFinal isedges2 sdfg.symbols)

/-- Modelled from the spec: the symbolic resolver
(`dace.symbolic.resolve_symbol_to_constant`, an external collaborator)
returns the constant when the expression is literal or its symbol is bound
in the graph's symbol bindings, and reports unresolved otherwise. -/
def resolve_symbol_to_constant (e : SymExpr) (syms : List (String × Int)) :
    Option Int :=
  match e with
  | .const n => some n
  | .sym s => syms.lookup s

/-- Direct reference of an array name by an access node of a state (not
descending into nested SDFGs). -/
def stateHasDirectRef (st : SDFGState) (name : String) : Bool :=
  st.nodes.any (fun p =>
    match p.2 with
    | .access d => d == name
    | _ => false)

mutual
/-- Array names referenced by a node, descending into nested SDFGs. -/
def nodeRefNames : SNode → List String
  | .access d => [d]
  | .nested (.mk _ sts _ _) => statesRefNames sts
  | _ => []
termination_by structural n => n

def nodesRefNames : List (Nat × SNode) → List String
  | [] => []
  | (_, n) :: rest => nodeRefNames n ++ nodesRefNames rest
termination_by structural ns => ns

/-- Array names referenced anywhere within a state, nested content
included. -/
def stateRefNames : SDFGState → List String
  | .mk _ ns _ _ _ => nodesRefNames ns
termination_by structural st => st

def statesRefNames : List SDFGState → List String
  | [] => []
  | s :: rest => stateRefNames s ++ statesRefNames rest
termination_by structural ss => ss
end

/-- Modelled from the spec: `sdfg.shared_transients()` membership — the
name is referenced from more than one top-level state (each reference found
by a recursive walk that follows nested-graph boundaries). -/
def sharedTransientsContains (sd : SDFG) (name : String) : Bool :=
  2 ≤ sd.states.countP (fun st => (stateRefNames st).contains name)

mutual
/-- Modelled from the spec: the recursive access-node reclassification of
`fpga_global_to_local` (`all_nodes_recursive` with `trace_nested_access`,
both external collaborators).  At every graph level whose states directly
contain an access node referring to the name, the live descriptor of that
name in the level's own catalog is reclassified to FPGA_Local; the walk
then descends into every nested SDFG. -/
def demoteRefsSDFG (name : String) : SDFG → SDFG
  | .mk arrs sts ise sy =>
    let arrs1 := if sts.any (fun st => stateHasDirectRef st name) then
        setStorage arrs name .FPGA_Local
      else arrs
    .mk arrs1 (demoteRefsStates name sts) ise sy
termination_by structural sd => sd

def demoteRefsStates (name : String) : List SDFGState → List SDFGState
  | [] => []
  | s :: rest => demoteRefsState name s :: demoteRefsStates name rest
termination_by structural ss => ss

def demoteRefsState (name : String) : SDFGState → SDFGState
  | .mk l ns es sc k => .mk l (demoteRefsNodes name ns) es sc k
termination_by structural st => st

def demoteRefsNodes (name : String) :
    List (Nat × SNode) → List (Nat × SNode)
  | [] => []
  | (i, n) :: rest => (i, demoteRefsNode name n) :: demoteRefsNodes name rest
termination_by structural ns => ns

def demoteRefsNode (name : String) : SNode → SNode
  | .nested sd => .nested (demoteRefsSDFG name sd)
  | .access d => .access d
  | .mapEntry dims sch => .mapEntry dims sch
  | .mapExit sch => .mapExit sch
  | .tasklet => .tasklet
termination_by structural n => n
end

/-- Replace the top-level catalog of an SDFG. -/
def SDFG.setArrays : SDFG → Arrays → SDFG
  | .mk _ sts ise sy, a => .mk a sts ise sy

/-- The demotion condition of `fpga_global_to_local` for one catalog entry:
transient, not a shared transient, FPGA_Global, and statically resolvable
total size. -/
def demotable (sd : SDFG) (name : String) (desc : ArrayDesc) : Bool :=
  desc.transient && !(sharedTransientsContains sd name) &&
    desc.storage == .FPGA_Global &&
    (resolve_symbol_to_constant desc.total_size sd.symbols).isSome

/-- One iteration of the catalog loop of `fpga_global_to_local`: look up
the current descriptor; if it satisfies the demotion condition, retag it to
FPGA_Local, reclassify every referencing access node's live descriptor and
count the demotion. -/
def g2lStep (acc : SDFG × Nat) (name : String) : SDFG × Nat :=
  match acc.1.arrays.lookup name with
  | none => acc
  | some desc =>
    if demotable acc.1 name desc then
      let sd1 := acc.1.setArrays (setStorage acc.1.arrays name .FPGA_Local)
      (demoteRefsSDFG name sd1, acc.2 + 1)
    else acc

/-- The source's `fpga_global_to_local(sdfg)`: walk the top-level catalog in
order; demote every transient, unshared, FPGA_Global array of resolvable
total size to FPGA_Local, reclassifying the live descriptor of every access
node anywhere in the graph that refers to the same name; count the
demotions and print a summary exactly when the process-wide `debugprint`
toggle is set (the toggle is passed explicitly, the printed lines are
returned). -/
def fpga_global_to_local (sdfg : SDFG) (debug : Bool) : SDFG × List String :=
  let names := sdfg.arrays.map (fun p => p.1)
  let r := names.foldl g2lStep (sdfg, 0)
  (r.1,
   if debug then ["Applied " ++ toString r.2 ++ " Global-To-Local."] else [])

/-- Assignment `desc.location["bank"] = v` on the free-form location map. -/
def setBank (loc : List (String × Nat)) (v : Nat) : List (String × Nat) :=
  loc.filter (fun q => q.1 != "bank") ++ [("bank", v)]

/-- Increment slot `i` of the per-bank counter list. -/
def bumpAt (l : List Nat) (i : Nat) : List Nat :=
  l.set i (l.getD i 0 + 1)

/-- One iteration of the round-robin loop: an FPGA_Global entry at catalog
position `i` gets `location["bank"] = i % num_banks` and bumps that bank's
counter; every other entry passes through untouched. -/
def rrStep (num_banks : Nat) (acc : Arrays × List Nat)
    (ip : Nat × (String × ArrayDesc)) : Arrays × List Nat :=
  if ip.2.2.storage == .FPGA_Global then
    (acc.1 ++ [(ip.2.1,
        { ip.2.2 with location := setBank ip.2.2.location (ip.1 % num_banks) })],
     bumpAt acc.2 (ip.1 % num_banks))
  else (acc.1 ++ [ip.2], acc.2)

/-- The source's `fpga_rr_interleave_containers_to_banks(sdfg, num_banks)`:
enumerate the catalog in insertion order; the i-th entry (position among
all entries) with FPGA_Global storage gets `location["bank"] = i % num_banks`
and increments that bank's counter; every other entry is untouched.
Returns the updated SDFG and the per-bank allocation counts. -/
def fpga_rr_interleave_containers_to_banks (sdfg : SDFG) (num_banks : Nat) :
    SDFG × List Nat :=
  let r := sdfg.arrays.enum.foldl (rrStep num_banks)
    ([], List.replicate num_banks 0)
  (sdfg.setArrays r.1, r.2)

/-- Absence of write-conflict-resolution annotations on an edge list. -/
def edgesNoWCR (es : List SEdge) : Bool :=
  es.all (fun e => e.data.wcr.isNone)

mutual
/-- Absence of WCR annotations inside a node (descending into nested
SDFGs). -/
def nodeNoWCR : SNode → Bool
  | .nested (.mk _ sts _ _) => statesNoWCR sts
  | _ => true
termination_by structural n => n

def nodesNoWCR : List (Nat × SNode) → Bool
  | [] => true
  | (_, n) :: rest => nodeNoWCR n && nodesNoWCR rest
termination_by structural ns => ns

/-- Absence of WCR annotations anywhere in a state, nested content
included. -/
def stateNoWCR : SDFGState → Bool
  | .mk _ ns es _ _ => edgesNoWCR es && nodesNoWCR ns
termination_by structural st => st

def statesNoWCR : List SDFGState → Bool
  | [] => true
  | s :: rest => stateNoWCR s && statesNoWCR rest
termination_by structural ss => ss

/-- Absence of WCR annotations anywhere in an SDFG. -/
def sdfgNoWCR : SDFG → Bool
  | .mk _ sts _ _ => statesNoWCR sts
end

/-- Well-formedness of the fresh-id counter: every node id is below
`nextId` (Python object identity can never collide with a new object). -/
def stWFb (st : SDFGState) : Bool :=
  st.nodes.all (fun p => p.1 < st.nextId)

/-- A host array descriptor used by the concrete examples: a non-transient
default-storage one-dimensional Array of four elements. -/
def hostArr : ArrayDesc :=
  { kind := .array
    shape := [4]
    dtype := 0
    materialize_func := none
    transient := false
    storage := .Default
    allow_conflicts := false
    access_order := 0
    strides := [1]
    offset := [0]
    total_size := .const 4
    location := [] }

/-- A plain memlet referencing `name` with the given vector length. -/
def memOn (name : String) (v : Nat) : Memlet :=
  { data := some name, num_accesses := 4, subset := fullRange [4]
    veclen := v, wcr := none }

/-- Concrete graph refuting C1: the matched state is `X -> tasklet -> Y`
with no nested SDFG, so the memlet-rewrite loop reaches a proxied memlet
before any width has ever been scanned and dies with NameError. -/
def exBad : SDFG :=
  .mk [("X", hostArr), ("Y", hostArr)]
    [.mk "s0" [(0, .access "X"), (1, .tasklet), (2, .access "Y")]
      [⟨0, none, 1, none, memOn "X" 1⟩, ⟨1, none, 2, none, memOn "Y" 1⟩]
      [] 3]
    [] []

/-- Inner SDFG of the well-formed example: `xin -> tasklet -> yout` in one
child state, both inner arrays catalogued. -/
def innerW : SDFG :=
  .mk [("xin", { hostArr with transient := true }),
       ("yout", { hostArr with transient := true })]
    [.mk "i0" [(0, .access "xin"), (1, .tasklet), (2, .access "yout")]
      [⟨0, none, 1, none, memOn "xin" 1⟩, ⟨1, none, 2, none, memOn "yout" 1⟩]
      [] 3]
    [] []

/-- Concrete graph on which `apply` completes: the matched state is
`X -> NestedSDFG -> Y`, the canonical shape this transformation targets. -/
def exW : SDFG :=
  .mk [("X", hostArr), ("Y", hostArr)]
    [.mk "s0" [(0, .access "X"), (1, .nested innerW), (2, .access "Y")]
      [⟨0, none, 1, some "xin", memOn "X" 1⟩,
       ⟨1, some "yout", 2, none, memOn "Y" 1⟩]
      [] 3]
    [] []

/-- Inner SDFG of the WCR example: a tasklet accumulates into access node
`w` through a WCR-annotated edge; access node `a` is the read connector. -/
def innerC6 : SDFG :=
  .mk [("w", { hostArr with transient := true }),
       ("a", { hostArr with transient := true })]
    [.mk "i0" [(0, .tasklet), (1, .access "w"), (2, .access "a")]
      [⟨0, none, 1, none,
        { data := some "w", num_accesses := 4, subset := fullRange [4]
          veclen := 1, wcr := some "lambda a, b: a + b" }⟩,
       ⟨2, none, 0, none, memOn "a" 1⟩]
      [] 3]
    [] []

/-- Concrete graph refuting the proxy-creation conjunct of C6: the nested
SDFG accumulates into `W` through a WCR edge, so `W` joins the input nodes
as a WCR input node; `W` keeps an outgoing consumer edge, hence it is not a
sink, and no step ever registers a proxy descriptor for it. -/
def exC6 : SDFG :=
  .mk [("A", hostArr), ("W", hostArr)]
    [.mk "s0"
      [(0, .access "A"), (1, .nested innerC6), (2, .access "W"), (3, .tasklet)]
      [⟨0, none, 1, some "a", memOn "A" 1⟩,
       ⟨1, some "w", 2, none, memOn "W" 1⟩,
       ⟨2, none, 3, none, memOn "W" 1⟩]
      [] 4]
    [] []

/-- Nested SDFG used by the C7 counterexample: connector `a` is bound to an
access node whose single incident edge has vector length 4. -/
def innerC7 : SDFG :=
  .mk [("a", { hostArr with transient := true })]
    [.mk "i0" [(0, .access "a"), (1, .tasklet)]
      [⟨0, none, 1, none, memOn "a" 4⟩]
      [] 2]
    [] []

/-- Concrete state refuting C7: the first edge leaves a nested SDFG (the
scan records width 4); the second edge joins two plain access nodes yet its
proxied memlet still receives the stale width 4. -/
def exC7State : SDFGState :=
  .mk "s0"
    [(0, .nested innerC7), (1, .access "X1"), (2, .access "P"), (3, .access "Q")]
    [⟨0, some "a", 1, none, memOn "X" 7⟩,
     ⟨2, none, 3, none, memOn "Y" 1⟩]
    [] 4

/-- Proxy registry fed to the C7 counterexample: both `X` and `Y` carry a
registered proxy. -/
def exC7Fd : List String := ["X", "Y"]

/-! Lemmas for the round-robin interleaving pass (claims C3 and C10). -/

/-- Effect of the round-robin pass on the catalog entry at position `i`. -/
def rrEff (B : Nat) (ip : Nat × (String × ArrayDesc)) : String × ArrayDesc :=
  if ip.2.2.storage == .FPGA_Global then
    (ip.2.1, { ip.2.2 with location := setBank ip.2.2.location (ip.1 % B) })
  else ip.2

/-- Bank-counter fold over the position-and-globality mask. -/
def bankFold (B : Nat) (c : List Nat) (l : List (Nat × Bool)) : List Nat :=
  l.foldl (fun c2 ib => if ib.2 then bumpAt c2 (ib.1 % B) else c2) c

theorem rrStep_eq (B : Nat) (acc : Arrays × List Nat)
    (ip : Nat × (String × ArrayDesc)) :
    rrStep B acc ip = (acc.1 ++ [rrEff B ip],
      if ip.2.2.storage == .FPGA_Global then bumpAt acc.2 (ip.1 % B)
      else acc.2) := by
  by_cases h : (ip.2.2.storage == StorageType.FPGA_Global) = true <;>
    simp [rrStep, rrEff, h]

theorem rrFold_arrays (B : Nat) :
    ∀ (l : List (Nat × (String × ArrayDesc))) (as : Arrays) (c : List Nat),
    (l.foldl (rrStep B) (as, c)).1 = as ++ l.map (rrEff B) := by
  intro l
  induction l with
  | nil => intro as c; simp
  | cons ip rest ih =>
    intro as c
    rw [List.foldl_cons, rrStep_eq, ih]
    simp

theorem rrFold_counts (B : Nat) :
    ∀ (l : List (Nat × (String × ArrayDesc))) (as : Arrays) (c : List Nat),
    (l.foldl (rrStep B) (as, c)).2 =
      bankFold B c (l.map (fun ip => (ip.1, ip.2.2.storage == .FPGA_Global))) := by
  intro l
  induction l with
  | nil => intro as c; simp [bankFold]
  | cons ip rest ih =>
    intro as c
    rw [List.foldl_cons, rrStep_eq, ih]
    by_cases h : (ip.2.2.storage == StorageType.FPGA_Global) = true <;>
      simp [bankFold, h]

theorem bumpAt_length (l : List Nat) (i : Nat) :
    (bumpAt l i).length = l.length := by
  simp [bumpAt]

theorem bumpAt_sum (l : List Nat) (i : Nat) (h : i < l.length) :
    (bumpAt l i).sum = l.sum + 1 := by
  induction l generalizing i with
  | nil => simp at h
  | cons a t ih =>
    cases i with
    | zero => simp [bumpAt]; omega
    | succ j =>
      have hj : j < t.length := by simpa using h
      have := ih j hj
      simp only [bumpAt, List.set_cons_succ, List.getD_cons_succ, List.sum_cons] at *
      omega

theorem bankFold_length (B : Nat) :
    ∀ (l : List (Nat × Bool)) (c : List Nat), (bankFold B c l).length = c.length := by
  intro l
  induction l with
  | nil => intro c; simp [bankFold]
  | cons ib rest ih =>
    intro c
    by_cases h : ib.2 = true
    · simp only [bankFold, List.foldl_cons, h, if_true] at ih ⊢
      rw [ih, bumpAt_length]
    · have hf : ib.2 = false := by simpa using h
      simp only [bankFold, List.foldl_cons, hf, Bool.false_eq_true, if_false] at ih ⊢
      exact ih c

theorem bankFold_sum (B : Nat) (hB : 1 ≤ B) :
    ∀ (l : List (Nat × Bool)) (c : List Nat), c.length = B →
    (bankFold B c l).sum = c.sum + l.countP (fun ib => ib.2) := by
  intro l
  induction l with
  | nil => intro c _; simp [bankFold]
  | cons ib rest ih =>
    intro c hc
    rw [List.countP_cons]
    by_cases h : ib.2 = true
    · have hlt : ib.1 % B < c.length := by rw [hc]; exact Nat.mod_lt _ hB
      have hlen : (bumpAt c (ib.1 % B)).length = B := by rw [bumpAt_length, hc]
      have h2 := ih (bumpAt c (ib.1 % B)) hlen
      simp only [bankFold, List.foldl_cons, h, if_true] at h2 ⊢
      rw [h2, bumpAt_sum c _ hlt]
      omega
    · have hf : ib.2 = false := by simpa using h
      have h2 := ih c hc
      simp only [bankFold, List.foldl_cons, hf, Bool.false_eq_true, if_false] at h2 ⊢
      rw [h2]
      simp

theorem setArrays_arrays (sdfg : SDFG) (a : Arrays) :
    (sdfg.setArrays a).arrays = a := by
  cases sdfg; simp [SDFG.setArrays, SDFG.arrays]

theorem rr_arrays (sdfg : SDFG) (B : Nat) :
    (fpga_rr_interleave_containers_to_banks sdfg B).1.arrays =
      sdfg.arrays.enum.map (rrEff B) := by
  simp [fpga_rr_interleave_containers_to_banks, rrFold_arrays, setArrays_arrays]

theorem rr_counts (sdfg : SDFG) (B : Nat) :
    (fpga_rr_interleave_containers_to_banks sdfg B).2 =
      bankFold B (List.replicate B 0)
        (sdfg.arrays.enum.map (fun ip => (ip.1, ip.2.2.storage == .FPGA_Global))) := by
  simp [fpga_rr_interleave_containers_to_banks, rrFold_counts]

theorem lookup_setBank (loc : List (String × Nat)) (v : Nat) :
    (setBank loc v).lookup "bank" = some v := by
  induction loc with
  | nil => simp [setBank, List.lookup]
  | cons q t ih =>
    by_cases h : q.1 = "bank"
    · simpa [setBank, h] using ih
    · have hb : ("bank" == q.1) = false := by
        simpa using fun e => h e.symm
      simp only [setBank, List.filter_cons] at ih ⊢
      have : (q.1 != "bank") = true := by simpa using h
      rw [this]
      simp only [if_true, List.cons_append, List.lookup, hb]
      exact ih

theorem map_enum_map_get {α β : Type} (f : Nat × α → β) (l : List α) (i : Nat) :
    (l.enum.map f)[i]? = l[i]?.map (fun a => f (i, a)) := by
  rw [List.getElem?_map, List.getElem?_enum]
  cases l[i]? <;> simp

theorem setBank_idem (loc : List (String × Nat)) (v : Nat) :
    setBank (setBank loc v) v = setBank loc v := by
  simp [setBank, List.filter_append, List.filter_filter]

theorem rrEff_storage (B : Nat) (ip : Nat × (String × ArrayDesc)) :
    (rrEff B ip).2.storage = ip.2.2.storage := by
  by_cases h : (ip.2.2.storage == StorageType.FPGA_Global) = true <;>
    simp [rrEff, h]

theorem rrEff_idem (B : Nat) (i : Nat) (p : String × ArrayDesc) :
    rrEff B (i, rrEff B (i, p)) = rrEff B (i, p) := by
  by_cases h : (p.2.storage == StorageType.FPGA_Global) = true
  · simp [rrEff, h, setBank_idem]
  · simp [rrEff, h]

/-- C3: for every graph and bank count B at least 1, the round-robin
interleaving pass assigns to each FPGA_Global catalog entry the bank
`i % B`, with `i` the entry's position among all catalog entries in
insertion order; every non-global entry is byte-for-byte untouched; the
per-bank counts sum to the number of FPGA_Global entries; and a catalog of
exactly five FPGA_Global arrays with B = 4 yields counts [2, 1, 1, 1]. -/
theorem claim_C3_round_robin (sdfg : SDFG) (B : Nat) (hB : 1 ≤ B) :
    (∀ (i : Nat) (nm : String) (d : ArrayDesc),
      sdfg.arrays[i]? = some (nm, d) → d.storage = .FPGA_Global →
      (fpga_rr_interleave_containers_to_banks sdfg B).1.arrays[i]? =
        some (nm, { d with location := setBank d.location (i % B) }) ∧
      (setBank d.location (i % B)).lookup "bank" = some (i % B)) ∧
    (∀ (i : Nat) (nm : String) (d : ArrayDesc),
      sdfg.arrays[i]? = some (nm, d) → d.storage ≠ .FPGA_Global →
      (fpga_rr_interleave_containers_to_banks sdfg B).1.arrays[i]? =
        some (nm, d)) ∧
    ((fpga_rr_interleave_containers_to_banks sdfg B).2.sum =
      sdfg.arrays.countP (fun p => p.2.storage == .FPGA_Global)) ∧
    (sdfg.arrays.length = 5 →
      (∀ p ∈ sdfg.arrays, p.2.storage = .FPGA_Global) → B = 4 →
      (fpga_rr_interleave_containers_to_banks sdfg B).2 = [2, 1, 1, 1]) := by
  refine ⟨?_, ?_, ?_, ?_⟩
  · intro i nm d hi hg
    constructor
    · rw [rr_arrays, map_enum_map_get, hi]
      simp [rrEff, hg]
    · exact lookup_setBank d.location (i % B)
  · intro i nm d hi hg
    rw [rr_arrays, map_enum_map_get, hi]
    have hb : (d.storage == StorageType.FPGA_Global) = false :=
      beq_eq_false_iff_ne.mpr hg
    rw [Option.map_some']
    simp [rrEff, hb]
  · rw [rr_counts, bankFold_sum B hB _ _ (by simp), List.countP_map]
    have h0 : (List.replicate B (0 : Nat)).sum = 0 := by simp
    rw [h0, Nat.zero_add]
    conv_rhs => rw [← List.enum_map_snd sdfg.arrays, List.countP_map]
    rfl
  · intro h5 hg hB4
    subst hB4
    rw [rr_counts]
    have hcg : ∀ ip ∈ sdfg.arrays.enum,
        (ip.1, ip.2.2.storage == StorageType.FPGA_Global) = (ip.1, true) := by
      intro ip hip
      have h2 : ip.2 ∈ sdfg.arrays :=
        List.getElem?_mem (List.mem_enum_iff_getElem?.mp hip)
      have := hg ip.2 h2
      simp [this]
    rw [List.map_congr_left hcg,
      show (fun ip : Nat × (String × ArrayDesc) => (ip.1, true)) =
        ((fun i => (i, true)) ∘ Prod.fst) from rfl,
      ← List.map_map, List.enum_map_fst, h5]
    rfl

/-- Catalog of exactly five FPGA_Global arrays, used as a witness input. -/
def exRR : SDFG :=
  .mk [("a0", { hostArr with storage := .FPGA_Global }),
       ("a1", { hostArr with storage := .FPGA_Global }),
       ("a2", { hostArr with storage := .FPGA_Global }),
       ("a3", { hostArr with storage := .FPGA_Global }),
       ("a4", { hostArr with storage := .FPGA_Global })] [] [] []

/-- Witness for C3 at the concrete five-array catalog with four banks. -/
theorem claim_C3_round_robin_witness :
    1 ≤ 4 ∧ (fpga_rr_interleave_containers_to_banks exRR 4).2 = [2, 1, 1, 1] :=
  ⟨by decide,
   (claim_C3_round_robin exRR 4 (by decide)).2.2.2 (by decide) (by decide) rfl⟩

theorem setArrays_setArrays (sdfg : SDFG) (a b : Arrays) :
    (sdfg.setArrays a).setArrays b = sdfg.setArrays b := by
  cases sdfg; simp [SDFG.setArrays]

theorem setArrays_self (sdfg : SDFG) : sdfg.setArrays sdfg.arrays = sdfg := by
  cases sdfg; simp [SDFG.setArrays, SDFG.arrays]

theorem rr_arrays_idem (sdfg : SDFG) (B : Nat) :
    ((fpga_rr_interleave_containers_to_banks sdfg B).1.arrays.enum.map (rrEff B)) =
      (fpga_rr_interleave_containers_to_banks sdfg B).1.arrays := by
  apply List.ext_getElem?
  intro i
  simp only [rr_arrays, map_enum_map_get, Option.map_map]
  cases sdfg.arrays[i]? <;> simp [rrEff_idem]

/-- C10: running the round-robin interleaving twice with the same bank
count leaves both the bank assignments in the location maps and the
returned per-bank count list exactly as after the first run. -/
theorem claim_C10_interleave_idempotent (sdfg : SDFG) (B : Nat) (_hB : 1 ≤ B) :
    fpga_rr_interleave_containers_to_banks
        (fpga_rr_interleave_containers_to_banks sdfg B).1 B =
      fpga_rr_interleave_containers_to_banks sdfg B := by
  have hmask :
      ((fpga_rr_interleave_containers_to_banks sdfg B).1.arrays.enum.map
        (fun ip => (ip.1, ip.2.2.storage == StorageType.FPGA_Global))) =
      (sdfg.arrays.enum.map
        (fun ip => (ip.1, ip.2.2.storage == StorageType.FPGA_Global))) := by
    apply List.ext_getElem?
    intro i
    simp only [rr_arrays, map_enum_map_get, Option.map_map]
    cases sdfg.arrays[i]? <;> simp [rrEff_storage]
  have harr : (fpga_rr_interleave_containers_to_banks
      (fpga_rr_interleave_containers_to_banks sdfg B).1 B).1 =
      (fpga_rr_interleave_containers_to_banks sdfg B).1 := by
    show ((fpga_rr_interleave_containers_to_banks sdfg B).1.setArrays _) = _
    rw [rrFold_arrays, List.nil_append, rr_arrays_idem, setArrays_self]
  have hcnt : (fpga_rr_interleave_containers_to_banks
      (fpga_rr_interleave_containers_to_banks sdfg B).1 B).2 =
      (fpga_rr_interleave_containers_to_banks sdfg B).2 := by
    rw [rr_counts, rr_counts, hmask]
  exact Prod.ext harr hcnt

/-- Witness for C10 at the concrete five-array catalog with four banks. -/
theorem claim_C10_interleave_idempotent_witness :
    fpga_rr_interleave_containers_to_banks
        (fpga_rr_interleave_containers_to_banks exRR 4).1 4 =
      fpga_rr_interleave_containers_to_banks exRR 4 :=
  claim_C10_interleave_idempotent exRR 4 (by decide)

/-! Lemmas and claim-side conditions for the applicability predicate
(claim C2). -/

theorem findById_of_mem {l : List (Nat × SNode)} {i : Nat} {n : SNode}
    (hnd : (l.map Prod.fst).Nodup) (hmem : (i, n) ∈ l) :
    l.find? (fun p => p.1 == i) = some (i, n) := by
  induction l with
  | nil => simp at hmem
  | cons q rest ih =>
    simp only [List.map_cons, List.nodup_cons] at hnd
    rcases List.mem_cons.mp hmem with h | h
    · subst h
      simp [List.find?]
    · have hne : q.1 ≠ i := by
        intro e
        exact hnd.1 (e ▸ (List.mem_map.mpr ⟨(i, n), h, rfl⟩))
      have hb : (q.1 == i) = false := beq_eq_false_iff_ne.mpr hne
      simp only [List.find?, hb]
      exact ih hnd.2 h

theorem nodeById_of_mem {st : SDFGState} {i : Nat} {n : SNode}
    (hnd : (st.nodes.map Prod.fst).Nodup) (hmem : (i, n) ∈ st.nodes) :
    nodeById st i = some n := by
  unfold nodeById
  rw [findById_of_mem hnd hmem]
  rfl

/-- Condition 1 of C2: some access node's descriptor is already at
non-default storage. -/
def C2storageViolation (sdfg : SDFG) (st : SDFGState) : Prop :=
  ∃ i dta desc, (i, SNode.access dta) ∈ st.nodes ∧
    sdfg.arrays.lookup dta = some desc ∧ desc.storage ≠ .Default

/-- Condition 2 of C2: some map entry has an iteration range of more than
three dimensions. -/
def C2dimViolation (st : SDFGState) : Prop :=
  ∃ i dims sch, (i, SNode.mapEntry dims sch) ∈ st.nodes ∧ dims > 3

/-- Condition 3 of C2: some map entry's schedule lies in the disallowed set
(MPI-distributed or an accelerator device/threadblock schedule). -/
def C2schedViolation (st : SDFGState) : Prop :=
  ∃ i dims sch, (i, SNode.mapEntry dims sch) ∈ st.nodes ∧
    disallowedSched sch = true

/-- Condition 4 of C2: some map entry has an enclosing ancestor scope whose
schedule is an accelerator device/threadblock schedule. -/
def C2ancestorViolation (st : SDFGState) : Prop :=
  ∃ i dims sch p, (i, SNode.mapEntry dims sch) ∈ st.nodes ∧
    st.scope.lookup i = some p ∧
    chainHasAccel st st.nodes.length p = true

theorem accel_subset_disallowed {s : ScheduleType} (h : accelSched s = true) :
    disallowedSched s = true := by
  cases s <;> simp_all [accelSched, disallowedSched]

/-- C2: the applicability predicate returns false exactly when the state
contains an access node at non-default storage, a map entry with a range of
more than three dimensions, a map entry with a disallowed schedule, or a
map entry below an accelerator-scheduled ancestor scope; on every state
violating none of the four conditions it returns true. -/
theorem claim_C2_can_be_applied (sdfg : SDFG) (st : SDFGState)
    (hnd : (st.nodes.map Prod.fst).Nodup) :
    FPGATransformState.can_be_applied sdfg st = false ↔
      (C2storageViolation sdfg st ∨ C2dimViolation st ∨
        C2schedViolation st ∨ C2ancestorViolation st) := by
  unfold FPGATransformState.can_be_applied
  rw [List.all_eq_false]
  constructor
  · rintro ⟨⟨i, n⟩, hmem, hp⟩
    match n with
    | .access dta =>
      match hl : sdfg.arrays.lookup dta with
      | none =>
        exact absurd (by simp [can_be_applied_node, hl]) hp
      | some desc =>
        refine Or.inl ⟨i, dta, desc, hmem, hl, ?_⟩
        intro e
        exact hp (by simp [can_be_applied_node, hl, e])
    | .mapEntry dims sch =>
      simp only [can_be_applied_node, Bool.and_eq_true, Bool.not_eq_true'] at hp
      by_cases h2 : dims > 3
      · exact Or.inr (Or.inl ⟨i, dims, sch, hmem, h2⟩)
      · by_cases h3 : disallowedSched sch = true
        · exact Or.inr (Or.inr (Or.inl ⟨i, dims, sch, hmem, h3⟩))
        · have hchain : chainHasAccel st (st.nodes.length + 1) i = true := by
            by_contra hc
            exact hp ⟨⟨by simpa using Nat.not_lt.mp h2,
              by simpa using h3⟩, by simpa using hc⟩
          have hnode : nodeById st i = some (.mapEntry dims sch) :=
            nodeById_of_mem hnd hmem
          rw [show st.nodes.length + 1 = st.nodes.length + 1 from rfl] at hchain
          simp only [chainHasAccel, hnode, Bool.or_eq_true] at hchain
          rcases hchain with hacc | hpar
          · exact Or.inr (Or.inr (Or.inl ⟨i, dims, sch, hmem,
              accel_subset_disallowed hacc⟩))
          · match hs : st.scope.lookup i with
            | none => rw [hs] at hpar; simp at hpar
            | some par =>
              rw [hs] at hpar
              exact Or.inr (Or.inr (Or.inr ⟨i, dims, sch, par, hmem, hs, hpar⟩))
    | .mapExit sch => simp [can_be_applied_node] at hp
    | .tasklet => simp [can_be_applied_node] at hp
    | .nested sd => simp [can_be_applied_node] at hp
  · rintro (⟨i, dta, desc, hmem, hl, hs⟩ | ⟨i, dims, sch, hmem, h2⟩ |
      ⟨i, dims, sch, hmem, h3⟩ | ⟨i, dims, sch, par, hmem, hsc, hch⟩)
    · refine ⟨(i, .access dta), hmem, ?_⟩
      simp only [can_be_applied_node, hl]
      simpa using hs
    · refine ⟨(i, .mapEntry dims sch), hmem, ?_⟩
      simp only [can_be_applied_node]
      intro hc
      simp only [Bool.and_eq_true] at hc
      exact absurd (of_decide_eq_true hc.1.1) (by omega)
    · refine ⟨(i, .mapEntry dims sch), hmem, ?_⟩
      simp only [can_be_applied_node]
      intro hc
      simp only [Bool.and_eq_true] at hc
      have := hc.1.2
      rw [h3] at this
      simp at this
    · refine ⟨(i, .mapEntry dims sch), hmem, ?_⟩
      have hnode : nodeById st i = some (.mapEntry dims sch) :=
        nodeById_of_mem hnd hmem
      simp only [can_be_applied_node]
      intro hc
      simp only [Bool.and_eq_true] at hc
      have hct : chainHasAccel st (st.nodes.length + 1) i = true := by
        simp only [chainHasAccel, hnode, hsc, hch, Bool.or_true]
      have := hc.2
      rw [hct] at this
      simp at this

/-- Witness state for C2: a map entry at GPU_Device schedule inside an
otherwise clean state makes the predicate return false via condition 3. -/
def exC2 : SDFGState :=
  .mk "s0" [(0, .mapEntry 2 .GPU_Device), (1, .tasklet)] [] [] 2

/-- Witness for C2 at a concrete state: the disallowed-schedule condition
holds and the predicate indeed returns false. -/
theorem claim_C2_can_be_applied_witness :
    FPGATransformState.can_be_applied (.mk [] [] [] []) exC2 = false :=
  (claim_C2_can_be_applied (.mk [] [] [] []) exC2 (by decide)).mpr
    (Or.inr (Or.inr (Or.inl ⟨0, 2, .GPU_Device,
      by simp [exC2, SDFGState.nodes], by decide⟩)))

/-! Lemmas for the recursive reclassification `fpga_update` (claim C5). -/

/-- Pure node effect of one `fpga_update` iteration: access nodes keep
their data, default schedules become FPGA_Device, nested SDFGs are updated
recursively one level deeper. -/
def fpgaNodeEff (d : Nat) : SNode → SNode
  | .access dta => .access dta
  | .mapEntry dims sch => .mapEntry dims (if sch = .Default then .FPGA_Device else sch)
  | .mapExit sch => .mapExit (if sch = .Default then .FPGA_Device else sch)
  | .tasklet => .tasklet
  | .nested sd => .nested (fpga_update_sdfg sd (d + 1))

/-- First access node (in node order) referencing `name`. -/
def firstRef (ns : List (Nat × SNode)) (name : String) : Option Nat :=
  (ns.find? (fun p =>
    match p.2 with
    | .access dta => dta == name
    | _ => false)).map Prod.fst

theorem lookup_cons_eq {α β : Type} [BEq α] (a k : α) (b : β)
    (es : List (α × β)) :
    List.lookup a ((k, b) :: es) = if a == k then some b else List.lookup a es := by
  cases h : a == k <;> simp [List.lookup, h]

theorem fpga_update_node_snd (arrays : Arrays) (scope : List (Nat × Nat))
    (d i : Nat) (n : SNode) :
    (fpga_update_node arrays scope d i n).2 = fpgaNodeEff d n := by
  cases n <;> rfl

theorem fpga_update_node_fst_access (arrays : Arrays) (scope : List (Nat × Nat))
    (d i : Nat) (dta : String) :
    (fpga_update_node arrays scope d i (.access dta)).1 =
      (match arrays.lookup dta with
       | some desc =>
         if desc.storage = .Default then
           setStorage arrays dta (fpgaTargetStorage d ((scope.lookup i).isSome))
         else arrays
       | none => arrays) := rfl

theorem lookup_setStorage_self (a : Arrays) (name : String) (s : StorageType) :
    (setStorage a name s).lookup name =
      (a.lookup name).map (fun d => { d with storage := s }) := by
  induction a with
  | nil => rfl
  | cons q rest ih =>
    obtain ⟨k, v⟩ := q
    show List.lookup name
      ((if (k == name) = true then (k, { v with storage := s }) else (k, v)) ::
        setStorage rest name s) = _
    cases hk : k == name with
    | true =>
      have hk2 : (name == k) = true := by
        have : k = name := by simpa using hk
        simp [this]
      rw [if_pos rfl, lookup_cons_eq, if_pos hk2, lookup_cons_eq, if_pos hk2]
      rfl
    | false =>
      have hk2 : (name == k) = false := by
        have : ¬ k = name := by simpa using hk
        simpa using fun e => this e.symm
      rw [if_neg (by simp), lookup_cons_eq, if_neg (by simp [hk2]),
        lookup_cons_eq, if_neg (by simp [hk2])]
      exact ih

theorem lookup_setStorage_ne (a : Arrays) (name m : String) (s : StorageType)
    (h : m ≠ name) :
    (setStorage a name s).lookup m = a.lookup m := by
  induction a with
  | nil => rfl
  | cons q rest ih =>
    obtain ⟨k, v⟩ := q
    show List.lookup m
      ((if (k == name) = true then (k, { v with storage := s }) else (k, v)) ::
        setStorage rest name s) = _
    cases hk : k == name with
    | true =>
      have hkn : k = name := by simpa using hk
      have hm : (m == k) = false := by
        simpa using fun e => h (hkn ▸ e)
      rw [if_pos rfl, lookup_cons_eq, if_neg (by simp [hm]),
        lookup_cons_eq, if_neg (by simp [hm])]
      exact ih
    | false =>
      rw [if_neg (by simp), lookup_cons_eq, lookup_cons_eq]
      cases hm : m == k with
      | true => simp
      | false => simp only [Bool.false_eq_true, if_false]; exact ih

theorem fpgaTargetStorage_ne_default (d : Nat) (b : Bool) :
    fpgaTargetStorage d b ≠ .Default := by
  unfold fpgaTargetStorage
  split
  · simp
  · split <;> simp

theorem fpga_update_nodes_cons (arrays : Arrays) (scope : List (Nat × Nat))
    (d j : Nat) (m : SNode) (rest : List (Nat × SNode)) :
    fpga_update_nodes arrays scope d ((j, m) :: rest) =
      ((fpga_update_nodes (fpga_update_node arrays scope d j m).1 scope d rest).1,
       (j, (fpga_update_node arrays scope d j m).2) ::
         (fpga_update_nodes (fpga_update_node arrays scope d j m).1 scope d rest).2) :=
  rfl

/-- Characterisation of the catalog component of the `fpga_update` node
fold: an entry still at default storage is retagged according to the first
access node referencing it (later references find it non-default and leave
it alone); every other entry is untouched. -/
theorem fpga_update_nodes_arrays_char (scope : List (Nat × Nat)) (d : Nat) :
    ∀ (ns : List (Nat × SNode)) (arrays : Arrays) (name : String)
      (desc : ArrayDesc), arrays.lookup name = some desc →
    (fpga_update_nodes arrays scope d ns).1.lookup name =
      some (if desc.storage = .Default then
              match firstRef ns name with
              | some i => { desc with
                  storage := fpgaTargetStorage d ((scope.lookup i).isSome) }
              | none => desc
            else desc) := by
  intro ns
  induction ns with
  | nil =>
    intro arrays name desc hl
    show arrays.lookup name = _
    rw [hl]
    have : firstRef [] name = none := rfl
    rw [this]
    split <;> rfl
  | cons p rest ih =>
    intro arrays name desc hl
    obtain ⟨j, m⟩ := p
    rw [fpga_update_nodes_cons]
    match m with
    | .access dta =>
      by_cases hd : dta = name
      · subst hd
        have hfr : firstRef ((j, SNode.access dta) :: rest) dta = some j := by
          simp [firstRef, List.find?]
        rw [hfr]
        by_cases hs : desc.storage = .Default
        · have h1 : (fpga_update_node arrays scope d j (.access dta)).1 =
              setStorage arrays dta (fpgaTargetStorage d ((scope.lookup j).isSome)) := by
            rw [fpga_update_node_fst_access, hl]
            exact if_pos hs
          have h2 : (setStorage arrays dta
              (fpgaTargetStorage d ((scope.lookup j).isSome))).lookup dta =
              some { desc with
                storage := fpgaTargetStorage d ((scope.lookup j).isSome) } := by
            rw [lookup_setStorage_self, hl]; rfl
          rw [h1, ih _ dta _ h2]
          simp only [fpgaTargetStorage_ne_default, if_neg, if_pos hs]
          simp [fpgaTargetStorage_ne_default]
        · have h1 : (fpga_update_node arrays scope d j (.access dta)).1 = arrays := by
            rw [fpga_update_node_fst_access, hl]
            exact if_neg hs
          rw [h1, ih _ dta _ hl]
          simp [hs]
      · have hfr : firstRef ((j, SNode.access dta) :: rest) name =
            firstRef rest name := by
          have hb : (dta == name) = false := beq_eq_false_iff_ne.mpr hd
          simp [firstRef, List.find?, hb]
        have h1 : (fpga_update_node arrays scope d j (.access dta)).1.lookup name =
            some desc := by
          rw [fpga_update_node_fst_access]
          cases hl2 : arrays.lookup dta with
          | none => exact hl
          | some desc2 =>
            by_cases hs2 : desc2.storage = .Default
            · show List.lookup name
                (if desc2.storage = StorageType.Default then
                  setStorage arrays dta (fpgaTargetStorage d ((scope.lookup j).isSome))
                else arrays) = some desc
              rw [if_pos hs2, lookup_setStorage_ne _ _ _ _ (Ne.symm hd)]
              exact hl
            · show List.lookup name
                (if desc2.storage = StorageType.Default then
                  setStorage arrays dta (fpgaTargetStorage d ((scope.lookup j).isSome))
                else arrays) = some desc
              rw [if_neg hs2]
              exact hl
        rw [hfr]
        exact ih _ name _ h1
    | .mapEntry dims sch =>
      have hfr : firstRef ((j, SNode.mapEntry dims sch) :: rest) name =
          firstRef rest name := by simp [firstRef, List.find?]
      rw [hfr]
      exact ih _ name _ hl
    | .mapExit sch =>
      have hfr : firstRef ((j, SNode.mapExit sch) :: rest) name =
          firstRef rest name := by simp [firstRef, List.find?]
      rw [hfr]
      exact ih _ name _ hl
    | .tasklet =>
      have hfr : firstRef ((j, SNode.tasklet) :: rest) name =
          firstRef rest name := by simp [firstRef, List.find?]
      rw [hfr]
      exact ih _ name _ hl
    | .nested sd =>
      have hfr : firstRef ((j, SNode.nested sd) :: rest) name =
          firstRef rest name := by simp [firstRef, List.find?]
      rw [hfr]
      exact ih _ name _ hl

/-- The node component of the `fpga_update` fold is a pure elementwise map:
ids are kept, schedules at default become FPGA_Device, nested SDFGs are
updated at the next depth. -/
theorem fpga_update_nodes_snd (scope : List (Nat × Nat)) (d : Nat) :
    ∀ (ns : List (Nat × SNode)) (arrays : Arrays),
    (fpga_update_nodes arrays scope d ns).2 =
      ns.map (fun p => (p.1, fpgaNodeEff d p.2)) := by
  intro ns
  induction ns with
  | nil => intro arrays; rfl
  | cons p rest ih =>
    intro arrays
    obtain ⟨j, m⟩ := p
    rw [fpga_update_nodes_cons, fpga_update_node_snd]
    simp [ih]

/-- C5: `fpga_update` at depth d retags every catalog entry still at
default storage according to its first referencing access node — FPGA_Local
when d is at least 2, otherwise FPGA_Local inside a scope and FPGA_Global
when unscoped — leaves non-default storage untouched, rewrites every
schedule-carrying node's default schedule to FPGA_Device while keeping
non-default schedules, and recurses into every nested SDFG's child states
with depth d + 1. -/
theorem claim_C5_fpga_update (arrays : Arrays) (st : SDFGState) (d : Nat) :
    (∀ (name : String) (desc : ArrayDesc), arrays.lookup name = some desc →
      (fpga_update arrays st d).1.lookup name =
        some (if desc.storage = .Default then
                match firstRef st.nodes name with
                | some i => { desc with
                    storage := fpgaTargetStorage d ((st.scope.lookup i).isSome) }
                | none => desc
              else desc)) ∧
    ((fpga_update arrays st d).2.nodes =
      st.nodes.map (fun p => (p.1, fpgaNodeEff d p.2))) ∧
    (∀ (i dims : Nat) (sch : ScheduleType),
      (i, SNode.mapEntry dims sch) ∈ st.nodes →
      (i, SNode.mapEntry dims (if sch = .Default then .FPGA_Device else sch)) ∈
        (fpga_update arrays st d).2.nodes) ∧
    (∀ (i : Nat) (sch : ScheduleType), (i, SNode.mapExit sch) ∈ st.nodes →
      (i, SNode.mapExit (if sch = .Default then .FPGA_Device else sch)) ∈
        (fpga_update arrays st d).2.nodes) ∧
    (∀ (i : Nat) (sd : SDFG), (i, SNode.nested sd) ∈ st.nodes →
      (i, SNode.nested (fpga_update_sdfg sd (d + 1))) ∈
        (fpga_update arrays st d).2.nodes) := by
  obtain ⟨lbl, ns, es, sc, k⟩ := st
  have h1 : (fpga_update arrays (.mk lbl ns es sc k) d).1 =
      (fpga_update_nodes arrays sc d ns).1 := rfl
  have h2 : (fpga_update arrays (.mk lbl ns es sc k) d).2.nodes =
      (fpga_update_nodes arrays sc d ns).2 := rfl
  have hsc : SDFGState.scope (.mk lbl ns es sc k) = sc := rfl
  have hns : SDFGState.nodes (.mk lbl ns es sc k) = ns := rfl
  refine ⟨?_, ?_, ?_, ?_, ?_⟩
  · intro name desc hl
    rw [h1, hsc, hns]
    exact fpga_update_nodes_arrays_char sc d ns arrays name desc hl
  · rw [h2, hns, fpga_update_nodes_snd]
  · intro i dims sch hmem
    rw [h2, fpga_update_nodes_snd]
    rw [hns] at hmem
    exact List.mem_map_of_mem _ hmem
  · intro i sch hmem
    rw [h2, fpga_update_nodes_snd]
    rw [hns] at hmem
    exact List.mem_map_of_mem _ hmem
  · intro i sd hmem
    rw [h2, fpga_update_nodes_snd]
    rw [hns] at hmem
    exact List.mem_map_of_mem _ hmem

/-- Witness state for C5: one unscoped access node over a default-storage
array and one map entry at default schedule. -/
def exC5St : SDFGState :=
  .mk "s" [(0, .access "u"), (1, .mapEntry 2 .Default)] [] [] 2

/-- Witness for C5 at a concrete state and depth 0: the unscoped access
node's descriptor becomes FPGA_Global and the default-scheduled map entry
becomes FPGA_Device. -/
theorem claim_C5_fpga_update_witness :
    (fpga_update [("u", hostArr)] exC5St 0).1.lookup "u" =
      some { hostArr with storage := .FPGA_Global } ∧
    (1, SNode.mapEntry 2 .FPGA_Device) ∈
      (fpga_update [("u", hostArr)] exC5St 0).2.nodes := by
  constructor
  · exact ((claim_C5_fpga_update [("u", hostArr)] exC5St 0).1 "u" hostArr
      (by decide)).trans (by decide)
  · have h := (claim_C5_fpga_update [("u", hostArr)] exC5St 0).2.2.1 1 2 .Default
      (by simp [exC5St, SDFGState.nodes])
    simpa using h

/-! Infrastructure for the demotion pass (claims C4 and C9). -/

mutual
/-- Claim-side checker for C4: at every graph level (top and nested), if
some state of that level directly contains an access node referring to
`name`, the level's live descriptor for `name` is at FPGA_Local storage. -/
def refsLocalB (name : String) : SDFG → Bool
  | .mk arrs sts _ _ =>
    ((if sts.any (fun st => stateHasDirectRef st name) then
        (match arrs.lookup name with
         | some d => d.storage == .FPGA_Local
         | none => true)
      else true) && refsLocalStates name sts)

def refsLocalStates (name : String) : List SDFGState → Bool
  | [] => true
  | s :: rest => refsLocalState name s && refsLocalStates name rest
termination_by structural ss => ss

def refsLocalState (name : String) : SDFGState → Bool
  | .mk _ ns _ _ _ => refsLocalNodes name ns

def refsLocalNodes (name : String) : List (Nat × SNode) → Bool
  | [] => true
  | (_, n) :: rest => refsLocalNode name n && refsLocalNodes name rest
termination_by structural ns => ns

def refsLocalNode (name : String) : SNode → Bool
  | .nested sd => refsLocalB name sd
  | _ => true
termination_by structural n => n
end

theorem demoteRefsStates_eq_map (name : String) :
    ∀ ss : List SDFGState,
    demoteRefsStates name ss = ss.map (demoteRefsState name) := by
  intro ss
  induction ss with
  | nil => rfl
  | cons s rest ih => simp [demoteRefsStates, ih]

theorem demoteRefsNodes_eq_map (name : String) :
    ∀ ns : List (Nat × SNode),
    demoteRefsNodes name ns = ns.map (fun p => (p.1, demoteRefsNode name p.2)) := by
  intro ns
  induction ns with
  | nil => rfl
  | cons p rest ih =>
    obtain ⟨i, n⟩ := p
    simp [demoteRefsNodes, ih]

theorem stateHasDirectRef_demote (name m : String) (st : SDFGState) :
    stateHasDirectRef (demoteRefsState name st) m = stateHasDirectRef st m := by
  obtain ⟨l, ns, es, sc, k⟩ := st
  show (demoteRefsNodes name ns).any _ = ns.any _
  rw [demoteRefsNodes_eq_map, List.any_map]
  congr 1
  funext p
  obtain ⟨i, n⟩ := p
  cases n <;> rfl

theorem demoteRefsSDFG_states (name : String) (sd : SDFG) :
    (demoteRefsSDFG name sd).states = demoteRefsStates name sd.states := by
  cases sd; rfl

theorem demoteRefsSDFG_symbols (name : String) (sd : SDFG) :
    (demoteRefsSDFG name sd).symbols = sd.symbols := by
  cases sd; rfl

theorem setArrays_states (sd : SDFG) (a : Arrays) :
    (sd.setArrays a).states = sd.states := by
  cases sd; rfl

theorem setArrays_symbols (sd : SDFG) (a : Arrays) :
    (sd.setArrays a).symbols = sd.symbols := by
  cases sd; rfl

theorem refsLocalB_mk (name : String) (arrs : Arrays) (sts : List SDFGState)
    (ise : List ISEdge) (sy : List (String × Int)) :
    refsLocalB name (.mk arrs sts ise sy) =
      ((if sts.any (fun st => stateHasDirectRef st name) then
          (match arrs.lookup name with
           | some d => d.storage == .FPGA_Local
           | none => true)
        else true) && refsLocalStates name sts) := rfl

theorem demoteRefsSDFG_mk (name : String) (arrs : Arrays)
    (sts : List SDFGState) (ise : List ISEdge) (sy : List (String × Int)) :
    demoteRefsSDFG name (.mk arrs sts ise sy) =
      .mk (if sts.any (fun st => stateHasDirectRef st name) then
             setStorage arrs name .FPGA_Local
           else arrs)
        (demoteRefsStates name sts) ise sy := rfl

theorem any_ref_demote (name m : String) (sts : List SDFGState) :
    (demoteRefsStates name sts).any (fun st => stateHasDirectRef st m) =
      sts.any (fun st => stateHasDirectRef st m) := by
  rw [demoteRefsStates_eq_map, List.any_map]
  congr 1
  funext st
  exact stateHasDirectRef_demote name m st

mutual
theorem nodeRefNames_demote (name : String) : (n : SNode) →
    nodeRefNames (demoteRefsNode name n) = nodeRefNames n
  | .access d => rfl
  | .mapEntry dims sch => rfl
  | .mapExit sch => rfl
  | .tasklet => rfl
  | .nested (.mk arrs sts ise sy) => by
    show statesRefNames (demoteRefsStates name sts) = statesRefNames sts
    exact statesRefNames_demote name sts
termination_by structural n => n

theorem statesRefNames_demote (name : String) : (ss : List SDFGState) →
    statesRefNames (demoteRefsStates name ss) = statesRefNames ss
  | [] => rfl
  | s :: rest => by
    show stateRefNames (demoteRefsState name s) ++
      statesRefNames (demoteRefsStates name rest) = _
    rw [stateRefNames_demote name s, statesRefNames_demote name rest]
    rfl
termination_by structural ss => ss

theorem stateRefNames_demote (name : String) : (s : SDFGState) →
    stateRefNames (demoteRefsState name s) = stateRefNames s
  | .mk l ns es sc k => by
    show nodesRefNames (demoteRefsNodes name ns) = nodesRefNames ns
    exact nodesRefNames_demote name ns
termination_by structural s => s

theorem nodesRefNames_demote (name : String) : (ns : List (Nat × SNode)) →
    nodesRefNames (demoteRefsNodes name ns) = nodesRefNames ns
  | [] => rfl
  | (i, n) :: rest => by
    show nodeRefNames (demoteRefsNode name n) ++
      nodesRefNames (demoteRefsNodes name rest) = _
    rw [nodeRefNames_demote name n, nodesRefNames_demote name rest]
    rfl
termination_by structural ns => ns
end

theorem shared_demote (name m : String) (sd : SDFG) :
    sharedTransientsContains (demoteRefsSDFG name sd) m =
      sharedTransientsContains sd m := by
  have h : (demoteRefsSDFG name sd).states.countP
      (fun st => (stateRefNames st).contains m) =
      sd.states.countP (fun st => (stateRefNames st).contains m) := by
    rw [demoteRefsSDFG_states, demoteRefsStates_eq_map, List.countP_map]
    congr 1
    funext st
    show ((stateRefNames (demoteRefsState name st)).contains m) = _
    rw [stateRefNames_demote]
  unfold sharedTransientsContains
  rw [h]

theorem shared_setArrays (sd : SDFG) (a : Arrays) (m : String) :
    sharedTransientsContains (sd.setArrays a) m = sharedTransientsContains sd m := by
  unfold sharedTransientsContains
  rw [setArrays_states]

theorem demotable_congr (sd1 sd2 : SDFG) (name : String) (desc : ArrayDesc)
    (hsh : sharedTransientsContains sd1 name = sharedTransientsContains sd2 name)
    (hsy : sd1.symbols = sd2.symbols) :
    demotable sd1 name desc = demotable sd2 name desc := by
  unfold demotable
  rw [hsh, hsy]

theorem demoteRefsSDFG_lookup_ne (name m : String) (h : m ≠ name) (sd : SDFG) :
    (demoteRefsSDFG name sd).arrays.lookup m = sd.arrays.lookup m := by
  obtain ⟨arrs, sts, ise, sy⟩ := sd
  rw [demoteRefsSDFG_mk]
  show (if _ then setStorage arrs name .FPGA_Local else arrs).lookup m = _
  split
  · exact lookup_setStorage_ne arrs name m _ h
  · rfl

theorem desc_update_storage_self (d : ArrayDesc) (s : StorageType)
    (h : d.storage = s) : ({ d with storage := s } : ArrayDesc) = d := by
  cases d
  cases h
  rfl

theorem demoteRefsSDFG_lookup_self_local (name : String) (sd : SDFG)
    (d0 : ArrayDesc) (h : sd.arrays.lookup name = some d0)
    (hs : d0.storage = .FPGA_Local) :
    (demoteRefsSDFG name sd).arrays.lookup name = some d0 := by
  obtain ⟨arrs, sts, ise, sy⟩ := sd
  rw [demoteRefsSDFG_mk]
  show (if _ then setStorage arrs name .FPGA_Local else arrs).lookup name = _
  have harr : List.lookup name arrs = some d0 := h
  split
  · rw [lookup_setStorage_self, harr, Option.map_some']
    rw [desc_update_storage_self d0 _ hs]
  · exact harr

mutual
theorem refsLocal_demote_sdfg (name : String) : (sd : SDFG) →
    refsLocalB name (demoteRefsSDFG name sd) = true
  | .mk arrs sts ise sy => by
    rw [demoteRefsSDFG_mk, refsLocalB_mk, Bool.and_eq_true]
    refine ⟨?_, refsLocal_demote_states name sts⟩
    rw [any_ref_demote]
    by_cases hc : sts.any (fun st => stateHasDirectRef st name) = true
    · rw [if_pos hc, if_pos hc, lookup_setStorage_self]
      cases arrs.lookup name <;> simp
    · rw [if_neg hc]
termination_by structural sd => sd

theorem refsLocal_demote_states (name : String) : (ss : List SDFGState) →
    refsLocalStates name (demoteRefsStates name ss) = true
  | [] => rfl
  | s :: rest => by
    show (refsLocalState name (demoteRefsState name s) &&
      refsLocalStates name (demoteRefsStates name rest)) = true
    rw [refsLocal_demote_state name s, refsLocal_demote_states name rest]
    rfl
termination_by structural ss => ss

theorem refsLocal_demote_state (name : String) : (s : SDFGState) →
    refsLocalState name (demoteRefsState name s) = true
  | .mk l ns es sc k => by
    show refsLocalNodes name (demoteRefsNodes name ns) = true
    exact refsLocal_demote_nodes name ns
termination_by structural s => s

theorem refsLocal_demote_nodes (name : String) : (ns : List (Nat × SNode)) →
    refsLocalNodes name (demoteRefsNodes name ns) = true
  | [] => rfl
  | (i, n) :: rest => by
    show (refsLocalNode name (demoteRefsNode name n) &&
      refsLocalNodes name (demoteRefsNodes name rest)) = true
    rw [refsLocal_demote_node name n, refsLocal_demote_nodes name rest]
    rfl
termination_by structural ns => ns

theorem refsLocal_demote_node (name : String) : (n : SNode) →
    refsLocalNode name (demoteRefsNode name n) = true
  | .access d => rfl
  | .mapEntry dims sch => rfl
  | .mapExit sch => rfl
  | .tasklet => rfl
  | .nested sd => by
    show refsLocalB name (demoteRefsSDFG name sd) = true
    exact refsLocal_demote_sdfg name sd
termination_by structural n => n
end

mutual
theorem refsLocal_pres_sdfg (name n2 : String) (hne : n2 ≠ name) :
    (sd : SDFG) → refsLocalB name sd = true →
    refsLocalB name (demoteRefsSDFG n2 sd) = true
  | .mk arrs sts ise sy, h => by
    rw [refsLocalB_mk, Bool.and_eq_true] at h
    rw [demoteRefsSDFG_mk, refsLocalB_mk, Bool.and_eq_true]
    refine ⟨?_, refsLocal_pres_states name n2 hne sts h.2⟩
    rw [any_ref_demote]
    by_cases hc : sts.any (fun st => stateHasDirectRef st name) = true
    · rw [if_pos hc]
      have h1 := h.1
      rw [if_pos hc] at h1
      by_cases hc2 : sts.any (fun st => stateHasDirectRef st n2) = true
      · rw [if_pos hc2, lookup_setStorage_ne _ _ _ _ (Ne.symm hne)]
        exact h1
      · rw [if_neg hc2]
        exact h1
    · rw [if_neg hc]
termination_by structural sd => sd

theorem refsLocal_pres_states (name n2 : String) (hne : n2 ≠ name) :
    (ss : List SDFGState) → refsLocalStates name ss = true →
    refsLocalStates name (demoteRefsStates n2 ss) = true
  | [], _ => rfl
  | s :: rest, h => by
    have h2 : (refsLocalState name s && refsLocalStates name rest) = true := h
    rw [Bool.and_eq_true] at h2
    show (refsLocalState name (demoteRefsState n2 s) &&
      refsLocalStates name (demoteRefsStates n2 rest)) = true
    rw [refsLocal_pres_state name n2 hne s h2.1,
      refsLocal_pres_states name n2 hne rest h2.2]
    rfl
termination_by structural ss => ss

theorem refsLocal_pres_state (name n2 : String) (hne : n2 ≠ name) :
    (s : SDFGState) → refsLocalState name s = true →
    refsLocalState name (demoteRefsState n2 s) = true
  | .mk l ns es sc k, h => by
    show refsLocalNodes name (demoteRefsNodes n2 ns) = true
    exact refsLocal_pres_nodes name n2 hne ns h
termination_by structural s => s

theorem refsLocal_pres_nodes (name n2 : String) (hne : n2 ≠ name) :
    (ns : List (Nat × SNode)) → refsLocalNodes name ns = true →
    refsLocalNodes name (demoteRefsNodes n2 ns) = true
  | [], _ => rfl
  | (i, n) :: rest, h => by
    have h2 : (refsLocalNode name n && refsLocalNodes name rest) = true := h
    rw [Bool.and_eq_true] at h2
    show (refsLocalNode name (demoteRefsNode n2 n) &&
      refsLocalNodes name (demoteRefsNodes n2 rest)) = true
    rw [refsLocal_pres_node name n2 hne n h2.1,
      refsLocal_pres_nodes name n2 hne rest h2.2]
    rfl
termination_by structural ns => ns

theorem refsLocal_pres_node (name n2 : String) (hne : n2 ≠ name) :
    (n : SNode) → refsLocalNode name n = true →
    refsLocalNode name (demoteRefsNode n2 n) = true
  | .access d, _ => rfl
  | .mapEntry dims sch, _ => rfl
  | .mapExit sch, _ => rfl
  | .tasklet, _ => rfl
  | .nested sd, h => by
    show refsLocalB name (demoteRefsSDFG n2 sd) = true
    exact refsLocal_pres_sdfg name n2 hne sd h
termination_by structural n => n
end

theorem refsLocalB_setArrays_setStorage_ne (sd : SDFG) (m n2 : String)
    (s : StorageType) (h : m ≠ n2) :
    refsLocalB m (sd.setArrays (setStorage sd.arrays n2 s)) = refsLocalB m sd := by
  obtain ⟨arrs, sts, ise, sy⟩ := sd
  show refsLocalB m (.mk (setStorage arrs n2 s) sts ise sy) = _
  rw [refsLocalB_mk, refsLocalB_mk, lookup_setStorage_ne _ _ _ _ h]

/-- The demotion condition read off the original graph, keyed by name. -/
def demotablePred (sdfg : SDFG) (nm : String) : Bool :=
  match sdfg.arrays.lookup nm with
  | some d => demotable sdfg nm d
  | none => false

/-- Invariant characterisation of the catalog fold of
`fpga_global_to_local`: the demotion count, the untouched keys, the
stability of reference-locality for keys outside the worklist, the
demotion of every satisfying entry together with reference-locality of its
name, and the preservation of every non-satisfying entry. -/
theorem g2l_fold_char (sdfg : SDFG) :
    ∀ (names : List String) (sd : SDFG) (c : Nat),
    names.Nodup →
    (∀ m, sharedTransientsContains sd m = sharedTransientsContains sdfg m) →
    sd.symbols = sdfg.symbols →
    (∀ nm ∈ names, sd.arrays.lookup nm = sdfg.arrays.lookup nm) →
    ((names.foldl g2lStep (sd, c)).2 = c + names.countP (demotablePred sdfg)) ∧
    (∀ m, m ∉ names →
      (names.foldl g2lStep (sd, c)).1.arrays.lookup m = sd.arrays.lookup m) ∧
    (∀ m, m ∉ names → refsLocalB m sd = true →
      refsLocalB m (names.foldl g2lStep (sd, c)).1 = true) ∧
    (∀ nm ∈ names, ∀ d, sdfg.arrays.lookup nm = some d →
      demotable sdfg nm d = true →
      (names.foldl g2lStep (sd, c)).1.arrays.lookup nm =
        some { d with storage := .FPGA_Local } ∧
      refsLocalB nm (names.foldl g2lStep (sd, c)).1 = true) ∧
    (∀ nm ∈ names, ∀ d, sdfg.arrays.lookup nm = some d →
      demotable sdfg nm d = false →
      (names.foldl g2lStep (sd, c)).1.arrays.lookup nm =
        sdfg.arrays.lookup nm) := by
  intro names
  induction names with
  | nil =>
    intro sd c _ _ _ _
    refine ⟨by simp, fun m _ => rfl, fun m _ h => h, ?_, ?_⟩
    · intro nm hmem; simp at hmem
    · intro nm hmem; simp at hmem
  | cons nm0 rest ih =>
    intro sd c hnd hshared hsym hlook
    rw [List.nodup_cons] at hnd
    obtain ⟨hn0, hndr⟩ := hnd
    have hl0 : sd.arrays.lookup nm0 = sdfg.arrays.lookup nm0 :=
      hlook nm0 (List.mem_cons_self _ _)
    rw [List.foldl_cons]
    cases hsd : sdfg.arrays.lookup nm0 with
    | none =>
      have hstep : g2lStep (sd, c) nm0 = (sd, c) := by
        unfold g2lStep
        rw [show sd.arrays.lookup nm0 = none from hl0.trans hsd]
      rw [hstep]
      have hrest := ih sd c hndr hshared hsym
        (fun nm hm => hlook nm (List.mem_cons_of_mem _ hm))
      have hpred : demotablePred sdfg nm0 = false := by
        simp [demotablePred, hsd]
      refine ⟨?_, ?_, ?_, ?_, ?_⟩
      · rw [hrest.1, List.countP_cons, hpred]
        simp
      · intro m hm
        exact hrest.2.1 m (fun h => hm (List.mem_cons_of_mem _ h))
      · intro m hm h
        exact hrest.2.2.1 m (fun h2 => hm (List.mem_cons_of_mem _ h2)) h
      · intro nm hmem d hld hdem
        rcases List.mem_cons.mp hmem with he | he
        · subst he; rw [hsd] at hld; exact absurd hld (by simp)
        · exact hrest.2.2.2.1 nm he d hld hdem
      · intro nm hmem d hld hdem
        rcases List.mem_cons.mp hmem with he | he
        · subst he; rw [hsd] at hld; exact absurd hld (by simp)
        · exact hrest.2.2.2.2 nm he d hld hdem
    | some desc =>
      have hdem : demotable sd nm0 desc = demotable sdfg nm0 desc :=
        demotable_congr sd sdfg nm0 desc (hshared nm0) hsym
      cases hd : demotable sdfg nm0 desc with
      | false =>
        have hstep : g2lStep (sd, c) nm0 = (sd, c) := by
          unfold g2lStep
          rw [show sd.arrays.lookup nm0 = some desc from hl0.trans hsd]
          simp [hdem, hd]
        rw [hstep]
        have hrest := ih sd c hndr hshared hsym
          (fun nm hm => hlook nm (List.mem_cons_of_mem _ hm))
        have hpred : demotablePred sdfg nm0 = false := by
          simp [demotablePred, hsd, hd]
        refine ⟨?_, ?_, ?_, ?_, ?_⟩
        · rw [hrest.1, List.countP_cons, hpred]
          simp
        · intro m hm
          exact hrest.2.1 m (fun h => hm (List.mem_cons_of_mem _ h))
        · intro m hm h
          exact hrest.2.2.1 m (fun h2 => hm (List.mem_cons_of_mem _ h2)) h
        · intro nm hmem d hld hdem2
          rcases List.mem_cons.mp hmem with he | he
          · subst he
            rw [hsd] at hld
            have : d = desc := (Option.some.inj hld).symm
            subst this
            rw [hd] at hdem2
            exact absurd hdem2 (by simp)
          · exact hrest.2.2.2.1 nm he d hld hdem2
        · intro nm hmem d hld hdem2
          rcases List.mem_cons.mp hmem with he | he
          · subst he
            rw [hrest.2.1 nm hn0, hl0, hsd]
          · exact hrest.2.2.2.2 nm he d hld hdem2
      | true =>
        have hstep : g2lStep (sd, c) nm0 =
            (demoteRefsSDFG nm0 (sd.setArrays (setStorage sd.arrays nm0 .FPGA_Local)),
             c + 1) := by
          unfold g2lStep
          rw [show sd.arrays.lookup nm0 = some desc from hl0.trans hsd]
          simp [hdem, hd]
        rw [hstep]
        have hsh1 : ∀ m, sharedTransientsContains (demoteRefsSDFG nm0
            (sd.setArrays (setStorage sd.arrays nm0 .FPGA_Local))) m =
            sharedTransientsContains sdfg m := by
          intro m
          rw [shared_demote, shared_setArrays, hshared]
        have hsy1 : (demoteRefsSDFG nm0
            (sd.setArrays (setStorage sd.arrays nm0 .FPGA_Local))).symbols =
            sdfg.symbols := by
          rw [demoteRefsSDFG_symbols, setArrays_symbols, hsym]
        have hlk1 : ∀ nm ∈ rest, (demoteRefsSDFG nm0
            (sd.setArrays (setStorage sd.arrays nm0 .FPGA_Local))).arrays.lookup nm =
            sdfg.arrays.lookup nm := by
          intro nm hm
          have hne : nm ≠ nm0 := fun e => hn0 (e ▸ hm)
          rw [demoteRefsSDFG_lookup_ne nm0 nm hne, setArrays_arrays,
            lookup_setStorage_ne _ _ _ _ hne]
          exact hlook nm (List.mem_cons_of_mem _ hm)
        have hrest := ih _ (c + 1) hndr hsh1 hsy1 hlk1
        have hpred : demotablePred sdfg nm0 = true := by
          simp [demotablePred, hsd, hd]
        have hlkself : (demoteRefsSDFG nm0
            (sd.setArrays (setStorage sd.arrays nm0 .FPGA_Local))).arrays.lookup nm0 =
            some { desc with storage := .FPGA_Local } := by
          apply demoteRefsSDFG_lookup_self_local
          · rw [setArrays_arrays, lookup_setStorage_self, hl0, hsd]
            rfl
          · rfl
        refine ⟨?_, ?_, ?_, ?_, ?_⟩
        · rw [hrest.1, List.countP_cons, hpred]
          simp
          omega
        · intro m hm
          have hmr : m ∉ rest := fun h => hm (List.mem_cons_of_mem _ h)
          have hne : m ≠ nm0 := fun e => hm (e ▸ List.mem_cons_self _ _)
          rw [hrest.2.1 m hmr, demoteRefsSDFG_lookup_ne nm0 m hne,
            setArrays_arrays, lookup_setStorage_ne _ _ _ _ hne]
        · intro m hm h
          have hmr : m ∉ rest := fun h2 => hm (List.mem_cons_of_mem _ h2)
          have hne : nm0 ≠ m := fun e => hm (e ▸ List.mem_cons_self _ _)
          apply hrest.2.2.1 m hmr
          apply refsLocal_pres_sdfg m nm0 hne
          rw [refsLocalB_setArrays_setStorage_ne sd m nm0 _ (Ne.symm hne)]
          exact h
        · intro nm hmem d hld hdem2
          rcases List.mem_cons.mp hmem with he | he
          · subst he
            rw [hsd] at hld
            have hde : d = desc := (Option.some.inj hld).symm
            subst hde
            constructor
            · rw [hrest.2.1 nm hn0, hlkself]
            · apply hrest.2.2.1 nm hn0
              exact refsLocal_demote_sdfg nm _
          · exact hrest.2.2.2.1 nm he d hld hdem2
        · intro nm hmem d hld hdem2
          rcases List.mem_cons.mp hmem with he | he
          · subst he
            rw [hsd] at hld
            have hde : d = desc := (Option.some.inj hld).symm
            subst hde
            rw [hd] at hdem2
            exact absurd hdem2 (by simp)
          · exact hrest.2.2.2.2 nm he d hld hdem2

theorem countP_congr_mem {α : Type} (l : List α) (p q : α → Bool)
    (h : ∀ x ∈ l, p x = q x) : l.countP p = l.countP q := by
  induction l with
  | nil => rfl
  | cons a rest ih =>
    rw [List.countP_cons, List.countP_cons, h a (List.mem_cons_self _ _),
      ih (fun x hx => h x (List.mem_cons_of_mem _ hx))]

theorem lookup_mem_keys {l : Arrays} {k : String} {v : ArrayDesc}
    (h : l.lookup k = some v) : k ∈ l.map Prod.fst := by
  induction l with
  | nil => simp [List.lookup] at h
  | cons q rest ih =>
    rw [show q = (q.1, q.2) from rfl, lookup_cons_eq] at h
    by_cases hk : (k == q.1) = true
    · have : k = q.1 := by simpa using hk
      rw [this]
      exact List.mem_cons_self _ _
    · rw [if_neg hk] at h
      exact List.mem_cons_of_mem _ (ih h)

theorem lookup_of_mem_nodup {l : Arrays} (hnd : (l.map Prod.fst).Nodup)
    {k : String} {v : ArrayDesc} (h : (k, v) ∈ l) : l.lookup k = some v := by
  induction l with
  | nil => simp at h
  | cons q rest ih =>
    simp only [List.map_cons, List.nodup_cons] at hnd
    rcases List.mem_cons.mp h with he | he
    · rw [← he, lookup_cons_eq, if_pos (by simp)]
    · have hne : k ≠ q.1 := by
        intro e
        exact hnd.1 (e ▸ (List.mem_map.mpr ⟨(k, v), he, rfl⟩))
      rw [show q = (q.1, q.2) from rfl, lookup_cons_eq,
        if_neg (by simpa using hne)]
      exact ih hnd.2 he

/-- C4: after `fpga_global_to_local`, every top-level descriptor that is
transient, unshared, FPGA_Global and of statically resolvable total size is
at FPGA_Local, and at every graph level that references its name the live
descriptor of that name is FPGA_Local too; every top-level descriptor
failing any condition is byte-for-byte unchanged. -/
theorem claim_C4_global_to_local (sdfg : SDFG) (debug : Bool)
    (hnd : (sdfg.arrays.map Prod.fst).Nodup) :
    (∀ (nm : String) (d : ArrayDesc), sdfg.arrays.lookup nm = some d →
      demotable sdfg nm d = true →
      (fpga_global_to_local sdfg debug).1.arrays.lookup nm =
        some { d with storage := .FPGA_Local } ∧
      refsLocalB nm (fpga_global_to_local sdfg debug).1 = true) ∧
    (∀ (nm : String) (d : ArrayDesc), sdfg.arrays.lookup nm = some d →
      demotable sdfg nm d = false →
      (fpga_global_to_local sdfg debug).1.arrays.lookup nm = some d) := by
  have hchar := g2l_fold_char sdfg (sdfg.arrays.map Prod.fst) sdfg 0 hnd
    (fun m => rfl) rfl (fun nm _ => rfl)
  constructor
  · intro nm d hld hdem
    exact hchar.2.2.2.1 nm (lookup_mem_keys hld) d hld hdem
  · intro nm d hld hdem
    exact (hchar.2.2.2.2 nm (lookup_mem_keys hld) d hld hdem).trans hld

/-- C9: `fpga_global_to_local` always terminates with the graph updated in
place; descriptors failing the demotion condition are untouched, and the
count of demoted arrays is reported via the printed summary exactly when
the process-wide debug toggle is enabled. -/
theorem claim_C9_global_to_local (sdfg : SDFG) (debug : Bool)
    (hnd : (sdfg.arrays.map Prod.fst).Nodup) :
    ((fpga_global_to_local sdfg debug).2 =
      (if debug then
        ["Applied " ++
          toString (sdfg.arrays.countP (fun p => demotable sdfg p.1 p.2)) ++
          " Global-To-Local."]
       else [])) ∧
    (∀ (nm : String) (d : ArrayDesc), sdfg.arrays.lookup nm = some d →
      demotable sdfg nm d = false →
      (fpga_global_to_local sdfg debug).1.arrays.lookup nm = some d) := by
  have hchar := g2l_fold_char sdfg (sdfg.arrays.map Prod.fst) sdfg 0 hnd
    (fun m => rfl) rfl (fun nm _ => rfl)
  constructor
  · have hcnt : ((sdfg.arrays.map (fun p => p.1)).foldl g2lStep (sdfg, 0)).2 =
        sdfg.arrays.countP (fun p => demotable sdfg p.1 p.2) := by
      have h1 := hchar.1
      rw [h1, Nat.zero_add, List.countP_map]
      apply countP_congr_mem
      intro p hp
      show demotablePred sdfg p.1 = _
      unfold demotablePred
      rw [lookup_of_mem_nodup hnd (show (p.1, p.2) ∈ sdfg.arrays from hp)]
    show (if debug then
        ["Applied " ++
          toString ((sdfg.arrays.map (fun p => p.1)).foldl g2lStep (sdfg, 0)).2 ++
          " Global-To-Local."] else []) = _
    rw [hcnt]
  · intro nm d hld hdem
    exact (hchar.2.2.2.2 nm (lookup_mem_keys hld) d hld hdem).trans hld

/-- Transient FPGA_Global host array used in the demotion examples. -/
def tG : ArrayDesc := { hostArr with transient := true, storage := .FPGA_Global }

/-- Concrete demotion example: `t1` is a demotable transient; `t2` is a
transient shared between both states; `t3` has an unresolvable symbolic
size; `p` is not transient. -/
def exG2L : SDFG :=
  .mk [("t1", tG), ("t2", tG), ("t3", { tG with total_size := .sym "N" }),
       ("p", { hostArr with storage := .FPGA_Global })]
    [.mk "s0" [(0, .access "t1"), (1, .access "t2")] [] [] 2,
     .mk "s1" [(0, .access "t2")] [] [] 1]
    [] []

/-- Witness for C4 at the concrete example: `t1` is demoted to FPGA_Local
with its references reclassified, while the shared transient `t2` is
byte-for-byte unchanged. -/
theorem claim_C4_global_to_local_witness :
    (fpga_global_to_local exG2L false).1.arrays.lookup "t1" =
      some { tG with storage := .FPGA_Local } ∧
    refsLocalB "t1" (fpga_global_to_local exG2L false).1 = true ∧
    (fpga_global_to_local exG2L false).1.arrays.lookup "t2" = some tG := by
  have h := claim_C4_global_to_local exG2L false (by decide)
  exact ⟨(h.1 "t1" tG (by decide) (by decide)).1,
    (h.1 "t1" tG (by decide) (by decide)).2,
    h.2 "t2" tG (by decide) (by decide)⟩

/-- Witness for C9 at the concrete example: exactly one demotion is
reported when the debug toggle is on, and the unresolvable `t3` is
untouched. -/
theorem claim_C9_global_to_local_witness :
    (fpga_global_to_local exG2L true).2 = ["Applied 1 Global-To-Local."] ∧
    (fpga_global_to_local exG2L true).1.arrays.lookup "t3" =
      some { tG with total_size := .sym "N" } := by
  have h := claim_C9_global_to_local exG2L true (by decide)
  exact ⟨h.1.trans (by decide),
    h.2 "t3" { tG with total_size := .sym "N" } (by decide) (by decide)⟩

/-! Claim-side formalisation and characterisation of the memlet-rewrite
step (claim C7). -/

/-- Claim C7 as stated: the rewrite loop completes, every proxied memlet is
redirected to the proxy name with its vector width read off the matching
connector of a nested-SDFG endpoint of that same edge, and every
non-proxied memlet is untouched. -/
def C7ClaimB (fd : List String) (st : SDFGState) : Bool :=
  match propagateVeclen fd st with
  | none => false
  | some st2 =>
    (st2.edges.length == st.edges.length) &&
    (List.range st.edges.length).all (fun i =>
      match st.edges[i]?, st2.edges[i]? with
      | some e, some e2 =>
        match e.data.data with
        | some d =>
          if fd.contains d then
            (e2.data.data == some ("fpga_" ++ d)) &&
            ((match nodeById st e.dst with
              | some (.nested sd) =>
                scanInner sd e.dst_conn none == some (some e2.data.veclen)
              | _ => false) ||
             (match nodeById st e.src with
              | some (.nested sd) =>
                scanInner sd e.src_conn none == some (some e2.data.veclen)
              | _ => false))
          else e2 == e
        | none => e2 == e
      | _, _ => false)

/-- Counterexample to C7: on the concrete state the second edge joins two
plain access nodes — it has no adjacent NestedGraphNode at all — yet its
proxied memlet is rewritten with the stale width 4 scanned on the first
edge, so the claimed per-edge width rule is violated. -/
theorem claim_C7_counterexample :
    C7ClaimB exC7Fd exC7State = false ∧
    (propagateVeclen exC7Fd exC7State).map
        (fun st2 => st2.edges.map (fun e => (e.data.data, e.data.veclen))) =
      some [(some "fpga_X", 4), (some "fpga_Y", 4)] ∧
    (nodeById exC7State 2 = some (.access "P") ∧
     nodeById exC7State 3 = some (.access "Q")) := by
  refine ⟨by decide, by decide, rfl, rfl⟩

/-- Width scan over an edge prefix, starting from the unbound state. -/
def widthAfter (st : SDFGState) (es : List SEdge) : Option (Option Nat) :=
  es.foldlM (edgeScanW st) none

theorem pv_fold_char (fd : List String) (st : SDFGState) :
    ∀ (es : List SEdge) (v0 : Option Nat) (done : List SEdge)
      (r : Option Nat × List SEdge),
    es.foldlM (pvStep fd st) (v0, done) = some r →
    (r.2.length = done.length + es.length ∧
     (∀ j : Nat, j < done.length → r.2[j]? = done[j]?) ∧
     ∀ i : Nat, i < es.length → ∃ e w,
       es[i]? = some e ∧
       (es.take (i + 1)).foldlM (edgeScanW st) v0 = some w ∧
       r.2[done.length + i]? = rewriteEdge fd w e) := by
  intro es
  induction es with
  | nil =>
    intro v0 done r h
    have hr : r = (v0, done) := by
      simpa [List.foldlM] using h.symm
    subst hr
    exact ⟨by simp, fun j _ => rfl, fun i hi => by simp at hi⟩
  | cons e rest ih =>
    intro v0 done r h
    rw [List.foldlM_cons] at h
    rcases Option.bind_eq_some.mp h with ⟨mid, hmid, hrest⟩
    rcases Option.bind_eq_some.mp hmid with ⟨v2, hv2, hmid2⟩
    rcases Option.bind_eq_some.mp hmid2 with ⟨e1, he1, hmid3⟩
    have hmid4 : mid = (v2, done ++ [e1]) := by
      simpa using hmid3.symm
    subst hmid4
    have hihall := ih v2 (done ++ [e1]) r hrest
    refine ⟨?_, ?_, ?_⟩
    · rw [hihall.1]
      simp
      omega
    · intro j hj
      rw [hihall.2.1 j (by simp; omega)]
      rw [List.getElem?_append_left hj]
    · intro i hi
      cases i with
      | zero =>
        refine ⟨e, v2, by simp, ?_, ?_⟩
        · show [e].foldlM (edgeScanW st) v0 = some v2
          rw [List.foldlM_cons]
          rw [hv2]
          rfl
        · have hlen : done.length < (done ++ [e1]).length := by simp
          rw [show done.length + 0 = done.length from rfl,
            hihall.2.1 done.length hlen,
            List.getElem?_append_right (Nat.le_refl _)]
          simp [he1]
      | succ i2 =>
        have hi2 : i2 < rest.length := by simpa using hi
        obtain ⟨e3, w3, hg, hw, hr3⟩ := hihall.2.2 i2 hi2
        refine ⟨e3, w3, by simpa using hg, ?_, ?_⟩
        · show ((e :: rest).take (i2 + 1 + 1)).foldlM (edgeScanW st) v0 = some w3
          rw [List.take_succ_cons, List.foldlM_cons, hv2]
          exact hw
        · rw [show done.length + (i2 + 1) = (done ++ [e1]).length + i2 by simp; omega]
          exact hr3

/-- C7 as amended: the rewrite loop carries one running width across the
whole edge list — refreshed by every nested-SDFG endpoint scan and
otherwise persisting from earlier edges; each proxied memlet is redirected
to the proxy name with the running width valid at its own position, each
non-proxied memlet is untouched, and the loop dies when a proxied memlet is
reached before any width was ever scanned. -/
theorem claim_C7_veclen_rewrite (fd : List String) (st st2 : SDFGState)
    (h : propagateVeclen fd st = some st2) :
    st2.label = st.label ∧ st2.nodes = st.nodes ∧
    st2.edges.length = st.edges.length ∧
    ∀ i : Nat, i < st.edges.length → ∃ e w,
      st.edges[i]? = some e ∧
      widthAfter st (st.edges.take (i + 1)) = some w ∧
      st2.edges[i]? = rewriteEdge fd w e := by
  unfold propagateVeclen at h
  rcases Option.bind_eq_some.mp h with ⟨r, hr, hpure⟩
  have hst2 : st2 = st.setEdges r.2 := by simpa using hpure.symm
  have hchar := pv_fold_char fd st st.edges none [] r hr
  obtain ⟨lbl, ns, es, sc, k⟩ := st
  subst hst2
  refine ⟨rfl, rfl, ?_, ?_⟩
  · show r.2.length = es.length
    simpa using hchar.1
  · intro i hi
    obtain ⟨e, w, hg, hw, hr2⟩ := hchar.2.2 i hi
    refine ⟨e, w, hg, hw, ?_⟩
    show r.2[i]? = rewriteEdge fd w e
    simpa using hr2

/-- The concrete result of the rewrite loop on the C7 example. -/
def exC7Result : SDFGState :=
  .mk "s0"
    [(0, .nested innerC7), (1, .access "X1"), (2, .access "P"), (3, .access "Q")]
    [⟨0, some "a", 1, none,
      { data := some "fpga_X", num_accesses := 4, subset := fullRange [4]
        veclen := 4, wcr := none }⟩,
     ⟨2, none, 3, none,
      { data := some "fpga_Y", num_accesses := 4, subset := fullRange [4]
        veclen := 4, wcr := none }⟩]
    [] 4

/-- Witness for the amended C7 at the concrete example. -/
theorem claim_C7_veclen_rewrite_witness :
    propagateVeclen exC7Fd exC7State = some exC7Result ∧
    exC7Result.nodes = exC7State.nodes ∧
    exC7Result.edges.length = exC7State.edges.length := by
  have hp : propagateVeclen exC7Fd exC7State = some exC7Result := rfl
  have h := claim_C7_veclen_rewrite exC7Fd exC7State exC7Result hp
  exact ⟨hp, h.2.1, h.2.2.1⟩

/-! Helper lemmas for the input-staging characterisation (claim C6). -/

theorem lookup_append_left_some {α β : Type} [BEq α] {l1 l2 : List (α × β)}
    {k : α} {v : β} (h : l1.lookup k = some v) :
    (l1 ++ l2).lookup k = some v := by
  induction l1 with
  | nil => simp [List.lookup] at h
  | cons p rest ih =>
    obtain ⟨a, b⟩ := p
    by_cases hk : (k == a) = true
    · simp [List.lookup, hk] at h ⊢
      exact h
    · simp only [Bool.not_eq_true] at hk
      simp [List.lookup, hk] at h ⊢
      exact ih h

theorem lookup_append_right_of_notmem {α β : Type} [BEq α] [LawfulBEq α]
    {l1 : List (α × β)} (l2 : List (α × β)) {k : α}
    (h : k ∉ l1.map Prod.fst) :
    (l1 ++ l2).lookup k = l2.lookup k := by
  induction l1 with
  | nil => rfl
  | cons p rest ih =>
    obtain ⟨a, b⟩ := p
    simp only [List.map_cons, List.mem_cons] at h
    push_neg at h
    have hk : (k == a) = false := by
      simp [h.1]
    simp [List.lookup, hk]
    exact ih h.2

theorem lookup_none_of_notmem {α β : Type} [BEq α] [LawfulBEq α]
    {l : List (α × β)} {k : α} (h : k ∉ l.map Prod.fst) :
    l.lookup k = none := by
  have := @lookup_append_right_of_notmem α β _ _ l ([] : List (α × β)) k h
  simpa using this

/-- The proxy prefix is injective on names. -/
theorem fpga_prefix_inj {a b : String} (h : "fpga_" ++ a = "fpga_" ++ b) :
    a = b := by
  have hd : ("fpga_" ++ a).data = ("fpga_" ++ b).data := by rw [h]
  simp only [String.data_append] at hd
  have hab : a.data = b.data := List.append_cancel_left hd
  cases a; cases b
  simp only [] at hab
  rw [hab]

theorem setEdges_nodes (st : SDFGState) (es : List SEdge) :
    (st.setEdges es).nodes = st.nodes := by
  cases st; rfl

theorem setEdges_nextId (st : SDFGState) (es : List SEdge) :
    (st.setEdges es).nextId = st.nextId := by
  cases st; rfl

theorem setEdges_edges (st : SDFGState) (es : List SEdge) :
    (st.setEdges es).edges = es := by
  cases st; rfl

theorem addAccess_nodes (st : SDFGState) (nm : String) :
    (addAccess st nm).1.nodes = st.nodes ++ [(st.nextId, .access nm)] := by
  cases st; rfl

theorem addAccess_edges (st : SDFGState) (nm : String) :
    (addAccess st nm).1.edges = st.edges := by
  cases st; rfl

theorem addAccess_nextId (st : SDFGState) (nm : String) :
    (addAccess st nm).1.nextId = st.nextId + 1 := by
  cases st; rfl

theorem addAccess_snd (st : SDFGState) (nm : String) :
    (addAccess st nm).2 = st.nextId := by
  cases st; rfl

theorem removeNode_nodes (st : SDFGState) (i : Nat) :
    (removeNode st i).nodes = st.nodes.filter (fun p => p.1 != i) := by
  cases st; rfl

theorem removeNode_edges (st : SDFGState) (i : Nat) :
    (removeNode st i).edges = st.edges.filter (fun e => e.src != i && e.dst != i) := by
  cases st; rfl

theorem removeNode_nextId (st : SDFGState) (i : Nat) :
    (removeNode st i).nextId = st.nextId := by
  cases st; rfl

theorem changeEdgeSrc_nodes (st : SDFGState) (a b : Nat) :
    (changeEdgeSrc st a b).nodes = st.nodes := by
  cases st; rfl

theorem changeEdgeSrc_nextId (st : SDFGState) (a b : Nat) :
    (changeEdgeSrc st a b).nextId = st.nextId := by
  cases st; rfl

theorem changeEdgeSrc_edges (st : SDFGState) (a b : Nat) :
    (changeEdgeSrc st a b).edges =
      st.edges.map (fun e => if e.src == a then { e with src := b } else e) := by
  cases st; rfl

theorem addStateEdge_nodes (st : SDFGState) (e : SEdge) :
    (addStateEdge st e).nodes = st.nodes := by
  cases st; rfl

theorem addStateEdge_edges (st : SDFGState) (e : SEdge) :
    (addStateEdge st e).edges = st.edges ++ [e] := by
  cases st; rfl

theorem addStateEdge_nextId (st : SDFGState) (e : SEdge) :
    (addStateEdge st e).nextId = st.nextId := by
  cases st; rfl

theorem stWFb_addAccess {st : SDFGState} (h : stWFb st = true) (nm : String) :
    stWFb (addAccess st nm).1 = true := by
  simp only [stWFb, List.all_eq_true] at h ⊢
  intro p hp
  rw [addAccess_nodes] at hp
  rw [addAccess_nextId]
  rcases List.mem_append.mp hp with h1 | h1
  · have := h p h1
    simp at this ⊢
    omega
  · simp at h1
    subst h1
    simp

/-- Fresh node lookup after `addAccess` on a well-formed state. -/
theorem nodeById_addAccess_self {st : SDFGState} (h : stWFb st = true)
    (nm : String) :
    nodeById (addAccess st nm).1 st.nextId = some (.access nm) := by
  simp only [stWFb, List.all_eq_true] at h
  unfold nodeById
  rw [addAccess_nodes, List.find?_append]
  have hnone : st.nodes.find? (fun p => p.1 == st.nextId) = none := by
    rw [List.find?_eq_none]
    intro p hp
    have := h p hp
    simp at this ⊢
    omega
  rw [hnone]
  simp

/-- Old node lookups survive `addAccess`. -/
theorem nodeById_addAccess_old {st : SDFGState} {k : Nat} {n : SNode}
    (h : nodeById st k = some n) (nm : String) :
    nodeById (addAccess st nm).1 k = some n := by
  unfold nodeById at h ⊢
  rw [addAccess_nodes, List.find?_append]
  rcases ho : st.nodes.find? (fun p => p.1 == k) with _ | q
  · rw [ho] at h; simp at h
  · rw [ho] at h
    simp [ho]
    simpa using h

theorem nodeById_addStateEdge (st : SDFGState) (e : SEdge) (k : Nat) :
    nodeById (addStateEdge st e) k = nodeById st k := by
  unfold nodeById
  rw [addStateEdge_nodes]

/-- Claim-side description of the pre-state copy memlets: one full-range
host-named memlet per Array-backed access entry of the input list, WCR
inputs included, in input order. -/
def copyMemlets (arrs0 : Arrays) : List (Nat × SNode) → List Memlet
  | [] => []
  | (_, .access dta) :: rest =>
    (match arrs0.lookup dta with
     | some a => if a.kind == .array then [fullMemlet dta a.shape] else []
     | none => []) ++ copyMemlets arrs0 rest
  | _ :: rest => copyMemlets arrs0 rest

/-- Every access entry of the input list is catalogued in the base
catalog. -/
def insCatalogued (arrs0 : Arrays) (p : Nat × SNode) : Bool :=
  match p.2 with
  | .access dta => (arrs0.lookup dta).isSome
  | _ => true

/-- Complete case analysis of one successful input-staging step: either the
entry is skipped (non-access, or backed by a non-Array descriptor), or it is
an Array-backed access node; then the pre-state always gains the two copy
endpoints and the full-range copy edge, the catalog and registry grow by
the proxy exactly when the name is new and the node is not a WCR input, and
the matched state is left alone for a WCR input and rewired-then-pruned
otherwise. -/
theorem inputStep_char (wcrIds : List Nat) (acc acc' : StageAcc) (p : Nat × SNode)
    (h : inputStep wcrIds acc p = some acc') :
    (acc' = acc ∧
      ((∀ dta, p.2 ≠ .access dta) ∨
       ∃ dta a, p.2 = .access dta ∧ acc.arrays.lookup dta = some a ∧
         a.kind ≠ .array)) ∨
    ∃ dta a, p.2 = .access dta ∧ acc.arrays.lookup dta = some a ∧
      a.kind = .array ∧
      acc'.stage = addStateEdge
          (addAccess (addAccess acc.stage dta).1 ("fpga_" ++ dta)).1
          ⟨acc.stage.nextId, none, acc.stage.nextId + 1, none,
            fullMemlet dta a.shape⟩ ∧
      ((acc.fd.contains dta = false ∧ wcrIds.contains p.1 = false ∧
          acc'.arrays = acc.arrays ++ [("fpga_" ++ dta, mkProxy a)] ∧
          acc'.fd = acc.fd ++ [dta]) ∨
        ((acc.fd.contains dta = true ∨ wcrIds.contains p.1 = true) ∧
          acc'.arrays = acc.arrays ∧ acc'.fd = acc.fd)) ∧
      ((wcrIds.contains p.1 = true ∧ acc'.st = acc.st) ∨
        (wcrIds.contains p.1 = false ∧
          acc'.st = removeNode
            (changeEdgeSrc (addAccess acc.st ("fpga_" ++ dta)).1 p.1
              (addAccess acc.st ("fpga_" ++ dta)).2) p.1)) := by
  obtain ⟨i, n⟩ := p
  cases n with
  | access dta =>
    simp only [inputStep] at h
    split at h
    · simp at h
    · rename_i a hlk
      split at h
      · rename_i hk
        refine Or.inl ⟨(Option.some.inj h).symm, Or.inr ⟨dta, a, rfl, hlk, ?_⟩⟩
        simpa using hk
      · rename_i hk
        have hkind : a.kind = .array := by simpa using hk
        have hacc : acc' = _ := (Option.some.inj h).symm
        refine Or.inr ⟨dta, a, rfl, hlk, hkind, ?_, ?_, ?_⟩
        · rw [hacc]
          dsimp only
          simp only [addAccess_snd, addAccess_nextId]
        · by_cases hfd : acc.fd.contains dta = true
          · have hc : (!acc.fd.contains dta && !wcrIds.contains i) = false := by
              rw [hfd]; rfl
            refine Or.inr ⟨Or.inl hfd, ?_, ?_⟩ <;>
              (rw [hacc]; dsimp only; rw [hc]; rfl)
          · by_cases hw : wcrIds.contains i = true
            · have hc : (!acc.fd.contains dta && !wcrIds.contains i) = false := by
                rw [hw]; cases acc.fd.contains dta <;> rfl
              refine Or.inr ⟨Or.inr hw, ?_, ?_⟩ <;>
                (rw [hacc]; dsimp only; rw [hc]; rfl)
            · simp only [Bool.not_eq_true] at hfd hw
              have hc : (!acc.fd.contains dta && !wcrIds.contains i) = true := by
                rw [hfd, hw]; rfl
              refine Or.inl ⟨hfd, hw, ?_, ?_⟩ <;>
                (rw [hacc]; dsimp only; rw [hc]; rfl)
        · by_cases hw : wcrIds.contains i = true
          · have hc2 : (!wcrIds.contains i) = false := by rw [hw]; rfl
            refine Or.inl ⟨hw, ?_⟩
            rw [hacc]
            dsimp only
            rw [hc2]
            rfl
          · simp only [Bool.not_eq_true] at hw
            have hc2 : (!wcrIds.contains i) = true := by rw [hw]; rfl
            refine Or.inr ⟨hw, ?_⟩
            rw [hacc]
            dsimp only
            rw [hc2]
            rfl
  | nested sd =>
    refine Or.inl ⟨(Option.some.inj h).symm, Or.inl ?_⟩
    exact fun dta hh => SNode.noConfusion hh
  | mapEntry dims sch =>
    refine Or.inl ⟨(Option.some.inj h).symm, Or.inl ?_⟩
    exact fun dta hh => SNode.noConfusion hh
  | mapExit sch =>
    refine Or.inl ⟨(Option.some.inj h).symm, Or.inl ?_⟩
    exact fun dta hh => SNode.noConfusion hh
  | tasklet =>
    refine Or.inl ⟨(Option.some.inj h).symm, Or.inl ?_⟩
    exact fun dta hh => SNode.noConfusion hh

theorem stWFb_addStateEdge (st : SDFGState) (e : SEdge) :
    stWFb (addStateEdge st e) = stWFb st := by
  unfold stWFb
  rw [addStateEdge_nodes, addStateEdge_nextId]

theorem notmem_of_contains_false {l : List String} {d : String}
    (h : l.contains d = false) : d ∉ l := by
  simpa using h

/-- Master characterisation of the input-staging fold of `apply`: catalog
and registry growth (proxies registered once per distinct new non-WCR
name), pre-state copy edges for every Array-backed input, WCR originals
kept intact in the matched state, and non-WCR inputs pruned after their
out-edges are re-sourced to a fresh proxy node. -/
theorem input_fold_char (wcrIds : List Nat) (arrs0 : Arrays) (st0 : SDFGState) :
    ∀ (ins : List (Nat × SNode)) (acc acc' : StageAcc),
    ins.foldlM (inputStep wcrIds) acc = some acc' →
    (∀ p ∈ ins, insCatalogued arrs0 p = true) →
    (∀ p ∈ ins, p.1 < st0.nextId) →
    (∀ d a, arrs0.lookup d = some a → acc.arrays.lookup d = some a) →
    (∀ d : String, d ∉ acc.fd → ("fpga_" ++ d) ∉ acc.arrays.map Prod.fst) →
    (∀ d ∈ acc.fd, ∃ a, arrs0.lookup d = some a ∧ a.kind = .array ∧
        acc.arrays.lookup ("fpga_" ++ d) = some (mkProxy a)) →
    acc.fd.Nodup →
    acc.arrays.length = arrs0.length + acc.fd.length →
    st0.nextId ≤ acc.st.nextId →
    stWFb acc.stage = true →
    ((∀ d a, arrs0.lookup d = some a → acc'.arrays.lookup d = some a) ∧
     (∀ d : String, d ∉ acc'.fd → ("fpga_" ++ d) ∉ acc'.arrays.map Prod.fst) ∧
     (∀ d ∈ acc'.fd, ∃ a, arrs0.lookup d = some a ∧ a.kind = .array ∧
        acc'.arrays.lookup ("fpga_" ++ d) = some (mkProxy a) ∧
        (d ∈ acc.fd ∨ ∃ i, (i, SNode.access d) ∈ ins ∧ wcrIds.contains i = false)) ∧
     acc'.fd.Nodup ∧
     acc'.arrays.length = arrs0.length + acc'.fd.length ∧
     acc.st.nextId ≤ acc'.st.nextId ∧
     (∀ i n, wcrIds.contains i = true → (i, n) ∈ acc.st.nodes →
        (i, n) ∈ acc'.st.nodes) ∧
     (∀ i, wcrIds.contains i = true → i < st0.nextId →
        ∀ e ∈ acc'.st.edges, e.src = i → e ∈ acc.st.edges) ∧
     (∀ i, i < st0.nextId → (∀ n, (i, n) ∉ acc.st.nodes) →
        (∀ e ∈ acc.st.edges, e.src ≠ i) →
        (∀ n, (i, n) ∉ acc'.st.nodes) ∧ (∀ e ∈ acc'.st.edges, e.src ≠ i)) ∧
     (∀ j n, st0.nextId ≤ j → (j, n) ∈ acc.st.nodes → (j, n) ∈ acc'.st.nodes) ∧
     (∀ i dta a, (i, SNode.access dta) ∈ ins → wcrIds.contains i = false →
        arrs0.lookup dta = some a → a.kind = .array →
        (∀ n, (i, n) ∉ acc'.st.nodes) ∧ (∀ e ∈ acc'.st.edges, e.src ≠ i) ∧
        ∃ j, st0.nextId ≤ j ∧
          (j, SNode.access ("fpga_" ++ dta)) ∈ acc'.st.nodes) ∧
     stWFb acc'.stage = true ∧
     (∀ k n, nodeById acc.stage k = some n → nodeById acc'.stage k = some n) ∧
     (∃ added, acc'.stage.edges = acc.stage.edges ++ added ∧
        added.map (fun e => e.data) = copyMemlets arrs0 ins ∧
        ∀ e ∈ added, ∃ dta a, arrs0.lookup dta = some a ∧ a.kind = .array ∧
          e.src_conn = none ∧ e.dst_conn = none ∧
          e.data = fullMemlet dta a.shape ∧
          nodeById acc'.stage e.src = some (.access dta) ∧
          nodeById acc'.stage e.dst = some (.access ("fpga_" ++ dta))) ∧
     (∀ d ∈ acc.fd, d ∈ acc'.fd) ∧
     (∀ i dta a, (i, SNode.access dta) ∈ ins → wcrIds.contains i = false →
        arrs0.lookup dta = some a → a.kind = .array → dta ∈ acc'.fd)) := by
  intro ins
  induction ins with
  | nil =>
    intro acc acc' h hcat hids hI1 hI2 hI3 hI4 hI5 hI6 hI8
    have hacc : acc' = acc := by simpa [List.foldlM] using h.symm
    subst hacc
    refine ⟨hI1, hI2, ?_, hI4, hI5, Nat.le_refl _, fun i n _ hm => hm,
      fun i _ _ e he _ => he, fun i _ hn he => ⟨hn, he⟩,
      fun j n _ hm => hm, fun i dta a hm => absurd hm (by simp),
      hI8, fun k n hk => hk, ⟨[], by simp, rfl, fun e he => absurd he (by simp)⟩,
      fun d hd => hd, fun i dta a hm => absurd hm (by simp)⟩
    intro d hd
    obtain ⟨a, h1, h2, h3⟩ := hI3 d hd
    exact ⟨a, h1, h2, h3, Or.inl hd⟩
  | cons p rest ih =>
    intro acc acc' h hcat hids hI1 hI2 hI3 hI4 hI5 hI6 hI8
    rw [List.foldlM_cons] at h
    rcases Option.bind_eq_some.mp h with ⟨acc1, hstep, hrest⟩
    have hcatR : ∀ q ∈ rest, insCatalogued arrs0 q = true :=
      fun q hq => hcat q (List.mem_cons_of_mem _ hq)
    have hidsR : ∀ q ∈ rest, q.1 < st0.nextId :=
      fun q hq => hids q (List.mem_cons_of_mem _ hq)
    have hpid : p.1 < st0.nextId := hids p (List.mem_cons_self _ _)
    rcases inputStep_char wcrIds acc acc1 p hstep with
      ⟨haeq, hskip⟩ | ⟨dta, a, hp2, hlk, hkind, hstage, harrfd, hst⟩
    · -- skipped entry: accumulator unchanged
      rw [haeq] at hrest
      obtain ⟨J1, J2, J3, J4, J5, J6, J7, J8, J9, J10, J11, J12, J13, J14,
          J15, J16⟩ :=
        ih acc acc' hrest hcatR hidsR hI1 hI2 hI3 hI4 hI5 hI6 hI8
      refine ⟨J1, J2, ?_, J4, J5, J6, J7, J8, J9, J10, ?_, J12, J13, ?_, J15,
        ?_⟩
      · intro d hd
        obtain ⟨a, h1, h2, h3, h4⟩ := J3 d hd
        refine ⟨a, h1, h2, h3, ?_⟩
        rcases h4 with h4 | ⟨i, hm, hw⟩
        · exact Or.inl h4
        · exact Or.inr ⟨i, List.mem_cons_of_mem _ hm, hw⟩
      · intro i dta a hm hw ha0 hak
        rcases List.mem_cons.mp hm with hm | hm
        · exfalso
          rcases hskip with hne | ⟨dta2, a2, hp2, hlk2, hk2⟩
          · exact hne dta (congrArg Prod.snd hm).symm
          · have h22 : SNode.access dta = SNode.access dta2 :=
              (congrArg Prod.snd hm).trans hp2
            have hdd : dta = dta2 := by
              cases h22; rfl
            subst hdd
            have := hI1 dta a ha0
            rw [this] at hlk2
            exact hk2 (by rw [← Option.some.inj hlk2]; exact hak)
        · exact J11 i dta a hm hw ha0 hak
      · obtain ⟨added, he1, he2, he3⟩ := J14
        refine ⟨added, he1, ?_, he3⟩
        rw [he2]
        obtain ⟨i, n⟩ := p
        cases n with
        | access dta =>
          rcases hskip with hne | ⟨dta2, a2, hp2, hlk2, hk2⟩
          · exact absurd rfl (hne dta)
          · have hdd : dta = dta2 := by simpa using hp2
            subst hdd
            have hiscat := hcat (i, SNode.access dta) (List.mem_cons_self _ _)
            simp only [insCatalogued] at hiscat
            rcases ha0 : arrs0.lookup dta with _ | a0
            · rw [ha0] at hiscat; simp at hiscat
            · have := hI1 dta a0 ha0
              rw [this] at hlk2
              have ha02 : a0 = a2 := Option.some.inj hlk2
              subst ha02
              have hknot : (a0.kind == DataKind.array) = false := by
                cases hkk : a0.kind == DataKind.array
                · rfl
                · exact absurd (by simpa using hkk) hk2
              simp [copyMemlets, ha0, hknot]
        | nested sd => simp [copyMemlets]
        | mapEntry dims sch => simp [copyMemlets]
        | mapExit sch => simp [copyMemlets]
        | tasklet => simp [copyMemlets]
      · intro i dta a hm hw ha0 hak
        rcases List.mem_cons.mp hm with hm | hm
        · exfalso
          rcases hskip with hne | ⟨dta2, a2, hp2, hlk2, hk2⟩
          · exact hne dta (congrArg Prod.snd hm).symm
          · have h22 : SNode.access dta = SNode.access dta2 :=
              (congrArg Prod.snd hm).trans hp2
            have hdd : dta = dta2 := by
              cases h22; rfl
            subst hdd
            have h10 := hI1 dta a ha0
            rw [h10] at hlk2
            exact hk2 (by rw [← Option.some.inj hlk2]; exact hak)
        · exact J16 i dta a hm hw ha0 hak
    · -- staged Array-backed access entry
      obtain ⟨i, pn⟩ := p
      have hpn : pn = SNode.access dta := hp2
      subst hpn
      have hpidI : i < st0.nextId := hpid
      have hiscat := hcat (i, SNode.access dta) (List.mem_cons_self _ _)
      simp only [insCatalogued] at hiscat
      have harr0 : arrs0.lookup dta = some a := by
        rcases ha0 : arrs0.lookup dta with _ | a0
        · rw [ha0] at hiscat; simp at hiscat
        · have h10 := hI1 dta a0 ha0
          rw [h10] at hlk
          rw [Option.some.inj hlk]
      have hkbeq : (a.kind == DataKind.array) = true := by simp [hkind]
      -- stage facts
      have hsE : acc1.stage.edges = acc.stage.edges ++
          [⟨acc.stage.nextId, none, acc.stage.nextId + 1, none,
            fullMemlet dta a.shape⟩] := by
        rw [hstage, addStateEdge_edges, addAccess_edges, addAccess_edges]
      have hsWF1 : stWFb acc1.stage = true := by
        rw [hstage, stWFb_addStateEdge]
        exact stWFb_addAccess (stWFb_addAccess hI8 _) _
      have hsById : ∀ k n, nodeById acc.stage k = some n →
          nodeById acc1.stage k = some n := by
        intro k n hk
        rw [hstage, nodeById_addStateEdge]
        exact nodeById_addAccess_old (nodeById_addAccess_old hk _) _
      have hsrcN : nodeById acc1.stage acc.stage.nextId =
          some (SNode.access dta) := by
        rw [hstage, nodeById_addStateEdge]
        exact nodeById_addAccess_old (nodeById_addAccess_self hI8 dta) _
      have hdstN : nodeById acc1.stage (acc.stage.nextId + 1) =
          some (SNode.access ("fpga_" ++ dta)) := by
        rw [hstage, nodeById_addStateEdge]
        have hh := @nodeById_addAccess_self ((addAccess acc.stage dta).1)
          (stWFb_addAccess hI8 dta) ("fpga_" ++ dta)
        rw [addAccess_nextId] at hh
        exact hh
      -- matched-state facts
      have hstF :
          (acc1.st = acc.st ∧ wcrIds.contains i = true) ∨
          (wcrIds.contains i = false ∧
            acc1.st.nodes = (acc.st.nodes ++
              [(acc.st.nextId, SNode.access ("fpga_" ++ dta))]).filter
                (fun q => q.1 != i) ∧
            acc1.st.edges = ((acc.st.edges.map (fun e =>
              if e.src == i then { e with src := acc.st.nextId } else e)).filter
                (fun e => e.src != i && e.dst != i)) ∧
            acc1.st.nextId = acc.st.nextId + 1) := by
        rcases hst with ⟨hww, hst1⟩ | ⟨hww, hst1⟩
        · exact Or.inl ⟨hst1, hww⟩
        · refine Or.inr ⟨hww, ?_, ?_, ?_⟩
          · rw [hst1, removeNode_nodes, changeEdgeSrc_nodes, addAccess_nodes]
          · rw [hst1, removeNode_edges, changeEdgeSrc_edges, addAccess_edges,
              addAccess_snd]
          · rw [hst1, removeNode_nextId, changeEdgeSrc_nextId, addAccess_nextId]
      have hnext1 : acc.st.nextId ≤ acc1.st.nextId := by
        rcases hstF with ⟨hst1, _⟩ | ⟨_, _, _, hn⟩
        · rw [hst1]
        · omega
      -- invariants at the intermediate accumulator
      have hI1n : ∀ d a0, arrs0.lookup d = some a0 →
          acc1.arrays.lookup d = some a0 := by
        intro d a0 h0
        rcases harrfd with ⟨_, _, harr, _⟩ | ⟨_, harr, _⟩
        · rw [harr]; exact lookup_append_left_some (hI1 d a0 h0)
        · rw [harr]; exact hI1 d a0 h0
      have hI2n : ∀ d : String, d ∉ acc1.fd →
          ("fpga_" ++ d) ∉ acc1.arrays.map Prod.fst := by
        intro d hd
        rcases harrfd with ⟨hfdF, hwF, harr, hfd⟩ | ⟨_, harr, hfd⟩
        · rw [hfd] at hd
          simp only [List.mem_append, List.mem_singleton, not_or] at hd
          rw [harr]
          intro hmem
          rw [List.map_append] at hmem
          rcases List.mem_append.mp hmem with hm | hm
          · exact hI2 d hd.1 hm
          · simp at hm
            exact hd.2 (fpga_prefix_inj hm)
        · rw [hfd] at hd
          rw [harr]
          exact hI2 d hd
      have hI3n : ∀ d ∈ acc1.fd, ∃ a0, arrs0.lookup d = some a0 ∧
          a0.kind = .array ∧
          acc1.arrays.lookup ("fpga_" ++ d) = some (mkProxy a0) := by
        intro d hd
        rcases harrfd with ⟨hfdF, hwF, harr, hfd⟩ | ⟨_, harr, hfd⟩
        · rw [hfd] at hd
          rcases List.mem_append.mp hd with hdo | hdn
          · obtain ⟨a0, h1, h2, h3⟩ := hI3 d hdo
            exact ⟨a0, h1, h2, by rw [harr]; exact lookup_append_left_some h3⟩
          · have hdd : d = dta := by simpa using hdn
            subst hdd
            refine ⟨a, harr0, hkind, ?_⟩
            rw [harr,
              lookup_append_right_of_notmem _
                (hI2 d (notmem_of_contains_false hfdF))]
            simp [List.lookup]
        · rw [hfd] at hd
          obtain ⟨a0, h1, h2, h3⟩ := hI3 d hd
          exact ⟨a0, h1, h2, by rw [harr]; exact h3⟩
      have hI4n : acc1.fd.Nodup := by
        rcases harrfd with ⟨hfdF, _, _, hfd⟩ | ⟨_, _, hfd⟩
        · rw [hfd]
          have hdnot := notmem_of_contains_false hfdF
          simp [List.nodup_append, hI4, hdnot]
        · rw [hfd]; exact hI4
      have hI5n : acc1.arrays.length = arrs0.length + acc1.fd.length := by
        rcases harrfd with ⟨_, _, harr, hfd⟩ | ⟨_, harr, hfd⟩
        · rw [harr, hfd]
          simp [hI5]
          omega
        · rw [harr, hfd]; exact hI5
      have hI6n : st0.nextId ≤ acc1.st.nextId := Nat.le_trans hI6 hnext1
      obtain ⟨J1, J2, J3, J4, J5, J6, J7, J8, J9, J10, J11, J12, J13, J14,
          J15, J16⟩ :=
        ih acc1 acc' hrest hcatR hidsR hI1n hI2n hI3n hI4n hI5n hI6n hsWF1
      have hfdmono : ∀ d ∈ acc.fd, d ∈ acc'.fd := by
        intro d hd
        apply J15
        rcases harrfd with ⟨_, _, _, hfd⟩ | ⟨_, _, hfd⟩
        · rw [hfd]; exact List.mem_append_left _ hd
        · rw [hfd]; exact hd
      refine ⟨J1, J2, ?_, J4, J5, Nat.le_trans hnext1 J6, ?_, ?_, ?_, ?_, ?_,
        J12, fun k n hk => J13 k n (hsById k n hk), ?_, hfdmono, ?_⟩
      · -- registry provenance
        intro d hd
        obtain ⟨a0, h1, h2, h3, h4⟩ := J3 d hd
        refine ⟨a0, h1, h2, h3, ?_⟩
        rcases h4 with h4 | ⟨i2, hm, hw2⟩
        · rcases harrfd with ⟨hfdF, hwF, _, hfd⟩ | ⟨_, _, hfd⟩
          · rw [hfd] at h4
            rcases List.mem_append.mp h4 with hdo | hdn
            · exact Or.inl hdo
            · have hdd : d = dta := by simpa using hdn
              subst hdd
              exact Or.inr ⟨i, List.mem_cons_self _ _, hwF⟩
          · rw [hfd] at h4
            exact Or.inl h4
        · exact Or.inr ⟨i2, List.mem_cons_of_mem _ hm, hw2⟩
      · -- WCR nodes survive
        intro i0 n hw0 hm
        apply J7 i0 n hw0
        rcases hstF with ⟨hst1, _⟩ | ⟨hww, hnodes1, _, _⟩
        · rw [hst1]; exact hm
        · have hne : i0 ≠ i := by
            intro hh; rw [hh] at hw0; rw [hw0] at hww; exact Bool.noConfusion hww
          rw [hnodes1]
          exact List.mem_filter.mpr ⟨List.mem_append_left _ hm, by simp [hne]⟩
      · -- WCR out-edges pristine
        intro i0 hw0 hlt e he hsrc2
        have he1 := J8 i0 hw0 hlt e he hsrc2
        rcases hstF with ⟨hst1, _⟩ | ⟨hww, _, hedges1, _⟩
        · rw [hst1] at he1; exact he1
        · rw [hedges1] at he1
          have he2 := (List.mem_filter.mp he1).1
          obtain ⟨e2, he2m, he2e⟩ := List.mem_map.mp he2
          by_cases hsp : (e2.src == i) = true
          · rw [if_pos hsp] at he2e
            rw [← he2e] at hsrc2
            simp at hsrc2
            omega
          · rw [if_neg hsp] at he2e
            rw [← he2e]
            exact he2m
      · -- absence persistence
        intro i0 hlt hn he
        have hstep9 : (∀ n, (i0, n) ∉ acc1.st.nodes) ∧
            (∀ e ∈ acc1.st.edges, e.src ≠ i0) := by
          rcases hstF with ⟨hst1, _⟩ | ⟨hww, hnodes1, hedges1, _⟩
          · rw [hst1]; exact ⟨hn, he⟩
          · constructor
            · intro n hm
              rw [hnodes1] at hm
              rcases List.mem_append.mp (List.mem_filter.mp hm).1 with hm2 | hm2
              · exact hn n hm2
              · simp at hm2
                omega
            · intro e he2 
              rw [hedges1] at he2
              obtain ⟨e2, he2m, he2e⟩ :=
                List.mem_map.mp (List.mem_filter.mp he2).1
              by_cases hsp : (e2.src == i) = true
              · rw [if_pos hsp] at he2e
                rw [← he2e]
                simp
                omega
              · rw [if_neg hsp] at he2e
                rw [← he2e]
                exact he e2 he2m
        exact J9 i0 hlt hstep9.1 hstep9.2
      · -- high-id nodes persist
        intro j n hj hm
        apply J10 j n hj
        rcases hstF with ⟨hst1, _⟩ | ⟨hww, hnodes1, _, _⟩
        · rw [hst1]; exact hm
        · rw [hnodes1]
          refine List.mem_filter.mpr ⟨List.mem_append_left _ hm, ?_⟩
          have : j ≠ i := by omega
          simp [this]
      · -- non-WCR inputs pruned, proxy node added
        intro i0 dta0 a0 hm hw0 ha0 hak0
        rcases List.mem_cons.mp hm with hm | hm
        · have hii : i = i0 := (congrArg Prod.fst hm).symm
          subst hii
          have hdd : dta = dta0 := by
            have h2 : SNode.access dta0 = SNode.access dta :=
              congrArg Prod.snd hm
            cases h2; rfl
          subst hdd
          have haa : a0 = a := by
            rw [harr0] at ha0; exact (Option.some.inj ha0).symm
          rcases hstF with ⟨_, hww⟩ | ⟨hww, hnodes1, hedges1, _⟩
          · rw [hww] at hw0; exact Bool.noConfusion hw0
          · have hn1 : ∀ n, (i, n) ∉ acc1.st.nodes := by
              intro n hm2
              rw [hnodes1] at hm2
              have := (List.mem_filter.mp hm2).2
              simp at this
            have he1 : ∀ e ∈ acc1.st.edges, e.src ≠ i := by
              intro e he2
              rw [hedges1] at he2
              have hf := (List.mem_filter.mp he2).2
              simp at hf
              exact hf.1
            have hpair := J9 i hpidI hn1 he1
            have hprox1 : (acc.st.nextId,
                SNode.access ("fpga_" ++ dta)) ∈ acc1.st.nodes := by
              rw [hnodes1]
              refine List.mem_filter.mpr
                ⟨List.mem_append_right _ (by simp), ?_⟩
              have : acc.st.nextId ≠ i := by omega
              simp [this]
            exact ⟨hpair.1, hpair.2,
              ⟨acc.st.nextId, hI6, J10 _ _ hI6 hprox1⟩⟩
        · exact J11 i0 dta0 a0 hm hw0 ha0 hak0
      · -- stage copy edges
        obtain ⟨added1, k1, k2, k3⟩ := J14
        refine ⟨⟨acc.stage.nextId, none, acc.stage.nextId + 1, none,
            fullMemlet dta a.shape⟩ :: added1, ?_, ?_, ?_⟩
        · rw [k1, hsE]
          simp
        · simp only [List.map_cons, k2]
          simp [copyMemlets, harr0, hkbeq]
        · intro e hme
          rcases List.mem_cons.mp hme with hme | hme
          · subst hme
            exact ⟨dta, a, harr0, hkind, rfl, rfl, rfl,
              J13 _ _ hsrcN, J13 _ _ hdstN⟩
          · exact k3 e hme
      · intro i0 dta0 a0 hm hw0 ha0 hak0
        rcases List.mem_cons.mp hm with hm | hm
        · have hii : i = i0 := (congrArg Prod.fst hm).symm
          subst hii
          have hdd : dta = dta0 := by
            have h2 : SNode.access dta0 = SNode.access dta :=
              congrArg Prod.snd hm
            cases h2; rfl
          subst hdd
          apply J15
          rcases harrfd with ⟨_, _, _, hfd⟩ | ⟨hor, _, hfd⟩
          · rw [hfd]
            exact List.mem_append_right _ (by simp)
          · rw [hfd]
            rcases hor with hfdT | hwT
            · simpa using hfdT
            · rw [hwT] at hw0; exact Bool.noConfusion hw0
        · exact J16 i0 dta0 a0 hm hw0 ha0 hak0

set_option maxHeartbeats 2000000 in
/-- Counterexample to C6 as stated: in `exC6` the input set is non-empty
(source node 0 over array `A`), and node 2 over array `W` — an Array-backed
access node — joins the inputs through WCR discovery; yet `apply` registers
no `fpga_W` proxy descriptor: the final catalog is exactly
`A, W, fpga_A`.  Proxies are created only for non-WCR inputs, contradicting
the claim's "including the WCR input nodes". -/
theorem claim_C6_counterexample :
    (exC6.states.get? 0).map (fun st => (findSourceNodes st).map Prod.fst) =
      some [0] ∧
    (exC6.states.get? 0).bind (wcrDiscover exC6) =
      some ([(2, SNode.access "W")], [2]) ∧
    (exC6.arrays.lookup "W").map (fun a => a.kind) = some .array ∧
    (FPGATransformState.apply exC6 0).map (fun sd => sd.arrays.map Prod.fst) =
      some ["A", "W", "fpga_A"] ∧
    (FPGATransformState.apply exC6 0).map
        (fun sd => (sd.arrays.lookup "fpga_W").isSome) = some false := by
  refine ⟨rfl, rfl, rfl, by decide, by decide⟩

/-- C6 as amended: over the input-staging loop of `apply` (inputs with ids
drawn from the matched state, all backed by the base catalog, proxy names
fresh), the proxy registry collects exactly the distinct names of
Array-backed *non-WCR* input nodes — each registered once, with a transient
accelerator-global descriptor `mkProxy` mirroring the host array — while
the pre-state gains one full-range host-to-proxy copy edge per Array-backed
input *including WCR inputs*; WCR input nodes and their outgoing edges
survive untouched in the matched state, and each non-WCR Array-backed input
node is removed with its outgoing edges re-sourced away to a fresh
proxy-named access node. -/
theorem claim_C6_input_staging (wcrIds : List Nat) (ins : List (Nat × SNode))
    (arrs0 : Arrays) (lbl : String) (st0 : SDFGState) (acc' : StageAcc)
    (hfold : ins.foldlM (inputStep wcrIds)
        ⟨arrs0, [], SDFGState.mk lbl [] [] [] 0, st0⟩ = some acc')
    (hcat : ∀ p ∈ ins, insCatalogued arrs0 p = true)
    (hids : ∀ p ∈ ins, p.1 < st0.nextId)
    (hwf : stWFb st0 = true)
    (hfresh : ∀ d : String, ("fpga_" ++ d) ∉ arrs0.map Prod.fst) :
    (acc'.fd.Nodup ∧
      acc'.arrays.length = arrs0.length + acc'.fd.length ∧
      (∀ d ∈ acc'.fd, ∃ a, arrs0.lookup d = some a ∧ a.kind = .array ∧
        acc'.arrays.lookup ("fpga_" ++ d) = some (mkProxy a) ∧
        ∃ i, (i, SNode.access d) ∈ ins ∧ wcrIds.contains i = false) ∧
      (∀ i dta a, (i, SNode.access dta) ∈ ins → wcrIds.contains i = false →
        arrs0.lookup dta = some a → a.kind = .array → dta ∈ acc'.fd) ∧
      (∀ d a, arrs0.lookup d = some a → acc'.arrays.lookup d = some a)) ∧
    (acc'.stage.edges.map (fun e => e.data) = copyMemlets arrs0 ins ∧
      (∀ e ∈ acc'.stage.edges, ∃ dta a, arrs0.lookup dta = some a ∧
        a.kind = .array ∧ e.data = fullMemlet dta a.shape ∧
        nodeById acc'.stage e.src = some (.access dta) ∧
        nodeById acc'.stage e.dst = some (.access ("fpga_" ++ dta)))) ∧
    (∀ i n, wcrIds.contains i = true → (i, n) ∈ st0.nodes →
      (i, n) ∈ acc'.st.nodes ∧
      ∀ e ∈ acc'.st.edges, e.src = i → e ∈ st0.edges) ∧
    (∀ i dta a, (i, SNode.access dta) ∈ ins → wcrIds.contains i = false →
      arrs0.lookup dta = some a → a.kind = .array →
      (∀ n, (i, n) ∉ acc'.st.nodes) ∧ (∀ e ∈ acc'.st.edges, e.src ≠ i) ∧
      ∃ j, st0.nextId ≤ j ∧
        (j, SNode.access ("fpga_" ++ dta)) ∈ acc'.st.nodes) := by
  obtain ⟨M1, M2, M3, M4, M5, M6, M7, M8, M9, M10, M11, M12, M13, M14,
      M15, M16⟩ :=
    input_fold_char wcrIds arrs0 st0 ins
      ⟨arrs0, [], SDFGState.mk lbl [] [] [] 0, st0⟩ acc' hfold hcat hids
      (fun d a h => h) (fun d _ => hfresh d)
      (fun d hd => absurd hd (by simp)) List.nodup_nil (by simp)
      (Nat.le_refl _) rfl
  obtain ⟨added, k1, k2, k3⟩ := M14
  have hsE : acc'.stage.edges = added := by
    rw [k1]
    rfl
  refine ⟨⟨M4, M5, ?_, M16, M1⟩, ⟨?_, ?_⟩, ?_, M11⟩
  · intro d hd
    obtain ⟨a, h1, h2, h3, h4⟩ := M3 d hd
    rcases h4 with h4 | h4
    · exact absurd h4 (by simp)
    · exact ⟨a, h1, h2, h3, h4⟩
  · rw [hsE]
    exact k2
  · intro e he
    rw [hsE] at he
    obtain ⟨dta, a, h1, h2, _, _, h5, h6, h7⟩ := k3 e he
    exact ⟨dta, a, h1, h2, h5, h6, h7⟩
  · intro i n hw hm
    refine ⟨M7 i n hw hm, ?_⟩
    intro e he hsrc
    have hlt : i < st0.nextId := by
      have := List.all_eq_true.mp hwf (i, n) hm
      simpa using this
    exact M8 i hw hlt e he hsrc

/-- A small graph exercising the input-staging loop with both a plain and a
WCR input: `A` feeds a tasklet, `W` (a WCR input, id 2) feeds it too. -/
def exC6St0 : SDFGState :=
  .mk "s0"
    [(0, .access "A"), (1, .tasklet), (2, .access "W")]
    [⟨0, none, 1, none, memOn "A" 1⟩, ⟨2, none, 1, none, memOn "W" 1⟩]
    [] 3

def exC6Arrs : Arrays := [("A", hostArr), ("W", hostArr)]

def exC6Ins : List (Nat × SNode) := [(0, .access "A"), (2, .access "W")]

/-- The concrete result of the input-staging fold on the small example. -/
def exC6Acc : StageAcc :=
  ⟨[("A", hostArr), ("W", hostArr), ("fpga_A", mkProxy hostArr)],
   ["A"],
   .mk "pre_s0"
     [(0, .access "A"), (1, .access "fpga_A"),
      (2, .access "W"), (3, .access "fpga_W")]
     [⟨0, none, 1, none, fullMemlet "A" [4]⟩,
      ⟨2, none, 3, none, fullMemlet "W" [4]⟩]
     [] 4,
   .mk "s0"
     [(1, .tasklet), (2, .access "W"), (3, .access "fpga_A")]
     [⟨3, none, 1, none, memOn "A" 1⟩, ⟨2, none, 1, none, memOn "W" 1⟩]
     [] 4⟩

/-- Witness for the amended C6 at the concrete example: only the non-WCR
input `A` gets a proxy descriptor, both inputs get pre-state copy edges,
the WCR input node survives and the plain input node is pruned. -/
theorem claim_C6_input_staging_witness :
    exC6Ins.foldlM (inputStep [2])
        ⟨exC6Arrs, [], SDFGState.mk "pre_s0" [] [] [] 0, exC6St0⟩ =
      some exC6Acc ∧
    exC6Acc.fd = ["A"] ∧
    exC6Acc.arrays.lookup "fpga_A" = some (mkProxy hostArr) ∧
    (∀ n, (0, n) ∉ exC6Acc.st.nodes) ∧
    (2, SNode.access "W") ∈ exC6Acc.st.nodes ∧
    exC6Acc.stage.edges.map (fun e => e.data) = copyMemlets exC6Arrs exC6Ins := by
  have hfold : exC6Ins.foldlM (inputStep [2])
      ⟨exC6Arrs, [], SDFGState.mk "pre_s0" [] [] [] 0, exC6St0⟩ =
        some exC6Acc := rfl
  have hfresh : ∀ d : String, ("fpga_" ++ d) ∉ exC6Arrs.map Prod.fst := by
    intro d hd
    simp [exC6Arrs] at hd
    rcases hd with h | h
    · have hl := congrArg String.length h
      rw [String.length_append, show "fpga_".length = 5 from rfl,
        show ("A" : String).length = 1 from rfl] at hl
      omega
    · have hl := congrArg String.length h
      rw [String.length_append, show "fpga_".length = 5 from rfl,
        show ("W" : String).length = 1 from rfl] at hl
      omega
  have h := claim_C6_input_staging [2] exC6Ins exC6Arrs "pre_s0" exC6St0
      exC6Acc hfold (by decide) (by decide) (by decide) hfresh
  refine ⟨hfold, rfl, rfl, ?_, ?_, h.2.1.1⟩
  · exact (h.2.2.2 0 "A" hostArr (List.mem_cons_self _ _) rfl rfl rfl).1
  · exact (h.2.2.1 2 (SNode.access "W") rfl
      (List.mem_cons_of_mem _ (List.mem_cons_of_mem _
        (List.mem_cons_self _ _)))).1

/-- An SDFG whose single state is empty: `apply` completes on it, yet the
applicability check still matches afterwards. -/
def ex8 : SDFG := .mk [] [.mk "s0" [] [] [] 0] [] []

/-- Counterexample to C8 as stated: on the empty state `apply` succeeds
(nothing to stage, nothing to retag), and re-running `can_be_applied` on the
transformed state still returns true — the idempotence guard only fires
when some access node was actually retagged. -/
theorem claim_C8_counterexample :
    (FPGATransformState.apply ex8 0).isSome = true ∧
    (FPGATransformState.apply ex8 0).bind
        (fun sd => (sd.states.get? 0).map
          (FPGATransformState.can_be_applied sd)) = some true := by
  exact ⟨by decide, by decide⟩

/-- A state holding an access node whose catalogued descriptor is off
default storage is never matched by `can_be_applied`. -/
theorem can_be_applied_false_of_access (sdfg : SDFG) (st : SDFGState)
    (i : Nat) (d : String) (desc : ArrayDesc)
    (hmem : (i, SNode.access d) ∈ st.nodes)
    (hlk : sdfg.arrays.lookup d = some desc)
    (hs : desc.storage ≠ .Default) :
    FPGATransformState.can_be_applied sdfg st = false := by
  cases hall : FPGATransformState.can_be_applied sdfg st
  · rfl
  · exfalso
    unfold FPGATransformState.can_be_applied at hall
    have hnode := List.all_eq_true.mp hall (i, SNode.access d) hmem
    simp only [can_be_applied_node] at hnode
    rw [hlk] at hnode
    have hnode2 : (desc.storage == StorageType.Default) = true := hnode
    exact hs (by simpa using hnode2)

/-- The node retag of `fpga_update` never produces an access node out of a
non-access node. -/
theorem fpgaNodeEff_access_inv {d0 : Nat} {n : SNode} {d : String}
    (h : fpgaNodeEff d0 n = SNode.access d) : n = SNode.access d := by
  cases n with
  | access dta => exact h
  | tasklet => exact SNode.noConfusion h
  | nested sd => exact SNode.noConfusion h
  | mapEntry dims sch => exact SNode.noConfusion h
  | mapExit sch => exact SNode.noConfusion h

/-- `fpga_update` adds no catalog entries: an unknown name stays unknown. -/
theorem fpga_update_nodes_fst_none (scope : List (Nat × Nat)) (d : Nat) :
    ∀ (ns : List (Nat × SNode)) (arrays : Arrays) (name : String),
    arrays.lookup name = none →
    (fpga_update_nodes arrays scope d ns).1.lookup name = none := by
  intro ns
  induction ns with
  | nil => intro arrays name h; exact h
  | cons p rest ih =>
    intro arrays name h
    obtain ⟨j, m⟩ := p
    rw [fpga_update_nodes_cons]
    apply ih
    cases m with
    | access dta =>
      rw [fpga_update_node_fst_access]
      rcases hl : arrays.lookup dta with _ | desc
      · exact h
      · have hne : name ≠ dta := by
          intro he
          rw [he] at h
          rw [h] at hl
          exact Option.noConfusion hl
        show (if desc.storage = .Default then
            setStorage arrays dta (fpgaTargetStorage d ((scope.lookup j).isSome))
          else arrays).lookup name = none
        by_cases hs : desc.storage = .Default
        · rw [if_pos hs, lookup_setStorage_ne _ _ _ _ hne]
          exact h
        · rw [if_neg hs]
          exact h
    | tasklet => exact h
    | nested sd => exact h
    | mapEntry dims sch => exact h
    | mapExit sch => exact h

/-- Shape of a successful `apply`: the result's catalog and the state at the
matched index both come out of the final `fpga_update` at depth 0. -/
theorem apply_success_shape (sdfg sdfg' : SDFG) (idx : Nat)
    (happly : FPGATransformState.apply sdfg idx = some sdfg') :
    ∃ (outArrs : Arrays) (state3 : SDFGState),
      idx < sdfg.states.length ∧
      sdfg'.arrays = (fpga_update outArrs state3 0).1 ∧
      sdfg'.states.get? idx = some (fpga_update outArrs state3 0).2 := by
  unfold FPGATransformState.apply at happly
  rcases Option.bind_eq_some.mp happly with ⟨state, hstate, h2⟩
  rcases Option.bind_eq_some.mp h2 with ⟨w, hw, h3⟩
  rcases Option.bind_eq_some.mp h3 with ⟨inRes, hin, h4⟩
  rcases Option.bind_eq_some.mp h4 with ⟨outRes, hout, h5⟩
  rcases Option.bind_eq_some.mp h5 with ⟨state3, hpv, h6⟩
  have hlt : idx < sdfg.states.length := by
    obtain ⟨hh, _⟩ := List.get?_eq_some.mp hstate
    exact hh
  have hsd : sdfg' = _ := (Option.some.inj h6).symm
  refine ⟨outRes.arrays, state3, hlt, ?_, ?_⟩
  · rw [hsd]
    rfl
  · rw [hsd]
    show ((sdfg.states.set idx (fpga_update outRes.arrays state3 0).2)
        ++ _ ++ _).get? idx = _
    rw [List.get?_eq_getElem?,
      List.getElem?_append_left (by simp [List.length_set]; omega),
      List.getElem?_append_left (by simp [List.length_set]; omega)]
    rw [List.getElem?_set_self (by omega)]

/-- C8 as amended: re-running the applicability check on the transformed
state returns false whenever that state still holds at least one access
node whose data is catalogued — the final `fpga_update` pass retags every
such descriptor off default storage, which the storage guard of
`can_be_applied` then rejects.  (On a state with no catalogued access node
— e.g. an empty state — the check can still succeed, refuting the
unconditional claim.) -/
theorem claim_C8_not_reapplicable (sdfg sdfg' : SDFG) (idx : Nat)
    (st' : SDFGState) (i : Nat) (d : String)
    (happly : FPGATransformState.apply sdfg idx = some sdfg')
    (hst : sdfg'.states.get? idx = some st')
    (hmem : (i, SNode.access d) ∈ st'.nodes)
    (hcat : (sdfg'.arrays.lookup d).isSome = true) :
    FPGATransformState.can_be_applied sdfg' st' = false := by
  obtain ⟨outArrs, state3, hlt, harr, hstidx⟩ :=
    apply_success_shape sdfg sdfg' idx happly
  rw [hstidx] at hst
  have hst2 : st' = (fpga_update outArrs state3 0).2 := (Option.some.inj hst).symm
  obtain ⟨lbl, ns, es, sc, k⟩ := state3
  have hnodes : st'.nodes = ns.map (fun p => (p.1, fpgaNodeEff 0 p.2)) := by
    rw [hst2]
    show (fpga_update_nodes outArrs sc 0 ns).2 = _
    exact fpga_update_nodes_snd sc 0 ns outArrs
  have hmem2 := hmem
  rw [hnodes] at hmem2
  obtain ⟨⟨i0, n0⟩, hm0, hme⟩ := List.mem_map.mp hmem2
  have hn0 : n0 = SNode.access d := by
    have h2 : fpgaNodeEff 0 n0 = SNode.access d := congrArg Prod.snd hme
    exact fpgaNodeEff_access_inv h2
  subst hn0
  have harr1 : sdfg'.arrays = (fpga_update_nodes outArrs sc 0 ns).1 := by
    rw [harr]
    rfl
  rcases hpre : outArrs.lookup d with _ | desc
  · exfalso
    have hnone : sdfg'.arrays.lookup d = none := by
      rw [harr1]
      exact fpga_update_nodes_fst_none sc 0 ns outArrs d hpre
    rw [hnone] at hcat
    exact Bool.noConfusion hcat
  · have hchar := fpga_update_nodes_arrays_char sc 0 ns outArrs d desc hpre
    have hfr : (firstRef ns d).isSome = true := by
      unfold firstRef
      rw [Option.isSome_map']
      exact List.find?_isSome.mpr ⟨(i0, SNode.access d), hm0, by simp⟩
    obtain ⟨j, hj⟩ := Option.isSome_iff_exists.mp hfr
    rw [hj] at hchar
    by_cases hs : desc.storage = .Default
    · have hfinal : sdfg'.arrays.lookup d = some { desc with
          storage := fpgaTargetStorage 0 ((sc.lookup j).isSome) } := by
      -- reduce the if/match in hchar
        rw [harr1, hchar, if_pos hs]
      exact can_be_applied_false_of_access sdfg' st' i d _ hmem hfinal
        (fpgaTargetStorage_ne_default 0 _)
    · have hfinal : sdfg'.arrays.lookup d = some desc := by
        rw [harr1, hchar, if_neg hs]
      exact can_be_applied_false_of_access sdfg' st' i d desc hmem hfinal hs

/-- The nested SDFG of `exW` after the final depth-1 retag: both inner
transient arrays go to FPGA_Global (depth 1, unscoped). -/
def innerWUpd : SDFG :=
  .mk [("xin", { hostArr with transient := true, storage := .FPGA_Global }),
       ("yout", { hostArr with transient := true, storage := .FPGA_Global })]
    [.mk "i0" [(0, .access "xin"), (1, .tasklet), (2, .access "yout")]
      [⟨0, none, 1, none, memOn "xin" 1⟩, ⟨1, none, 2, none, memOn "yout" 1⟩]
      [] 3]
    [] []

/-- The matched state of `exW` after `apply`: hosts pruned, proxy access
nodes wired to the nested SDFG, memlets redirected to the proxies. -/
def exWMatched : SDFGState :=
  .mk "s0"
    [(1, .nested innerWUpd), (3, .access "fpga_X"), (4, .access "fpga_Y")]
    [⟨3, none, 1, some "xin", memOn "fpga_X" 1⟩,
     ⟨1, some "yout", 4, none, memOn "fpga_Y" 1⟩]
    [] 5

/-- The full result of `apply exW 0`. -/
def exWApplied : SDFG :=
  .mk [("X", hostArr), ("Y", hostArr),
       ("fpga_X", mkProxy hostArr), ("fpga_Y", mkProxy hostArr)]
    [exWMatched,
     .mk "pre_s0" [(0, .access "X"), (1, .access "fpga_X")]
       [⟨0, none, 1, none, memOn "X" 1⟩] [] 2,
     .mk "post_s0" [(0, .access "Y"), (1, .access "fpga_Y")]
       [⟨1, none, 0, none, memOn "fpga_Y" 1⟩] [] 2]
    [⟨1, 0, true⟩, ⟨0, 2, true⟩]
    []

/-- Witness for the amended C8: on the concrete transformed graph the
matched state holds the catalogued access node `fpga_X`, and the
applicability check indeed rejects it. -/
theorem claim_C8_not_reapplicable_witness :
    FPGATransformState.apply exW 0 = some exWApplied ∧
    exWApplied.states.get? 0 = some exWMatched ∧
    FPGATransformState.can_be_applied exWApplied exWMatched = false := by
  have happ : FPGATransformState.apply exW 0 = some exWApplied := rfl
  refine ⟨happ, rfl, ?_⟩
  exact claim_C8_not_reapplicable exW exWApplied 0 exWMatched 3 "fpga_X" happ
    rfl (List.mem_cons_of_mem _ (List.mem_cons_self _ _)) (by decide)

/-! WCR discovery on a WCR-free graph finds nothing (towards claim C1). -/

theorem statesNoWCR_mem {sts : List SDFGState} {st : SDFGState}
    (h : statesNoWCR sts = true) (hm : st ∈ sts) : stateNoWCR st = true := by
  induction sts with
  | nil => simp at hm
  | cons s rest ih =>
    rw [statesNoWCR] at h
    simp only [Bool.and_eq_true] at h
    rcases List.mem_cons.mp hm with hm | hm
    · subst hm
      exact h.1
    · exact ih h.2 hm

theorem stateNoWCR_split {st : SDFGState} (h : stateNoWCR st = true) :
    edgesNoWCR st.edges = true ∧ nodesNoWCR st.nodes = true := by
  obtain ⟨l, ns, es, sc, k⟩ := st
  rw [stateNoWCR] at h
  simp only [Bool.and_eq_true] at h
  exact h

theorem nodesNoWCR_mem {ns : List (Nat × SNode)} {p : Nat × SNode}
    (h : nodesNoWCR ns = true) (hm : p ∈ ns) : nodeNoWCR p.2 = true := by
  induction ns with
  | nil => simp at hm
  | cons q rest ih =>
    obtain ⟨j, m⟩ := q
    rw [nodesNoWCR] at h
    simp only [Bool.and_eq_true] at h
    rcases List.mem_cons.mp hm with hm | hm
    · subst hm
      exact h.1
    · exact ih h.2 hm

theorem wcrEdgeAdds_nil (pp : Option SDFGState) (gE : SDFGState) (i : Nat)
    (h : edgesNoWCR gE.edges = true) :
    wcrEdgeAdds pp gE i = some ([], []) := by
  have hsub : ∀ e ∈ allEdges gE i, e.data.wcr.isSome = false := by
    intro e he
    unfold allEdges at he
    split at he
    · have hall := fun e2 hm =>
        List.all_eq_true.mp h e2 hm
      rcases List.mem_append.mp he with h1 | h1 <;>
        · have hm := (List.mem_filter.mp h1).1
          have := hall e hm
          simp only [Option.isNone_iff_eq_none] at this
          rw [this]
          rfl
    · simp at he
  unfold wcrEdgeAdds
  generalize hes : allEdges gE i = es
  rw [hes] at hsub
  clear hes
  induction es with
  | nil => rfl
  | cons e rest ih =>
    rw [List.foldlM_cons]
    have h1 := hsub e (List.mem_cons_self _ _)
    rw [h1]
    show Option.bind (some ([], [])) _ = _
    rw [Option.some_bind]
    exact ih (fun e2 hm => hsub e2 (List.mem_cons_of_mem _ hm))

mutual
theorem wcrVisitNode_nil (pp : Option SDFGState) (own gE : SDFGState)
    (i : Nat) : (n : SNode) → nodeNoWCR n = true →
    edgesNoWCR gE.edges = true → wcrVisitNode pp own gE i n = some ([], [])
  | .nested (.mk arrs sts ise sy), hn, _ => by
    rw [wcrVisitNode]
    exact wcrVisitStates_nil own sts hn
  | .access dta, _, hg => by
    rw [wcrVisitNode]
    exact wcrEdgeAdds_nil pp gE i hg
  | .tasklet, _, _ => rfl
  | .mapEntry dims sch, _, _ => rfl
  | .mapExit sch, _, _ => rfl
termination_by structural n => n

theorem wcrVisitStates_nil (own : SDFGState) :
    (sts : List SDFGState) → statesNoWCR sts = true →
    wcrVisitStates own sts = some ([], [])
  | [], _ => rfl
  | .mk l ns es sc k :: rest, h => by
    rw [statesNoWCR] at h
    simp only [Bool.and_eq_true] at h
    have hst := h.1
    rw [stateNoWCR] at hst
    simp only [Bool.and_eq_true] at hst
    rw [wcrVisitStates]
    rw [wcrVisitStates_nil own rest h.2]
    show Option.bind _ _ = _
    rw [Option.some_bind]
    rw [wcrVisitNodes_nil (some own) (.mk l ns es sc k) ns hst.2 hst.1]
    rfl
termination_by structural sts => sts

theorem wcrVisitNodes_nil (pp : Option SDFGState) (own : SDFGState) :
    (ns : List (Nat × SNode)) → nodesNoWCR ns = true →
    edgesNoWCR own.edges = true → wcrVisitNodes pp own ns = some ([], [])
  | [], _, _ => rfl
  | (j, m) :: rest, h, hg => by
    rw [nodesNoWCR] at h
    simp only [Bool.and_eq_true] at h
    rw [wcrVisitNodes]
    rw [wcrVisitNodes_nil pp own rest h.2 hg]
    show Option.bind _ _ = _
    rw [Option.some_bind]
    rw [wcrVisitNode_nil pp own own j m h.1 hg]
    rfl
termination_by structural ns => ns
end

theorem foldPairs_nil {A : Type} (g : A → Option (List (Nat × SNode) × List Nat))
    (l : List A) (h : ∀ x ∈ l, g x = some ([], [])) :
    ∀ acc, l.foldlM (fun acc2 x => do
      let b ← g x
      pure (acc2.1 ++ b.1, acc2.2 ++ b.2)) acc = some acc := by
  induction l with
  | nil => intro acc; rfl
  | cons x rest ih =>
    intro acc
    rw [List.foldlM_cons, h x (List.mem_cons_self _ _)]
    show List.foldlM _ (acc.1 ++ [], acc.2 ++ []) rest = some acc
    rw [List.append_nil, List.append_nil, Prod.mk.eta]
    exact ih (fun q hq => h q (List.mem_cons_of_mem _ hq)) acc

theorem foldKeep_nil {A B : Type} (g : B → A → Option B) (l : List A)
    (h : ∀ acc, ∀ x ∈ l, g acc x = some acc) :
    ∀ acc, l.foldlM g acc = some acc := by
  induction l with
  | nil => intro acc; rfl
  | cons x rest ih =>
    intro acc
    rw [List.foldlM_cons, h acc x (List.mem_cons_self _ _)]
    show List.foldlM g acc rest = some acc
    exact ih (fun acc2 q hq => h acc2 q (List.mem_cons_of_mem _ hq)) acc

/-- On a WCR-free graph the stack-driven WCR discovery of `apply` finds no
extra input nodes. -/
theorem wcrDiscover_nil (sdfg : SDFG) (st : SDFGState)
    (hG : sdfgNoWCR sdfg = true) (hst : stateNoWCR st = true) :
    wcrDiscover sdfg st = some ([], []) := by
  have hnode : ∀ sg ∈ sdfg.states, ∀ p ∈ st.nodes,
      wcrVisitNode none st sg p.1 p.2 = some ([], []) := by
    intro sg hsg p hp
    have hsgn : stateNoWCR sg = true := by
      obtain ⟨arrs, sts, ise, sy⟩ := sdfg
      exact statesNoWCR_mem hG hsg
    exact wcrVisitNode_nil none st sg p.1 p.2
      (nodesNoWCR_mem (stateNoWCR_split hst).2 hp)
      (stateNoWCR_split hsgn).1
  unfold wcrDiscover
  exact foldKeep_nil _ sdfg.states.reverse
    (fun acc sg hsg =>
      foldPairs_nil (fun p => wcrVisitNode none st sg p.1 p.2)
        st.nodes.reverse
        (fun p hp => hnode sg (List.mem_reverse.mp hsg) p
          (List.mem_reverse.mp hp)) acc)
    ([], [])

theorem setEdges_label (st : SDFGState) (es : List SEdge) :
    (st.setEdges es).label = st.label := by
  cases st; rfl

theorem addAccess_label (st : SDFGState) (nm : String) :
    (addAccess st nm).1.label = st.label := by
  cases st; rfl

theorem addStateEdge_label (st : SDFGState) (e : SEdge) :
    (addStateEdge st e).label = st.label := by
  cases st; rfl

theorem changeEdgeDest_nodes (st : SDFGState) (a b : Nat) :
    (changeEdgeDest st a b).nodes = st.nodes := by
  cases st; rfl

theorem changeEdgeDest_nextId (st : SDFGState) (a b : Nat) :
    (changeEdgeDest st a b).nextId = st.nextId := by
  cases st; rfl

theorem changeEdgeDest_edges (st : SDFGState) (a b : Nat) :
    (changeEdgeDest st a b).edges =
      st.edges.map (fun e => if e.dst == a then { e with dst := b } else e) := by
  cases st; rfl

/-- The rewrite loop leaves everything but the edge list untouched. -/
theorem propagateVeclen_shape (fd : List String) (st st2 : SDFGState)
    (h : propagateVeclen fd st = some st2) :
    st2.label = st.label ∧ st2.nodes = st.nodes ∧ st2.nextId = st.nextId := by
  unfold propagateVeclen at h
  rcases Option.bind_eq_some.mp h with ⟨r, hr, hp⟩
  have hst2 : st2 = st.setEdges r.2 := by simpa using hp.symm
  rw [hst2]
  exact ⟨setEdges_label st r.2, setEdges_nodes st r.2, setEdges_nextId st r.2⟩

/-- One fresh non-WCR iteration of the input-staging loop, as an
equation. -/
theorem inputStep_eq_fresh (wcrIds : List Nat) (acc : StageAcc) (i : Nat)
    (dta : String) (a : ArrayDesc)
    (hlk : acc.arrays.lookup dta = some a) (hk : a.kind = .array)
    (hfd : acc.fd.contains dta = false) (hw : wcrIds.contains i = false) :
    inputStep wcrIds acc (i, .access dta) = some
      ⟨acc.arrays ++ [("fpga_" ++ dta, mkProxy a)],
       acc.fd ++ [dta],
       addStateEdge (addAccess (addAccess acc.stage dta).1 ("fpga_" ++ dta)).1
         ⟨acc.stage.nextId, none, acc.stage.nextId + 1, none,
           fullMemlet dta a.shape⟩,
       removeNode (changeEdgeSrc (addAccess acc.st ("fpga_" ++ dta)).1 i
         (addAccess acc.st ("fpga_" ++ dta)).2) i⟩ := by
  have hkb : (a.kind != DataKind.array) = false := by simp [hk]
  simp only [inputStep, hlk, hkb, hfd, hw, Bool.not_false, Bool.and_self,
    Bool.false_eq_true, if_false, if_true, addAccess_snd, addAccess_nextId]

/-- One fresh iteration of the output-staging loop, as an equation. -/
theorem outputStep_eq_fresh (acc : StageAcc) (i : Nat)
    (dta : String) (a : ArrayDesc)
    (hlk : acc.arrays.lookup dta = some a) (hk : a.kind = .array)
    (hfd : acc.fd.contains dta = false) :
    outputStep acc (i, .access dta) = some
      ⟨acc.arrays ++ [("fpga_" ++ dta, mkProxy a)],
       acc.fd ++ [dta],
       addStateEdge (addAccess (addAccess acc.stage dta).1 ("fpga_" ++ dta)).1
         ⟨acc.stage.nextId + 1, none, acc.stage.nextId, none,
           fullMemlet ("fpga_" ++ dta) a.shape⟩,
       removeNode (changeEdgeDest (addAccess acc.st ("fpga_" ++ dta)).1 i
         (addAccess acc.st ("fpga_" ++ dta)).2) i⟩ := by
  have hkb : (a.kind != DataKind.array) = false := by simp [hk]
  simp only [outputStep, hlk, hkb, hfd, Bool.not_false,
    Bool.false_eq_true, if_false, if_true, addAccess_snd, addAccess_nextId]

/-- Combined effect on one inter-state edge of redirecting predecessors of
`idx` to `N` and successors of `idx` to `N + 1`. -/
def redirectBoth (idx N : Nat) (e : ISEdge) : ISEdge :=
  let e1 := if e.dst == idx then { e with dst := N } else e
  if e1.src == idx then { e1 with src := N + 1 } else e1

theorem isChange_both (isE : List ISEdge) (idx N : Nat) :
    isChangeSrc (isChangeDest isE idx N) idx (N + 1) =
      isE.map (redirectBoth idx N) := by
  unfold isChangeSrc isChangeDest
  rw [List.map_map]
  rfl

/-- Endpoint filters of the redirected inter-state edge list: nothing
enters or leaves `idx` any more; the edges now entering `N` are exactly the
redirected former predecessors of `idx`, the edges leaving `N + 1` exactly
the redirected former successors of `idx`. -/
theorem redirect_filters (idx N : Nat) (hidx : idx < N) :
    ∀ (isE : List ISEdge), (∀ e ∈ isE, e.src < N ∧ e.dst < N) →
    ((isE.map (redirectBoth idx N)).filter (fun e => e.dst == idx) = [] ∧
     (isE.map (redirectBoth idx N)).filter (fun e => e.src == idx) = [] ∧
     (isE.map (redirectBoth idx N)).filter (fun e => e.dst == N) =
       (isE.filter (fun e => e.dst == idx)).map
         (fun e => ⟨if e.src == idx then N + 1 else e.src, N, e.uncond⟩) ∧
     (isE.map (redirectBoth idx N)).filter (fun e => e.src == N + 1) =
       (isE.filter (fun e => e.src == idx)).map
         (fun e => ⟨N + 1, if e.dst == idx then N else e.dst, e.uncond⟩)) := by
  have hNidx : (N == idx) = false := by simp; omega
  have hN1idx : (N + 1 == idx) = false := by simp; omega
  intro isE
  induction isE with
  | nil => intro _; exact ⟨rfl, rfl, rfl, rfl⟩
  | cons e rest ih =>
    intro hwf
    obtain ⟨hs, hd⟩ := hwf e (List.mem_cons_self _ _)
    obtain ⟨ih1, ih2, ih3, ih4⟩ :=
      ih (fun q hq => hwf q (List.mem_cons_of_mem _ hq))
    obtain ⟨es, ed, eu⟩ := e
    simp only at hs hd
    have hedN : (ed == N) = false := by simp; omega
    have hesN1 : (es == N + 1) = false := by simp; omega
    by_cases hde : (ed == idx) = true
    · by_cases hse : (es == idx) = true
      · have hrb : redirectBoth idx N ⟨es, ed, eu⟩ = ⟨N + 1, N, eu⟩ := by
          simp only [redirectBoth, hde, if_true]
          simp only [show ((ISEdge.mk es N eu).src == idx) = true from hse,
            if_true]
        refine ⟨?_, ?_, ?_, ?_⟩
        · rw [List.map_cons, hrb, List.filter_cons]
          simp only [show ((ISEdge.mk (N + 1) N eu).dst == idx) = false
            from hNidx, Bool.false_eq_true, if_false]
          exact ih1
        · rw [List.map_cons, hrb, List.filter_cons]
          simp only [show ((ISEdge.mk (N + 1) N eu).src == idx) = false
            from hN1idx, Bool.false_eq_true, if_false]
          exact ih2
        · rw [List.map_cons, hrb, List.filter_cons, List.filter_cons]
          simp only [show ((ISEdge.mk (N + 1) N eu).dst == N) = true
            from by simp, show ((ISEdge.mk es ed eu).dst == idx) = true
            from hde, if_true, List.map_cons]
          rw [ih3]
          simp [hse]
        · rw [List.map_cons, hrb, List.filter_cons, List.filter_cons]
          simp only [show ((ISEdge.mk (N + 1) N eu).src == N + 1) = true
            from by simp, show ((ISEdge.mk es ed eu).src == idx) = true
            from hse, if_true, List.map_cons]
          rw [ih4]
          simp [hde]
      · have hrb : redirectBoth idx N ⟨es, ed, eu⟩ = ⟨es, N, eu⟩ := by
          simp only [redirectBoth, hde, if_true]
          simp only [show ((ISEdge.mk es N eu).src == idx) = false
            from by simpa using hse, Bool.false_eq_true, if_false]
        refine ⟨?_, ?_, ?_, ?_⟩
        · rw [List.map_cons, hrb, List.filter_cons]
          simp only [show ((ISEdge.mk es N eu).dst == idx) = false
            from hNidx, Bool.false_eq_true, if_false]
          exact ih1
        · rw [List.map_cons, hrb, List.filter_cons]
          simp only [show ((ISEdge.mk es N eu).src == idx) = false
            from by simpa using hse, Bool.false_eq_true, if_false]
          exact ih2
        · rw [List.map_cons, hrb, List.filter_cons, List.filter_cons]
          simp only [show ((ISEdge.mk es N eu).dst == N) = true
            from by simp, show ((ISEdge.mk es ed eu).dst == idx) = true
            from hde, if_true, List.map_cons]
          rw [ih3]
          simp [hse]
        · rw [List.map_cons, hrb, List.filter_cons, List.filter_cons]
          simp only [show ((ISEdge.mk es N eu).src == N + 1) = false
            from hesN1, show ((ISEdge.mk es ed eu).src == idx) = false
            from by simpa using hse, Bool.false_eq_true, if_false]
          exact ih4
    · by_cases hse : (es == idx) = true
      · have hrb : redirectBoth idx N ⟨es, ed, eu⟩ = ⟨N + 1, ed, eu⟩ := by
          simp only [redirectBoth, hde, Bool.false_eq_true, if_false]
          simp only [show ((ISEdge.mk es ed eu).src == idx) = true from hse,
            if_true]
        refine ⟨?_, ?_, ?_, ?_⟩
        · rw [List.map_cons, hrb, List.filter_cons]
          simp only [show ((ISEdge.mk (N + 1) ed eu).dst == idx) = false
            from by simpa using hde, Bool.false_eq_true, if_false]
          exact ih1
        · rw [List.map_cons, hrb, List.filter_cons]
          simp only [show ((ISEdge.mk (N + 1) ed eu).src == idx) = false
            from hN1idx, Bool.false_eq_true, if_false]
          exact ih2
        · rw [List.map_cons, hrb, List.filter_cons, List.filter_cons]
          simp only [show ((ISEdge.mk (N + 1) ed eu).dst == N) = false
            from hedN, show ((ISEdge.mk es ed eu).dst == idx) = false
            from by simpa using hde, Bool.false_eq_true, if_false]
          exact ih3
        · rw [List.map_cons, hrb, List.filter_cons, List.filter_cons]
          simp only [show ((ISEdge.mk (N + 1) ed eu).src == N + 1) = true
            from by simp, show ((ISEdge.mk es ed eu).src == idx) = true
            from hse, if_true, List.map_cons]
          rw [ih4]
          simp [hde]
      · have hrb : redirectBoth idx N ⟨es, ed, eu⟩ = ⟨es, ed, eu⟩ := by
          simp only [redirectBoth, hde, Bool.false_eq_true, if_false]
          simp only [show ((ISEdge.mk es ed eu).src == idx) = false
            from by simpa using hse, Bool.false_eq_true, if_false]
        refine ⟨?_, ?_, ?_, ?_⟩
        · rw [List.map_cons, hrb, List.filter_cons]
          simp only [show ((ISEdge.mk es ed eu).dst == idx) = false
            from by simpa using hde, Bool.false_eq_true, if_false]
          exact ih1
        · rw [List.map_cons, hrb, List.filter_cons]
          simp only [show ((ISEdge.mk es ed eu).src == idx) = false
            from by simpa using hse, Bool.false_eq_true, if_false]
          exact ih2
        · rw [List.map_cons, hrb, List.filter_cons, List.filter_cons]
          simp only [show ((ISEdge.mk es ed eu).dst == N) = false
            from hedN, show ((ISEdge.mk es ed eu).dst == idx) = false
            from by simpa using hde, Bool.false_eq_true, if_false]
          exact ih3
        · rw [List.map_cons, hrb, List.filter_cons, List.filter_cons]
          simp only [show ((ISEdge.mk es ed eu).src == N + 1) = false
            from hesN1, show ((ISEdge.mk es ed eu).src == idx) = false
            from by simpa using hse, Bool.false_eq_true, if_false]
          exact ih4

theorem fpga_prefix_ne (d : String) : ("fpga_" ++ d) ≠ d := by
  intro h
  have hl := congrArg String.length h
  rw [String.length_append, show "fpga_".length = 5 from rfl] at hl
  omega

theorem fpgaNodeEff_mapEntry_inv {d0 dims : Nat} {sch : ScheduleType}
    {n : SNode} (h : fpgaNodeEff d0 n = SNode.mapEntry dims sch) :
    sch ≠ .Default := by
  cases n with
  | mapEntry dims0 sch0 =>
    injection h with h1 h2
    rw [← h2]
    by_cases hs : sch0 = .Default
    · rw [if_pos hs]
      simp
    · rw [if_neg hs]
      exact hs
  | access d => exact SNode.noConfusion h
  | tasklet => exact SNode.noConfusion h
  | nested sd => exact SNode.noConfusion h
  | mapExit sch0 => exact SNode.noConfusion h

theorem fpgaNodeEff_mapExit_inv {d0 : Nat} {sch : ScheduleType}
    {n : SNode} (h : fpgaNodeEff d0 n = SNode.mapExit sch) :
    sch ≠ .Default := by
  cases n with
  | mapExit sch0 =>
    injection h with h2
    rw [← h2]
    by_cases hs : sch0 = .Default
    · rw [if_pos hs]
      simp
    · rw [if_neg hs]
      exact hs
  | access d => exact SNode.noConfusion h
  | tasklet => exact SNode.noConfusion h
  | nested sd => exact SNode.noConfusion h
  | mapEntry dims0 sch0 => exact SNode.noConfusion h

/-- Any catalogued name referenced by an access node of the state ends the
retag pass at non-default storage. -/
theorem update_access_nondefault (sc : List (Nat × Nat)) (d0 : Nat)
    (ns : List (Nat × SNode)) (arrays : Arrays) (j : Nat) (d : String)
    (desc : ArrayDesc) (hmem : (j, SNode.access d) ∈ ns)
    (hlk : arrays.lookup d = some desc) :
    ∃ descF, (fpga_update_nodes arrays sc d0 ns).1.lookup d = some descF ∧
      descF.storage ≠ .Default := by
  have hchar := fpga_update_nodes_arrays_char sc d0 ns arrays d desc hlk
  have hfr : (firstRef ns d).isSome = true := by
    unfold firstRef
    rw [Option.isSome_map']
    exact List.find?_isSome.mpr ⟨(j, SNode.access d), hmem, by simp⟩
  obtain ⟨j2, hj⟩ := Option.isSome_iff_exists.mp hfr
  rw [hj] at hchar
  by_cases hs : desc.storage = .Default
  · refine ⟨{ desc with storage := fpgaTargetStorage d0 ((sc.lookup j2).isSome) },
      ?_, fpgaTargetStorage_ne_default d0 _⟩
    rw [hchar, if_pos hs]
  · exact ⟨desc, by rw [hchar, if_neg hs], hs⟩

theorem sdfgNoWCR_states (sd : SDFG) :
    sdfgNoWCR sd = statesNoWCR sd.states := by
  cases sd; rfl

/-- Counterexample to C1 as stated: `exBad` has exactly one Array-backed
input access node `X`, one Array-backed output access node `Y`, and no WCR
annotations, yet `apply` does not produce the claimed structure at all — it
dies (NameError) because the matched state has no nested SDFG to ever bind
the vector-width variable before the first proxied memlet is rewritten. -/
theorem claim_C1_counterexample :
    (exBad.states.get? 0).map (fun st => (findSourceNodes st, findSinkNodes st)) =
      some ([(0, SNode.access "X")], [(2, SNode.access "Y")]) ∧
    sdfgNoWCR exBad = true ∧
    (exBad.arrays.lookup "X").map (fun a => a.kind) = some .array ∧
    (exBad.arrays.lookup "Y").map (fun a => a.kind) = some .array ∧
    FPGATransformState.apply exBad 0 = none := by
  exact ⟨rfl, rfl, rfl, rfl, rfl⟩

/-- C1 as amended: under the stated shape hypotheses AND the success of
`apply` (which C1 as written wrongly takes for granted), the transformed
graph has the claimed structure. -/
theorem claim_C1_apply_structure (sdfg sdfg' : SDFG) (idx : Nat)
    (st0 st' : SDFGState) (ix iy : Nat) (X Y : String) (aX aY : ArrayDesc)
    (happly : FPGATransformState.apply sdfg idx = some sdfg')
    (hstate : sdfg.states.get? idx = some st0)
    (hst : sdfg'.states.get? idx = some st')
    (hsrc : findSourceNodes st0 = [(ix, SNode.access X)])
    (hsnk : findSinkNodes st0 = [(iy, SNode.access Y)])
    (hXY : X ≠ Y)
    (hnwcr : sdfgNoWCR sdfg = true)
    (hlkX : sdfg.arrays.lookup X = some aX) (hkX : aX.kind = .array)
    (hlkY : sdfg.arrays.lookup Y = some aY) (hkY : aY.kind = .array)
    (huniq : ∀ j dta, (j, SNode.access dta) ∈ st0.nodes →
      (dta = X → j = ix) ∧ (dta = Y → j = iy))
    (hrefs : ∀ j dta, (j, SNode.access dta) ∈ st0.nodes →
      (sdfg.arrays.lookup dta).isSome = true)
    (hfresh : ∀ d : String, ("fpga_" ++ d) ∉ sdfg.arrays.map Prod.fst)
    (hwf : stWFb st0 = true)
    (hiswf : ∀ e ∈ sdfg.isedges,
      e.src < sdfg.states.length ∧ e.dst < sdfg.states.length) :
    sdfg'.states.length = sdfg.states.length + 2 ∧
    (sdfg'.states.get? sdfg.states.length).map SDFGState.label =
      some ("pre_" ++ st0.label) ∧
    (sdfg'.states.get? (sdfg.states.length + 1)).map SDFGState.label =
      some ("post_" ++ st0.label) ∧
    sdfg'.isedges.filter (fun e => e.dst == idx) =
      [⟨sdfg.states.length, idx, true⟩] ∧
    sdfg'.isedges.filter (fun e => e.src == idx) =
      [⟨idx, sdfg.states.length + 1, true⟩] ∧
    sdfg'.isedges.filter (fun e => e.dst == sdfg.states.length) =
      (sdfg.isedges.filter (fun e => e.dst == idx)).map
        (fun e => ⟨if e.src == idx then sdfg.states.length + 1 else e.src,
          sdfg.states.length, e.uncond⟩) ∧
    sdfg'.isedges.filter (fun e => e.src == sdfg.states.length + 1) =
      (sdfg.isedges.filter (fun e => e.src == idx)).map
        (fun e => ⟨sdfg.states.length + 1,
          if e.dst == idx then sdfg.states.length else e.dst, e.uncond⟩) ∧
    sdfg'.arrays.lookup ("fpga_" ++ X) = some (mkProxy aX) ∧
    sdfg'.arrays.lookup ("fpga_" ++ Y) = some (mkProxy aY) ∧
    (mkProxy aX).transient = true ∧ (mkProxy aX).storage = .FPGA_Global ∧
    (∀ j dta, (j, SNode.access dta) ∈ st'.nodes → dta ≠ X ∧ dta ≠ Y) ∧
    (∀ j dta, (j, SNode.access dta) ∈ st'.nodes →
      ∃ desc, sdfg'.arrays.lookup dta = some desc ∧
        desc.storage ≠ .Default) ∧
    (∀ j dims sch, (j, SNode.mapEntry dims sch) ∈ st'.nodes →
      sch ≠ .Default) ∧
    (∀ j sch, (j, SNode.mapExit sch) ∈ st'.nodes → sch ≠ .Default) := by
  -- unfold the pipeline
  unfold FPGATransformState.apply at happly
  rcases Option.bind_eq_some.mp happly with ⟨state, hstate2, h2⟩
  rw [hstate] at hstate2
  obtain rfl : st0 = state := Option.some.inj hstate2
  rcases Option.bind_eq_some.mp h2 with ⟨w, hw, h3⟩
  have hstnw : stateNoWCR st0 = true := by
    refine statesNoWCR_mem ?_ (List.get?_mem hstate)
    rw [← sdfgNoWCR_states]
    exact hnwcr
  rw [wcrDiscover_nil sdfg st0 hnwcr hstnw] at hw
  obtain rfl : w = ([], []) := (Option.some.inj hw).symm
  rcases Option.bind_eq_some.mp h3 with ⟨inRes, hin, h4⟩
  rw [hsrc] at hin
  have hin2 : Option.bind
      (inputStep [] ⟨sdfg.arrays, [],
        .mk ("pre_" ++ st0.label) [] [] [] 0, st0⟩ (ix, SNode.access X))
      (fun r => some r) = some inRes := hin
  rw [inputStep_eq_fresh []
      ⟨sdfg.arrays, [], .mk ("pre_" ++ st0.label) [] [] [] 0, st0⟩
      ix X aX hlkX hkX rfl rfl,
    Option.some_bind] at hin2
  obtain rfl := (Option.some.inj hin2)
  rcases Option.bind_eq_some.mp h4 with ⟨outRes, hout, h5⟩
  rw [hsnk] at hout
  have hout2 : Option.bind
      (outputStep ⟨sdfg.arrays ++ [("fpga_" ++ X, mkProxy aX)], [] ++ [X],
        .mk ("post_" ++ st0.label) [] [] [] 0,
        removeNode (changeEdgeSrc (addAccess st0 ("fpga_" ++ X)).1 ix
          (addAccess st0 ("fpga_" ++ X)).2) ix⟩
        (iy, SNode.access Y))
      (fun r => some r) = some outRes := hout
  have hfdY : (([] ++ [X]).contains Y) = false := by
    simp
    exact fun h => hXY h.symm
  rw [outputStep_eq_fresh
      ⟨sdfg.arrays ++ [("fpga_" ++ X, mkProxy aX)], [] ++ [X],
        .mk ("post_" ++ st0.label) [] [] [] 0,
        removeNode (changeEdgeSrc (addAccess st0 ("fpga_" ++ X)).1 ix
          (addAccess st0 ("fpga_" ++ X)).2) ix⟩
      iy Y aY (lookup_append_left_some hlkY) hkY hfdY,
    Option.some_bind] at hout2
  obtain rfl := (Option.some.inj hout2)
  rcases Option.bind_eq_some.mp h5 with ⟨state3, hpv, h6⟩
  dsimp only at hpv h6
  have hsd : sdfg' = _ := (Option.some.inj h6).symm
  rw [hsrc, hsnk] at hsd
  simp only [List.cons_append, List.nil_append, List.isEmpty_cons,
    Bool.false_eq_true, if_false] at hsd
  have hidx : idx < sdfg.states.length := by
    obtain ⟨hh, _⟩ := List.get?_eq_some.mp hstate
    exact hh
  have hstates2 : sdfg'.states =
      (sdfg.states.set idx
          (fpga_update (sdfg.arrays ++ [("fpga_" ++ X, mkProxy aX)] ++
            [("fpga_" ++ Y, mkProxy aY)]) state3 0).2 ++
        [addStateEdge (addAccess (addAccess
            (SDFGState.mk ("pre_" ++ st0.label) [] [] [] 0) X).1
            ("fpga_" ++ X)).1
          ⟨0, none, 1, none, fullMemlet X aX.shape⟩]) ++
        [addStateEdge (addAccess (addAccess
            (SDFGState.mk ("post_" ++ st0.label) [] [] [] 0) Y).1
            ("fpga_" ++ Y)).1
          ⟨1, none, 0, none, fullMemlet ("fpga_" ++ Y) aY.shape⟩] := by
    rw [hsd]
    rfl
  have harr2 : sdfg'.arrays =
      (fpga_update (sdfg.arrays ++ [("fpga_" ++ X, mkProxy aX)] ++
        [("fpga_" ++ Y, mkProxy aY)]) state3 0).1 := by
    rw [hsd]
    rfl
  have hised2 : sdfg'.isedges =
      isChangeSrc (isChangeDest sdfg.isedges idx sdfg.states.length ++
          [⟨sdfg.states.length, idx, true⟩]) idx (sdfg.states.length + 1) ++
        [⟨idx, sdfg.states.length + 1, true⟩] := by
    rw [hsd]
    rfl
  -- catalog lookups of the two proxies
  have hlkfX : (sdfg.arrays ++ [("fpga_" ++ X, mkProxy aX)] ++
      [("fpga_" ++ Y, mkProxy aY)]).lookup ("fpga_" ++ X) =
        some (mkProxy aX) := by
    apply lookup_append_left_some
    rw [lookup_append_right_of_notmem _ (hfresh X)]
    simp [List.lookup]
  have hfYnot : ("fpga_" ++ Y) ∉
      (sdfg.arrays ++ [("fpga_" ++ X, mkProxy aX)]).map Prod.fst := by
    intro hmem
    rw [List.map_append] at hmem
    rcases List.mem_append.mp hmem with hm | hm
    · exact hfresh Y hm
    · simp at hm
      exact hXY (fpga_prefix_inj hm).symm
  have hlkfY : (sdfg.arrays ++ [("fpga_" ++ X, mkProxy aX)] ++
      [("fpga_" ++ Y, mkProxy aY)]).lookup ("fpga_" ++ Y) =
        some (mkProxy aY) := by
    rw [lookup_append_right_of_notmem _ hfYnot]
    simp [List.lookup]
  have hndX : ¬ (mkProxy aX).storage = .Default := by simp [mkProxy]
  have hndY : ¬ (mkProxy aY).storage = .Default := by simp [mkProxy]
  have hP2X : sdfg'.arrays.lookup ("fpga_" ++ X) = some (mkProxy aX) := by
    obtain ⟨l3, ns3, es3, sc3, k3⟩ := state3
    rw [harr2]
    show (fpga_update_nodes _ sc3 0 ns3).1.lookup _ = _
    rw [fpga_update_nodes_arrays_char sc3 0 ns3 _ _ _ hlkfX, if_neg hndX]
  have hP2Y : sdfg'.arrays.lookup ("fpga_" ++ Y) = some (mkProxy aY) := by
    obtain ⟨l3, ns3, es3, sc3, k3⟩ := state3
    rw [harr2]
    show (fpga_update_nodes _ sc3 0 ns3).1.lookup _ = _
    rw [fpga_update_nodes_arrays_char sc3 0 ns3 _ _ _ hlkfY, if_neg hndY]
  -- the transformed matched state
  have hstu : st' = (fpga_update (sdfg.arrays ++ [("fpga_" ++ X, mkProxy aX)]
      ++ [("fpga_" ++ Y, mkProxy aY)]) state3 0).2 := by
    rw [hstates2, List.get?_eq_getElem?,
      List.getElem?_append_left (by simp [List.length_set]; omega),
      List.getElem?_append_left (by simp [List.length_set]; omega),
      List.getElem?_set_self hidx] at hst
    exact (Option.some.inj hst).symm
  have hmemX : (ix, SNode.access X) ∈ st0.nodes := by
    have h0 : (ix, SNode.access X) ∈ findSourceNodes st0 := by
      rw [hsrc]
      exact List.mem_cons_self _ _
    exact List.mem_of_mem_filter h0
  have hmemY : (iy, SNode.access Y) ∈ st0.nodes := by
    have h0 : (iy, SNode.access Y) ∈ findSinkNodes st0 := by
      rw [hsnk]
      exact List.mem_cons_self _ _
    exact List.mem_of_mem_filter h0
  have hix : ix < st0.nextId := by
    simpa using List.all_eq_true.mp hwf _ hmemX
  have hiy : iy < st0.nextId := by
    simpa using List.all_eq_true.mp hwf _ hmemY
  have hpvs := propagateVeclen_shape _ _ _ hpv
  have hT2nodes : state3.nodes =
      ((st0.nodes ++ [(st0.nextId, SNode.access ("fpga_" ++ X))]).filter
          (fun q => q.1 != ix) ++
        [(st0.nextId + 1, SNode.access ("fpga_" ++ Y))]).filter
        (fun q => q.1 != iy) := by
    rw [hpvs.2.1]
    rw [removeNode_nodes, changeEdgeDest_nodes, addAccess_nodes]
    rw [removeNode_nextId, changeEdgeSrc_nextId, addAccess_nextId]
    rw [removeNode_nodes, changeEdgeSrc_nodes, addAccess_nodes]
  have hdecomp : ∀ q ∈ state3.nodes,
      (q ∈ st0.nodes ∧ q.1 ≠ ix ∧ q.1 ≠ iy) ∨
      q = (st0.nextId, SNode.access ("fpga_" ++ X)) ∨
      q = (st0.nextId + 1, SNode.access ("fpga_" ++ Y)) := by
    intro q hq
    rw [hT2nodes] at hq
    have hq1 := List.mem_filter.mp hq
    have hqiy : q.1 ≠ iy := by simpa using hq1.2
    rcases List.mem_append.mp hq1.1 with hm | hm
    · have hq2 := List.mem_filter.mp hm
      have hqix : q.1 ≠ ix := by simpa using hq2.2
      rcases List.mem_append.mp hq2.1 with hm2 | hm2
      · exact Or.inl ⟨hm2, hqix, hqiy⟩
      · exact Or.inr (Or.inl (by simpa using hm2))
    · exact Or.inr (Or.inr (by simpa using hm))
  have hstnodes : st'.nodes =
      state3.nodes.map (fun p => (p.1, fpgaNodeEff 0 p.2)) := by
    obtain ⟨l3, ns3, es3, sc3, k3⟩ := state3
    rw [hstu]
    show (fpga_update_nodes _ sc3 0 ns3).2 = _
    exact fpga_update_nodes_snd sc3 0 ns3 _
  have hXmem : X ∈ sdfg.arrays.map Prod.fst := lookup_mem_keys hlkX
  have hYmem : Y ∈ sdfg.arrays.map Prod.fst := lookup_mem_keys hlkY
  have hNidx : (sdfg.states.length == idx) = false := by simp; omega
  have hised3 : sdfg'.isedges =
      sdfg.isedges.map (redirectBoth idx sdfg.states.length) ++
        [⟨sdfg.states.length, idx, true⟩] ++
        [⟨idx, sdfg.states.length + 1, true⟩] := by
    rw [hised2]
    congr 1
    unfold isChangeSrc
    rw [List.map_append]
    congr 1
    · exact isChange_both sdfg.isedges idx sdfg.states.length
    · simp [hNidx]
      omega
  obtain ⟨hf1, hf2, hf3, hf4⟩ :=
    redirect_filters idx sdfg.states.length hidx sdfg.isedges hiswf
  refine ⟨?_, ?_, ?_, ?_, ?_, ?_, ?_, hP2X, hP2Y, rfl, rfl, ?_, ?_, ?_, ?_⟩
  · rw [hstates2]
    simp [List.length_set]
  · rw [hstates2, List.get?_eq_getElem?,
      List.getElem?_append_left (by simp [List.length_set]),
      List.getElem?_append_right (by simp [List.length_set])]
    simp only [List.length_set, Nat.sub_self, List.getElem?_cons_zero,
      Option.map_some']
    rw [addStateEdge_label, addAccess_label, addAccess_label]
    rfl
  · rw [hstates2, List.get?_eq_getElem?,
      List.getElem?_append_right (by simp [List.length_set])]
    simp only [List.length_append, List.length_set, List.length_cons,
      List.length_nil, Nat.sub_self, List.getElem?_cons_zero,
      Option.map_some']
    rw [addStateEdge_label, addAccess_label, addAccess_label]
    rfl
  · rw [hised3, List.filter_append, List.filter_append, hf1]
    simp
    omega
  · rw [hised3, List.filter_append, List.filter_append, hf2]
    simp
    omega
  · rw [hised3, List.filter_append, List.filter_append, hf3]
    have g1 : (List.filter (fun e => e.dst == sdfg.states.length)
        [(⟨sdfg.states.length, idx, true⟩ : ISEdge)]) = [] := by
      simp
      omega
    have g2 : (List.filter (fun e => e.dst == sdfg.states.length)
        [(⟨idx, sdfg.states.length + 1, true⟩ : ISEdge)]) = [] := by
      simp
    rw [g1, g2]
    simp
  · rw [hised3, List.filter_append, List.filter_append, hf4]
    have g1 : (List.filter (fun e => e.src == sdfg.states.length + 1)
        [(⟨sdfg.states.length, idx, true⟩ : ISEdge)]) = [] := by
      simp
    have g2 : (List.filter (fun e => e.src == sdfg.states.length + 1)
        [(⟨idx, sdfg.states.length + 1, true⟩ : ISEdge)]) = [] := by
      simp
      omega
    rw [g1, g2]
    simp
  · -- no access node named X or Y survives
    intro j dta hmem'
    rw [hstnodes] at hmem'
    obtain ⟨⟨j0, n0⟩, hm0, hme⟩ := List.mem_map.mp hmem'
    have hn0 : n0 = SNode.access dta :=
      fpgaNodeEff_access_inv (congrArg Prod.snd hme)
    subst hn0
    rcases hdecomp (j0, SNode.access dta) hm0 with ⟨hmem0, hjx, hjy⟩ | hq | hq
    · exact ⟨fun hdx => hjx ((huniq j0 dta hmem0).1 hdx),
        fun hdy => hjy ((huniq j0 dta hmem0).2 hdy)⟩
    · have hdta : dta = "fpga_" ++ X := by
        have := congrArg Prod.snd hq
        simp at this
        exact this
      subst hdta
      exact ⟨fun h => fpga_prefix_ne X h, fun h => hfresh X (h ▸ hYmem)⟩
    · have hdta : dta = "fpga_" ++ Y := by
        have := congrArg Prod.snd hq
        simp at this
        exact this
      subst hdta
      exact ⟨fun h => hfresh Y (h ▸ hXmem), fun h => fpga_prefix_ne Y h⟩
  · -- every surviving access node is catalogued off default storage
    intro j dta hmem'
    rw [hstnodes] at hmem'
    obtain ⟨⟨j0, n0⟩, hm0, hme⟩ := List.mem_map.mp hmem'
    have hn0 : n0 = SNode.access dta :=
      fpgaNodeEff_access_inv (congrArg Prod.snd hme)
    subst hn0
    have hlkA2 : ∃ desc0, (sdfg.arrays ++ [("fpga_" ++ X, mkProxy aX)] ++
        [("fpga_" ++ Y, mkProxy aY)]).lookup dta = some desc0 := by
      rcases hdecomp (j0, SNode.access dta) hm0 with ⟨hmem0, _, _⟩ | hq | hq
      · obtain ⟨desc0, hlk0⟩ := Option.isSome_iff_exists.mp
          (hrefs j0 dta hmem0)
        exact ⟨desc0, lookup_append_left_some (lookup_append_left_some hlk0)⟩
      · have hdta : dta = "fpga_" ++ X := by
          have := congrArg Prod.snd hq
          simp at this
          exact this
        subst hdta
        exact ⟨mkProxy aX, hlkfX⟩
      · have hdta : dta = "fpga_" ++ Y := by
          have := congrArg Prod.snd hq
          simp at this
          exact this
        subst hdta
        exact ⟨mkProxy aY, hlkfY⟩
    obtain ⟨desc0, hlk0⟩ := hlkA2
    obtain ⟨l3, ns3, es3, sc3, k3⟩ := state3
    have hm0n : (j0, SNode.access dta) ∈ ns3 := hm0
    obtain ⟨descF, hF, hFs⟩ :=
      update_access_nondefault sc3 0 ns3 _ j0 dta desc0 hm0n hlk0
    refine ⟨descF, ?_, hFs⟩
    rw [harr2]
    exact hF
  · -- no default map-entry schedule survives
    intro j dims sch hmem'
    rw [hstnodes] at hmem'
    obtain ⟨⟨j0, n0⟩, hm0, hme⟩ := List.mem_map.mp hmem'
    exact fpgaNodeEff_mapEntry_inv (congrArg Prod.snd hme)
  · -- no default map-exit schedule survives
    intro j sch hmem'
    rw [hstnodes] at hmem'
    obtain ⟨⟨j0, n0⟩, hm0, hme⟩ := List.mem_map.mp hmem'
    exact fpgaNodeEff_mapExit_inv (congrArg Prod.snd hme)

/-- The matched state of `exW` before the transformation. -/
def exWSt0 : SDFGState :=
  .mk "s0" [(0, .access "X"), (1, .nested innerW), (2, .access "Y")]
    [⟨0, none, 1, some "xin", memOn "X" 1⟩,
     ⟨1, some "yout", 2, none, memOn "Y" 1⟩]
    [] 3

/-- Witness for the amended C1 on the concrete graph `exW`. -/
theorem claim_C1_apply_structure_witness :
    FPGATransformState.apply exW 0 = some exWApplied ∧
    (exWApplied.states.get? 1).map SDFGState.label = some "pre_s0" ∧
    (exWApplied.states.get? 2).map SDFGState.label = some "post_s0" ∧
    exWApplied.arrays.lookup "fpga_X" = some (mkProxy hostArr) ∧
    exWApplied.isedges.filter (fun e => e.dst == 0) = [⟨1, 0, true⟩] ∧
    exWApplied.isedges.filter (fun e => e.src == 0) = [⟨0, 2, true⟩] ∧
    (∀ j dta, (j, SNode.access dta) ∈ exWMatched.nodes →
      dta ≠ "X" ∧ dta ≠ "Y") := by
  have happ : FPGATransformState.apply exW 0 = some exWApplied := rfl
  have huniqW : ∀ j dta, (j, SNode.access dta) ∈ exWSt0.nodes →
      (dta = "X" → j = 0) ∧ (dta = "Y" → j = 2) := by
    intro j dta hmem
    simp [exWSt0, SDFGState.nodes] at hmem
    rcases hmem with ⟨hj, hd⟩ | ⟨hj, hd⟩
    · subst hd
      exact ⟨fun _ => hj, fun hc => absurd hc (by decide)⟩
    · subst hd
      exact ⟨fun hc => absurd hc (by decide), fun _ => hj⟩
  have hrefsW : ∀ j dta, (j, SNode.access dta) ∈ exWSt0.nodes →
      (exW.arrays.lookup dta).isSome = true := by
    intro j dta hmem
    simp [exWSt0, SDFGState.nodes] at hmem
    rcases hmem with ⟨hj, hd⟩ | ⟨hj, hd⟩ <;> subst hd <;> rfl
  have hfreshW : ∀ d : String, ("fpga_" ++ d) ∉ exW.arrays.map Prod.fst := by
    intro d hd
    simp [exW, SDFG.arrays] at hd
    rcases hd with h | h
    · have hl := congrArg String.length h
      rw [String.length_append, show "fpga_".length = 5 from rfl,
        show ("X" : String).length = 1 from rfl] at hl
      omega
    · have hl := congrArg String.length h
      rw [String.length_append, show "fpga_".length = 5 from rfl,
        show ("Y" : String).length = 1 from rfl] at hl
      omega
  obtain ⟨c1, c2, c3, c4, c5, c6, c7, c8, c9, c10, c11, c12, c13, c14, c15⟩ :=
    claim_C1_apply_structure exW exWApplied 0 exWSt0 exWMatched 0 2 "X" "Y"
      hostArr hostArr happ rfl rfl rfl rfl (by decide) (by decide)
      rfl rfl rfl rfl huniqW hrefsW hfreshW (by decide)
      (fun e he => absurd he (List.not_mem_nil e))
  exact ⟨happ, c2, c3, c8, c4, c5, c12⟩
